import Mathlib

/-!
Proof-of-work hashing engine: a verification development.

A shallow embedding of `app/src/main/cpp/mining` (`sha256.cpp`, `blake3.cpp`,
`scrypt.cpp`, `randomx_light.cpp`, `native_miner.cpp`).

Conventions of the embedding:

* a byte (`uint8_t`) and a word (`uint32_t`, `uint64_t`) are natural numbers;
  every place where the C++ truncates to a machine width carries an explicit
  `% 2^w` (`u8`, `u32`, `u64`);
* a buffer is a `List Nat`; a C array of fixed size that the code may overrun
  is guarded explicitly and the overrun is reported as `Fault.overflow`;
* a loop whose trip count is not bounded by its input is run on fuel and reports
  `Fault.timeout` when the fuel is used up.
-/

namespace Miner

/-! ## Machine arithmetic -/

/-- Truncation to `uint8_t`. -/
def u8 (x : Nat) : Nat := x % 256

/-- Truncation to `uint32_t`. -/
def u32 (x : Nat) : Nat := x % 4294967296

/-- Truncation to `uint64_t`. -/
def u64 (x : Nat) : Nat := x % 18446744073709551616

/-- Ways in which a run of the C++ code fails to produce a result. -/
inductive Fault where
  /-- A read or write outside a fixed-size buffer (undefined behaviour in C++). -/
  | overflow
  /-- A read of memory that was never written. -/
  | indeterminate
  /-- The loop did not finish within the fuel it was given. -/
  | timeout
deriving DecidableEq, Repr

/-! ## sha256.cpp -/

/-- The table `K[64]` of `sha256.cpp` (the hexadecimal digits in upper case). -/
def K : List Nat := [
  0x428A2F98, 0x71374491, 0xB5C0FBCF, 0xE9B5DBA5, 0x3956C25B, 0x59F111F1, 0x923F82A4, 0xAB1C5ED5,
  0xD807AA98, 0x12835B01, 0x243185BE, 0x550C7DC3, 0x72BE5D74, 0x80DEB1FE, 0x9BDC06A7, 0xC19BF174,
  0xE49B69C1, 0xEFBE4786, 0x0FC19DC6, 0x240CA1CC, 0x2DE92C6F, 0x4A7484AA, 0x5CB0A9DC, 0x76F988DA,
  0x983E5152, 0xA831C66D, 0xB00327C8, 0xBF597FC7, 0xC6E00BF3, 0xD5A79147, 0x06CA6351, 0x14292967,
  0x27B70A85, 0x2E1B2138, 0x4D2C6DFC, 0x53380D13, 0x650A7354, 0x766A0ABB, 0x81C2C92E, 0x92722C85,
  0xA2BFE8A1, 0xA81A664B, 0xC24B8B70, 0xC76C51A3, 0xD192E819, 0xD6990624, 0xF40E3585, 0x106AA070,
  0x19A4C116, 0x1E376C08, 0x2748774C, 0x34B0BCB5, 0x391C0CB3, 0x4ED8AA4A, 0x5B9CCA4F, 0x682E6FF3,
  0x748F82EE, 0x78A5636F, 0x84C87814, 0x8CC70208, 0x90BEFFFA, 0xA4506CEB, 0xBEF9A3F7, 0xC67178F2]

/-- The initial state `H0[8]` of `sha256.cpp`. -/
def H0 : List Nat := [
  0x6a09e667, 0xbb67ae85, 0x3c6ef372, 0xa54ff53a,
  0x510e527f, 0x9b05688c, 0x1f83d9ab, 0x5be0cd19]

/-- The macro `ROTR(x, n)` on a 32-bit word. -/
def ROTR (x n : Nat) : Nat := u32 ((x >>> n) ||| (x <<< (32 - n)))

/-- Bitwise complement `~x` of a 32-bit word. -/
def NOT32 (x : Nat) : Nat := 4294967295 - u32 x

/-- The macro `CH(x, y, z)`. -/
def CH (x y z : Nat) : Nat := (x &&& y) ^^^ (NOT32 x &&& z)

/-- The macro `MAJ(x, y, z)`. -/
def MAJ (x y z : Nat) : Nat := (x &&& y) ^^^ (x &&& z) ^^^ (y &&& z)

/-- The macro `EP0(x)`. -/
def EP0 (x : Nat) : Nat := ROTR x 2 ^^^ ROTR x 13 ^^^ ROTR x 22

/-- The macro `EP1(x)`. -/
def EP1 (x : Nat) : Nat := ROTR x 6 ^^^ ROTR x 11 ^^^ ROTR x 25

/-- The macro `SIG0(x)`. -/
def SIG0 (x : Nat) : Nat := ROTR x 7 ^^^ ROTR x 18 ^^^ (x >>> 3)

/-- The macro `SIG1(x)`. -/
def SIG1 (x : Nat) : Nat := ROTR x 17 ^^^ ROTR x 19 ^^^ (x >>> 10)

/-- The big-endian word `W[i]`, `i < 16`, read from `block[4i .. 4i+3]`. -/
def sha256_load (block : List Nat) (i : Nat) : Nat :=
  u32 ((block.getD (i * 4) 0 <<< 24) ||| (block.getD (i * 4 + 1) 0 <<< 16) |||
       (block.getD (i * 4 + 2) 0 <<< 8) ||| block.getD (i * 4 + 3) 0)

/-- The loop `for (i = 16; i < 64; i++) W[i] = ...`: `n` more words are appended
to the schedule `W`, the next index being `W.length`. -/
def sha256_schedule : Nat → List Nat → List Nat
  | 0, W => W
  | n + 1, W =>
    let i := W.length
    sha256_schedule n
      (W ++ [u32 (SIG1 (W.getD (i - 2) 0) + W.getD (i - 7) 0 +
                  SIG0 (W.getD (i - 15) 0) + W.getD (i - 16) 0)])

/-- The working variables `a .. h` of `sha256_transform`. -/
structure Sha256Vars where
  a : Nat
  b : Nat
  c : Nat
  d : Nat
  e : Nat
  f : Nat
  g : Nat
  h : Nat
deriving DecidableEq, Repr

/-- One of the 64 rounds of `sha256_transform`. -/
def sha256_round (W : List Nat) (v : Sha256Vars) (i : Nat) : Sha256Vars :=
  let t1 := u32 (v.h + EP1 v.e + CH v.e v.f v.g + K.getD i 0 + W.getD i 0)
  let t2 := u32 (EP0 v.a + MAJ v.a v.b v.c)
  { a := u32 (t1 + t2), b := v.a, c := v.b, d := v.c,
    e := u32 (v.d + t1), f := v.e, g := v.f, h := v.g }

/-- The compression `sha256_transform(state, block)`; `block` is a pointer, of
which the 64 bytes it points at are read. -/
def sha256_transform (state : List Nat) (block : List Nat) : List Nat :=
  let W := sha256_schedule 48 ((List.range 16).map (sha256_load block))
  let v0 : Sha256Vars :=
    ⟨state.getD 0 0, state.getD 1 0, state.getD 2 0, state.getD 3 0,
     state.getD 4 0, state.getD 5 0, state.getD 6 0, state.getD 7 0⟩
  let v := (List.range 64).foldl (sha256_round W) v0
  [u32 (state.getD 0 0 + v.a), u32 (state.getD 1 0 + v.b), u32 (state.getD 2 0 + v.c),
   u32 (state.getD 3 0 + v.d), u32 (state.getD 4 0 + v.e), u32 (state.getD 5 0 + v.f),
   u32 (state.getD 6 0 + v.g), u32 (state.getD 7 0 + v.h)]

/-- The loop `while (len >= 64) { sha256_transform(state, data); data += 64; len -= 64; }`.
It returns the state and the unread tail of the input. Every iteration removes 64
bytes, so a fuel of `data.length` is never used up. -/
def sha256_full_blocks : Nat → List Nat → List Nat → List Nat × List Nat
  | 0, state, data => (state, data)
  | fuel + 1, state, data =>
    if 64 ≤ data.length then
      sha256_full_blocks fuel (sha256_transform state data) (data.drop 64)
    else (state, data)

/-- The loop `for (i = 0; i < 8; i++) block[63 - i] = (uint8_t)(originalBits >> (i * 8))`. -/
def sha256_write_length (block : List Nat) (originalBits : Nat) : List Nat :=
  (List.range 8).foldl (fun blk i => blk.set (63 - i) (u8 (originalBits >>> (i * 8)))) block

/-- The state and the block of the last call of `sha256_transform` in `sha256_hash`:
everything from `memcpy(state, H0, ...)` to the loop that writes the length. The
variable `len` is, as in the source, what is left of the input after the loop over
the full blocks; `bitLen` and `totalLen` of the source are never read and are left out. -/
def sha256_last_call (data : List Nat) : List Nat × List Nat :=
  let (state, data) := sha256_full_blocks data.length H0 data
  let len := data.length
  let block := List.replicate 64 0
  let block := data ++ block.drop len
  let block := block.set len 0x80
  let (state, block) :=
    if 56 ≤ len then (sha256_transform state block, List.replicate 64 0) else (state, block)
  let originalBits := u64 (len * 8)
  (state, sha256_write_length block originalBits)

/-- The final loop of `sha256_hash`: the 8 state words, big-endian. -/
def sha256_output (state : List Nat) : List Nat :=
  (List.range 8).flatMap fun i =>
    [u8 (state.getD i 0 >>> 24), u8 (state.getD i 0 >>> 16),
     u8 (state.getD i 0 >>> 8), u8 (state.getD i 0)]

/-- The function `sha256_hash(data, len, hash)` with `len = data.length`; the result
is the content of `hash`. -/
def sha256_hash (data : List Nat) : List Nat :=
  let (state, block) := sha256_last_call data
  sha256_output (sha256_transform state block)

/-- The 8 bytes of a 64-bit value, most significant first. -/
def be64 (n : Nat) : List Nat :=
  [u8 (n >>> 56), u8 (n >>> 48), u8 (n >>> 40), u8 (n >>> 32),
   u8 (n >>> 24), u8 (n >>> 16), u8 (n >>> 8), u8 n]

/-- The value of a byte string read as a big-endian number. -/
def beValue (bytes : List Nat) : Nat := bytes.foldl (fun acc b => acc * 256 + b) 0

/-- The length field of a padded block: its last 8 bytes as a big-endian number. -/
def sha256_length_field (block : List Nat) : Nat := beValue (block.drop 56)

/-- The padding in the words of the specification (§4.1): a single `1` bit, zero
padding, and the original bit length as a 64-bit big-endian integer, the whole a
multiple of 64 bytes. -/
def spec_sha256_pad (msg : List Nat) : List Nat :=
  msg ++ [0x80] ++ List.replicate ((119 - msg.length % 64) % 64) 0 ++ be64 (8 * msg.length)

/-- The chaining of the specification: the compression applied to `n` successive
64-byte blocks. -/
def spec_sha256_chain : Nat → List Nat → List Nat → List Nat
  | 0, state, _ => state
  | n + 1, state, data => spec_sha256_chain n (sha256_transform state data) (data.drop 64)

/-- The hash in the words of the specification (§4.1): the padded message is
compressed block by block from the initial state, and the 8 state words are
serialised big-endian. It is compared with `sha256_hash`, which is the code. -/
def spec_sha256 (msg : List Nat) : List Nat :=
  sha256_output (spec_sha256_chain ((spec_sha256_pad msg).length / 64) H0 (spec_sha256_pad msg))

/-! ## blake3.cpp -/

/-- The constants `IV[8]` of `blake3.cpp`. -/
def IV : List Nat := [
  0x6A09E667, 0xBB67AE85, 0x3C6EF372, 0xA54FF53A,
  0x510E527F, 0x9B05688C, 0x1F83D9AB, 0x5BE0CD19]

/-- The table `MSG_SCHEDULE[7][16]` of `blake3.cpp`. -/
def MSG_SCHEDULE : List (List Nat) := [
  [0, 1, 2, 3, 4, 5, 6, 7, 8, 9, 10, 11, 12, 13, 14, 15],
  [2, 6, 3, 10, 7, 0, 4, 13, 1, 11, 12, 5, 9, 14, 15, 8],
  [3, 4, 10, 12, 13, 2, 7, 14, 6, 5, 9, 0, 11, 15, 8, 1],
  [10, 7, 12, 9, 14, 3, 13, 15, 4, 0, 11, 2, 5, 8, 1, 6],
  [12, 13, 9, 11, 15, 10, 14, 8, 7, 2, 5, 3, 0, 1, 6, 4],
  [9, 14, 11, 5, 8, 12, 15, 1, 13, 3, 0, 10, 2, 6, 4, 7],
  [11, 15, 5, 0, 1, 9, 8, 6, 14, 10, 2, 12, 3, 4, 7, 13]]

/-- The macro `ROTR32(x, n)`. -/
def ROTR32 (x n : Nat) : Nat := u32 ((x >>> n) ||| (x <<< (32 - n)))

/-- The mixing function `g(state, a, b, c, d, mx, my)`. -/
def g (state : List Nat) (a b c d mx my : Nat) : List Nat :=
  let state := state.set a (u32 (state.getD a 0 + state.getD b 0 + mx))
  let state := state.set d (ROTR32 (state.getD d 0 ^^^ state.getD a 0) 16)
  let state := state.set c (u32 (state.getD c 0 + state.getD d 0))
  let state := state.set b (ROTR32 (state.getD b 0 ^^^ state.getD c 0) 12)
  let state := state.set a (u32 (state.getD a 0 + state.getD b 0 + my))
  let state := state.set d (ROTR32 (state.getD d 0 ^^^ state.getD a 0) 8)
  let state := state.set c (u32 (state.getD c 0 + state.getD d 0))
  state.set b (ROTR32 (state.getD b 0 ^^^ state.getD c 0) 7)

/-- The little-endian word `m[i]` read from `block[4i .. 4i+3]`. -/
def blake3_load (block : List Nat) (i : Nat) : Nat :=
  u32 (block.getD (i * 4) 0 ||| (block.getD (i * 4 + 1) 0 <<< 8) |||
       (block.getD (i * 4 + 2) 0 <<< 16) ||| (block.getD (i * 4 + 3) 0 <<< 24))

/-- One of the 7 rounds of `blake3_compress`: the column step and the diagonal step. -/
def blake3_round (m : List Nat) (state : List Nat) (round : Nat) : List Nat :=
  let schedule := MSG_SCHEDULE.getD round []
  let mw (k : Nat) : Nat := m.getD (schedule.getD k 0) 0
  let state := g state 0 4 8 12 (mw 0) (mw 1)
  let state := g state 1 5 9 13 (mw 2) (mw 3)
  let state := g state 2 6 10 14 (mw 4) (mw 5)
  let state := g state 3 7 11 15 (mw 6) (mw 7)
  let state := g state 0 5 10 15 (mw 8) (mw 9)
  let state := g state 1 6 11 12 (mw 10) (mw 11)
  let state := g state 2 7 8 13 (mw 12) (mw 13)
  g state 3 4 9 14 (mw 14) (mw 15)

/-- The loop `for (i = 0; i < 8; i++) { state[i] ^= state[i + 8]; state[i + 8] ^= chaining[i]; }`. -/
def blake3_finalize (chaining state : List Nat) : List Nat :=
  (List.range 8).foldl (fun st i =>
    let st := st.set i (st.getD i 0 ^^^ st.getD (i + 8) 0)
    st.set (i + 8) (st.getD (i + 8) 0 ^^^ chaining.getD i 0)) state

/-- The function `blake3_compress(chaining, block, counter, blockLen, flags, out)`;
the result is the content of `out[16]`. -/
def blake3_compress (chaining : List Nat) (block : List Nat) (counter blockLen flags : Nat) :
    List Nat :=
  let m := (List.range 16).map (blake3_load block)
  let state := (List.range 8).map (fun i => chaining.getD i 0) ++
    [IV.getD 0 0, IV.getD 1 0, IV.getD 2 0, IV.getD 3 0,
     u32 counter, u32 (counter >>> 32), blockLen, flags]
  let state := (List.range 7).foldl (blake3_round m) state
  blake3_finalize chaining state

/-- The flag `CHUNK_START`. -/
def CHUNK_START : Nat := 1

/-- The flag `CHUNK_END`. -/
def CHUNK_END : Nat := 2

/-- The flag `ROOT`. -/
def ROOT : Nat := 8

/-- The loop `while (len > 64) { ... blake3_compress(chaining, block, 0, 64, 0, out); ... }`
of the multi-block branch. It returns the chaining value and the unread tail of the
input. Every iteration removes 64 bytes, so a fuel of `data.length` is never used up. -/
def blake3_middle_blocks : Nat → List Nat → List Nat → List Nat × List Nat
  | 0, chaining, data => (chaining, data)
  | fuel + 1, chaining, data =>
    if 64 < data.length then
      let out := blake3_compress chaining (data.take 64) 0 64 0
      blake3_middle_blocks fuel (out.take 8) (data.drop 64)
    else (chaining, data)

/-- The content of `out[16]` when `blake3_hash` reaches its output loop. -/
def blake3_final_out (data : List Nat) : List Nat :=
  let len := data.length
  if len = 0 then
    blake3_compress IV (List.replicate 64 0) 0 0 (CHUNK_START ||| CHUNK_END ||| ROOT)
  else if len ≤ 64 then
    blake3_compress IV (data ++ (List.replicate 64 0).drop len) 0 (u32 len)
      (CHUNK_START ||| CHUNK_END ||| ROOT)
  else
    let out := blake3_compress IV (data.take 64) 0 64 CHUNK_START
    let (chaining, data) := blake3_middle_blocks (data.length - 64) (out.take 8) (data.drop 64)
    let len := data.length
    blake3_compress chaining (data ++ (List.replicate 64 0).drop len) 0 (u32 len)
      (CHUNK_END ||| ROOT)

/-- The output loop of `blake3_hash`: the first 8 words of `out`, little-endian. -/
def blake3_output (out : List Nat) : List Nat :=
  (List.range 8).flatMap fun i =>
    [u8 (out.getD i 0), u8 (out.getD i 0 >>> 8),
     u8 (out.getD i 0 >>> 16), u8 (out.getD i 0 >>> 24)]

/-- The function `blake3_hash(data, len, hash)` with `len = data.length`; the result
is the content of `hash`. -/
def blake3_hash (data : List Nat) : List Nat :=
  blake3_output (blake3_final_out data)

/-! ## native_miner.cpp: the two nonce searches -/

/-- The cast `(uint32_t)x` of a `jlong`. -/
def castU32 (x : Int) : Nat := (x % 4294967296).toNat

/-- The cast `(uint64_t)x` of a `jlong`. -/
def castU64 (x : Int) : Nat := (x % 18446744073709551616).toNat

/-- The cast `(jlong)n` of an unsigned 64-bit value (two's complement). -/
def castJlong (n : Nat) : Int :=
  if u64 n < 9223372036854775808 then (u64 n : Int) else (u64 n : Int) - 18446744073709551616

/-- How the comparison loop of `mineSha256d` is left. -/
inductive TargetScan where
  /-- By `return (jlong)nonce`: a byte of the digest is below the target's. -/
  | returned
  /-- By `break` (with `meetsTarget = false`) or because `i` went below 0 (with
  `meetsTarget` still `true`). The flag is not read afterwards. -/
  | finished (meetsTarget : Bool)
deriving DecidableEq, Repr

/-- The loop `for (int i = 31; i >= 0; i--)` of `mineSha256d`, entered with
`i + 1 = k`. The list `target` holds the values `(uint8_t)targetBytes[i]`. -/
def sha256d_target_scan (hash2 target : List Nat) : Nat → Except Fault TargetScan
  | 0 => .ok (.finished true)
  | i + 1 =>
    match target[i]? with
    | none => .error .overflow
    | some t =>
      if hash2.getD i 0 < t then .ok .returned
      else if hash2.getD i 0 > t then .ok (.finished false)
      else sha256d_target_scan hash2 target i

/-- The four stores `header[76 .. 79] = nonce` (little-endian) of `mineSha256d`. -/
def sha256d_insert_nonce (header : List Nat) (nonce : Nat) : List Nat :=
  let header := header.set 76 (u8 (nonce &&& 0xFF))
  let header := header.set 77 (u8 ((nonce >>> 8) &&& 0xFF))
  let header := header.set 78 (u8 ((nonce >>> 16) &&& 0xFF))
  header.set 79 (u8 ((nonce >>> 24) &&& 0xFF))

/-- The digest `hash2` that `mineSha256d` computes for a nonce: two applications of
`sha256_hash` to the 80 bytes of `header` with the nonce stored in it. -/
def sha256d_digest (header : List Nat) (nonce : Nat) : List Nat :=
  let header := sha256d_insert_nonce header nonce
  let hash1 := sha256_hash (header.take 80)
  sha256_hash (hash1.take 32)

/-- One attempt of `mineSha256d`: the digest of the nonce, scanned against the target. -/
def sha256d_attempt (header target : List Nat) (nonce : Nat) : Except Fault TargetScan :=
  sha256d_target_scan (sha256d_digest header nonce) target 32

/-- The loop `for (uint32_t nonce = ...; nonce <= (uint32_t)endNonce; nonce++)` of
`mineSha256d`. The result is the returned `jlong` and the value stored in
`hashCountOut[0]`. The array `header` is carried from one iteration to the next. -/
def mineSha256d_loop (target : List Nat) (endNonce : Nat) :
    Nat → List Nat → Nat → Nat → Except Fault (Int × Nat)
  | 0, _, nonce, hashCount =>
    if nonce ≤ endNonce then .error .timeout else .ok (-1, hashCount)
  | fuel + 1, header, nonce, hashCount =>
    if nonce ≤ endNonce then
      let hashCount := hashCount + 1
      match sha256d_attempt header target nonce with
      | .error e => .error e
      | .ok .returned => .ok ((nonce : Int), hashCount)
      | .ok (.finished _) =>
        mineSha256d_loop target endNonce fuel (sha256d_insert_nonce header nonce)
          (u32 (nonce + 1)) hashCount
    else .ok (-1, hashCount)

/-- The function `mineSha256d(blockHeader, target, startNonce, endNonce, hashCountOut)`.
Of a header shorter than 80 bytes the code hashes bytes of `header[80]` that were
never written. -/
def mineSha256d (fuel : Nat) (blockHeader target : List Nat) (startNonce endNonce : Int) :
    Except Fault (Int × Nat) :=
  if blockHeader.length < 80 then .error .indeterminate
  else
    mineSha256d_loop target (castU32 endNonce) fuel (blockHeader.take 80) (castU32 startNonce) 0

/-- The loop `for (int i = 0; i < requiredZeros && valid; i++) if (hash[i] != 0) valid = false;`
of `mineBlake3`, with `k` iterations left and the index at `i`; the result is `valid`. -/
def blake3_zero_bytes (hash : List Nat) : Nat → Nat → Except Fault Bool
  | 0, _ => .ok true
  | k + 1, i =>
    match hash[i]? with
    | none => .error .overflow
    | some b => if b ≠ 0 then .ok false else blake3_zero_bytes hash k (i + 1)

/-- The validity check of `mineBlake3` on a digest `hash[32]`. -/
def blake3_valid (difficulty : Int) (hash : List Nat) : Except Fault Bool :=
  let requiredZeros := difficulty.tdiv 8
  let remainingBits := difficulty.tmod 8
  match blake3_zero_bytes hash requiredZeros.toNat 0 with
  | .error e => .error e
  | .ok valid =>
    if valid && decide (0 < remainingBits) then
      let mask := u8 (0xFF <<< (8 - remainingBits).toNat)
      match hash[requiredZeros.toNat]? with
      | none => .error .overflow
      | some b => if b &&& mask ≠ 0 then .ok false else .ok valid
    else .ok valid

/-- The 8 stores `data[actualLen + i] = (uint8_t)((nonce >> (i * 8)) & 0xFF)`. -/
def le64 (nonce : Nat) : List Nat :=
  (List.range 8).map fun i => u8 ((nonce >>> (i * 8)) &&& 0xFF)

/-- The digest that `mineBlake3` computes for a nonce: `blake3_hash` of the first
`actualLen = min(dataLen, 248)` bytes of the payload followed by the nonce. -/
def blake3_digest (blockData : List Nat) (nonce : Nat) : List Nat :=
  let actualLen := if blockData.length < 248 then blockData.length else 248
  blake3_hash (blockData.take actualLen ++ le64 nonce)

/-- One attempt of `mineBlake3`: the digest of the nonce and its validity. -/
def blake3_attempt (blockData : List Nat) (difficulty : Int) (nonce : Nat) : Except Fault Bool :=
  blake3_valid difficulty (blake3_digest blockData nonce)

/-- The loop `for (uint64_t nonce = startNonce; nonce <= (uint64_t)endNonce; nonce++)`
of `mineBlake3`. The result is the returned `jlong` and the value stored in
`hashCountOut[0]`. -/
def mineBlake3_loop (blockData : List Nat) (difficulty : Int) (endNonce : Nat) :
    Nat → Nat → Nat → Except Fault (Int × Nat)
  | 0, nonce, hashCount =>
    if nonce ≤ endNonce then .error .timeout else .ok (-1, hashCount)
  | fuel + 1, nonce, hashCount =>
    if nonce ≤ endNonce then
      let hashCount := hashCount + 1
      match blake3_attempt blockData difficulty nonce with
      | .error e => .error e
      | .ok true => .ok (castJlong nonce, hashCount)
      | .ok false => mineBlake3_loop blockData difficulty endNonce fuel (u64 (nonce + 1)) hashCount
    else .ok (-1, hashCount)

/-- The function `mineBlake3(blockData, difficulty, startNonce, endNonce, hashCountOut)`. -/
def mineBlake3 (fuel : Nat) (blockData : List Nat) (difficulty startNonce endNonce : Int) :
    Except Fault (Int × Nat) :=
  mineBlake3_loop blockData difficulty (castU64 endNonce) fuel (castU64 startNonce) 0

/-! ## randomx_light.cpp -/

/-- The table `AES_ROUND_KEYS[16]` of `randomx_light.cpp`. -/
def AES_ROUND_KEYS : List Nat := [
  0x6a, 0x09, 0xe6, 0x67, 0xbb, 0x67, 0xae, 0x85,
  0x3c, 0x6e, 0xf3, 0x72, 0xa5, 0x4f, 0xf5, 0x3a]

/-- The function `aes_round(state, key)`; the result is the content of `state[16]`. -/
def aes_round (state key : List Nat) : List Nat :=
  let state := (List.range 16).foldl (fun st i =>
    let st := st.set i (u8 (st.getD i 0 ^^^ key.getD i 0))
    st.set i (u8 ((st.getD i 0 * 0x9D + 0x5B) &&& 0xFF))) state
  let temp := state.getD 1 0
  let state := state.set 1 (state.getD 5 0)
  let state := state.set 5 (state.getD 9 0)
  let state := state.set 9 (state.getD 13 0)
  let state := state.set 13 temp
  let temp := state.getD 2 0
  let state := state.set 2 (state.getD 10 0)
  let state := state.set 10 temp
  let temp := state.getD 6 0
  let state := state.set 6 (state.getD 14 0)
  let state := state.set 14 temp
  let temp := state.getD 15 0
  let state := state.set 15 (state.getD 11 0)
  let state := state.set 11 (state.getD 7 0)
  let state := state.set 7 (state.getD 3 0)
  state.set 3 temp

/-- The loop `for (i = 0; i < size; i += 16) { aes_round(state, AES_ROUND_KEYS);
memcpy(scratchpad + i, state, 16); }` with `n` iterations left; `scratchpad` is what
has been written so far, each `memcpy` continuing where the one before stopped. -/
def init_scratchpad_fill : Nat → List Nat → List Nat → List Nat
  | 0, _, scratchpad => scratchpad
  | n + 1, state, scratchpad =>
    let state := aes_round state AES_ROUND_KEYS
    init_scratchpad_fill n state (scratchpad ++ state)

/-- The function `init_scratchpad(scratchpad, size, seed, seedLen)`; the result is
the content of `scratchpad`. The loop runs `ceil(size / 16)` times. -/
def init_scratchpad (size : Nat) (seed : List Nat) : List Nat :=
  let state := List.replicate 16 0
  let state := (List.range (min seed.length 16)).foldl
    (fun st i => st.set i (seed.getD i 0)) state
  init_scratchpad_fill ((size + 15) / 16) state []

/-- The body of the loop of `execute_program` for one value of `round`. The 8 bytes
at `addr .. addr + 7` are read and written in every round; when they are not all
inside the scratchpad the round is a buffer overrun. -/
def execute_round (scratchpadSize round : Nat) (scratchpad registerFile : List Nat) :
    Except Fault (List Nat × List Nat) :=
  let addr := ((registerFile.getD 0 0 <<< 8) ||| registerFile.getD 1 0) % (scratchpadSize - 8)
  if scratchpad.length < addr + 8 then .error .overflow
  else
    let value := (List.range 8).foldl
      (fun v i => v ||| u64 (scratchpad.getD (addr + i) 0 <<< (i * 8))) 0
    let registerFile :=
      match round % 8 with
      | 0 => (List.range 8).foldl (fun (rf : List Nat) i =>
          rf.set (i * 2) (u8 (rf.getD (i * 2) 0 ^^^ ((value >>> (i * 8)) &&& 0xFF)))) registerFile
      | 1 => (List.range 8).foldl (fun (rf : List Nat) i =>
          rf.set (i * 2 + 1) (u8 (rf.getD (i * 2 + 1) 0 + ((value >>> (i * 8)) &&& 0xFF))))
            registerFile
      | 2 => registerFile.set 16 (u8 (u64 (value * registerFile.getD 0 0)))
      | 3 =>
        let shift := u8 (registerFile.getD 1 0 % 8)
        (List.range 8).foldl (fun (rf : List Nat) i =>
          rf.set (24 + i) (u8 ((scratchpad.getD (addr + i) 0 <<< shift) |||
            (scratchpad.getD (addr + i) 0 >>> (8 - shift))))) registerFile
      | 4 => (List.range 8).foldl (fun (rf : List Nat) i =>
          rf.set (32 + i) (u8 (rf.getD (32 + i) 0 + 256 - ((value >>> (i * 8)) &&& 0xFF))))
            registerFile
      | 5 =>
        let temp := registerFile.getD 40 0
        let registerFile := registerFile.set 40 (registerFile.getD 41 0)
        registerFile.set 41 temp
      | 6 => (List.range 8).foldl (fun (rf : List Nat) i =>
          rf.set (48 + i) (u8 (rf.getD (48 + i) 0 &&& ((value >>> (i * 8)) &&& 0xFF))))
            registerFile
      | _ => (List.range 8).foldl (fun (rf : List Nat) i =>
          rf.set (56 + i) (u8 (rf.getD (56 + i) 0 ||| ((value >>> (i * 8)) &&& 0xFF))))
            registerFile
    let scratchpad := (List.range 8).foldl (fun sp i =>
      sp.set (addr + i) (u8 (sp.getD (addr + i) 0 ^^^ registerFile.getD (round % 256) 0)))
        scratchpad
    let registerFile := registerFile.set 0 (registerFile.getD 1 0)
    let registerFile := registerFile.set 1 (scratchpad.getD addr 0)
    .ok (scratchpad, registerFile)

/-- The loop `for (int round = 0; round < 2048; round++)` of `execute_program`, with
`n` iterations left. -/
def execute_rounds (scratchpadSize : Nat) :
    Nat → Nat → List Nat → List Nat → Except Fault (List Nat × List Nat)
  | 0, _, scratchpad, registerFile => .ok (scratchpad, registerFile)
  | n + 1, round, scratchpad, registerFile =>
    match execute_round scratchpadSize round scratchpad registerFile with
    | .error e => .error e
    | .ok (scratchpad, registerFile) =>
      execute_rounds scratchpadSize n (round + 1) scratchpad registerFile

/-- The register file as `execute_program` seeds it: `memset(registerFile, 0, 256)`
and the copy of the first `min(inputLen, 256)` bytes of the input. -/
def init_registers (input : List Nat) : List Nat :=
  (List.range (min input.length 256)).foldl
    (fun rf i => rf.set i (input.getD i 0)) (List.replicate 256 0)

/-- The function `execute_program(scratchpad, scratchpadSize, input, inputLen, registerFile)`;
the result is the content of `scratchpad` and of `registerFile`. -/
def execute_program (scratchpad : List Nat) (scratchpadSize : Nat) (input : List Nat) :
    Except Fault (List Nat × List Nat) :=
  execute_rounds scratchpadSize 2048 0 scratchpad (init_registers input)

/-- The constant `SCRATCHPAD_SIZE`. -/
def SCRATCHPAD_SIZE : Nat := 256 * 1024

/-- The function `randomx_light_hash(input, inputLen, key, keyLen, hash)`; `mallocOk`
tells whether `malloc(SCRATCHPAD_SIZE)` returned a buffer. -/
def randomx_light_hash (mallocOk : Bool) (input key : List Nat) : Except Fault (List Nat) :=
  if !mallocOk then .ok (blake3_hash input)
  else
    match execute_program (init_scratchpad SCRATCHPAD_SIZE key) SCRATCHPAD_SIZE input with
    | .error e => .error e
    | .ok (scratchpad, registerFile) =>
      .ok (blake3_hash (registerFile.take 256 ++ scratchpad.take 256))

/-! ## scrypt.cpp -/

/-- The function `hmac_sha256(key, keyLen, data, dataLen, mac)`. The array
`inner[64 + 1024]` holds at most 1024 bytes of data. -/
def hmac_sha256 (key data : List Nat) : Except Fault (List Nat) :=
  let key := if 64 < key.length then sha256_hash key else key
  let k_ipad := (List.range key.length).foldl
    (fun pad i => pad.set i (u8 (pad.getD i 0 ^^^ key.getD i 0))) (List.replicate 64 0x36)
  let k_opad := (List.range key.length).foldl
    (fun pad i => pad.set i (u8 (pad.getD i 0 ^^^ key.getD i 0))) (List.replicate 64 0x5c)
  if 1024 < data.length then .error .overflow
  else
    let inner := k_ipad ++ data
    let innerHash := sha256_hash inner
    let outer := k_opad ++ innerHash
    .ok (sha256_hash outer)

/-- The loop `for (int i = 1; i < iterations; i++)` of `pbkdf2_sha256`, with `n`
iterations left; the result is `T`. -/
def pbkdf2_iterate (password : List Nat) : Nat → List Nat → List Nat → Except Fault (List Nat)
  | 0, _, T => .ok T
  | n + 1, U, T =>
    match hmac_sha256 password U with
    | .error e => .error e
    | .ok U =>
      pbkdf2_iterate password n U
        ((List.range 32).foldl (fun t j => t.set j (u8 (t.getD j 0 ^^^ U.getD j 0))) T)

/-- The loop `while (outputOffset < outputLen)` of `pbkdf2_sha256`. The array
`block[256]` holds the salt and 4 more bytes. `output` is what has been written so
far, each `memcpy` continuing where the one before stopped. Every iteration
advances `outputOffset` by 32, so a fuel of `outputLen` is never used up. -/
def pbkdf2_blocks (password salt : List Nat) (iterations : Int) (outputLen : Nat) :
    Nat → Nat → Nat → List Nat → Except Fault (List Nat)
  | 0, outputOffset, _, output =>
    if outputOffset < outputLen then .error .timeout else .ok output
  | fuel + 1, outputOffset, blockNum, output =>
    if outputOffset < outputLen then
      if 256 < salt.length + 4 then .error .overflow
      else
        let block := salt ++ [u8 (blockNum >>> 24), u8 (blockNum >>> 16),
          u8 (blockNum >>> 8), u8 blockNum]
        match hmac_sha256 password block with
        | .error e => .error e
        | .ok U =>
          match pbkdf2_iterate password (iterations - 1).toNat U U with
          | .error e => .error e
          | .ok T =>
            let copyLen := if outputLen - outputOffset < 32 then outputLen - outputOffset else 32
            pbkdf2_blocks password salt iterations outputLen fuel (outputOffset + 32)
              (blockNum + 1) (output ++ T.take copyLen)
    else .ok output

/-- The function `pbkdf2_sha256(password, passwordLen, salt, saltLen, iterations,
output, outputLen)`; the result is the content of `output`. -/
def pbkdf2_sha256 (password salt : List Nat) (iterations : Int) (outputLen : Nat) :
    Except Fault (List Nat) :=
  pbkdf2_blocks password salt iterations outputLen outputLen 0 1 []

/-- The macro `R(a, b)` of `salsa20_8`, on a 32-bit word. -/
def R (a b : Nat) : Nat := u32 ((a <<< b) ||| (a >>> (32 - b)))

/-- A statement `x[d] ^= R(x[a] + x[b], k)` of `salsa20_8`. -/
def salsa20_step (x : List Nat) (d a b k : Nat) : List Nat :=
  x.set d (x.getD d 0 ^^^ R (u32 (x.getD a 0 + x.getD b 0)) k)

/-- The body of the loop of `salsa20_8`: 16 statements on the columns, then 16 on
the rows. -/
def salsa20_body (x : List Nat) : List Nat :=
  let x := salsa20_step x 4 0 12 7
  let x := salsa20_step x 8 4 0 9
  let x := salsa20_step x 12 8 4 13
  let x := salsa20_step x 0 12 8 18
  let x := salsa20_step x 9 5 1 7
  let x := salsa20_step x 13 9 5 9
  let x := salsa20_step x 1 13 9 13
  let x := salsa20_step x 5 1 13 18
  let x := salsa20_step x 14 10 6 7
  let x := salsa20_step x 2 14 10 9
  let x := salsa20_step x 6 2 14 13
  let x := salsa20_step x 10 6 2 18
  let x := salsa20_step x 3 15 11 7
  let x := salsa20_step x 7 3 15 9
  let x := salsa20_step x 11 7 3 13
  let x := salsa20_step x 15 11 7 18
  let x := salsa20_step x 1 0 3 7
  let x := salsa20_step x 2 1 0 9
  let x := salsa20_step x 3 2 1 13
  let x := salsa20_step x 0 3 2 18
  let x := salsa20_step x 6 5 4 7
  let x := salsa20_step x 7 6 5 9
  let x := salsa20_step x 4 7 6 13
  let x := salsa20_step x 5 4 7 18
  let x := salsa20_step x 11 10 9 7
  let x := salsa20_step x 8 11 10 9
  let x := salsa20_step x 9 8 11 13
  let x := salsa20_step x 10 9 8 18
  let x := salsa20_step x 12 15 14 7
  let x := salsa20_step x 13 12 15 9
  let x := salsa20_step x 14 13 12 13
  salsa20_step x 15 14 13 18

/-- The loop `for (int i = 0; i < 8; i += 2)` of `salsa20_8`, entered at `i`. -/
def salsa20_loop : Nat → Nat → List Nat → List Nat
  | 0, _, x => x
  | fuel + 1, i, x => if i < 8 then salsa20_loop fuel (i + 2) (salsa20_body x) else x

/-- The function `salsa20_8(B)`; the result is the content of `B[16]`. -/
def salsa20_8 (B : List Nat) : List Nat :=
  let x := salsa20_loop 8 0 B
  (List.range 16).foldl (fun B i => B.set i (u32 (B.getD i 0 + x.getD i 0))) B

/-- A call `memcpy(dst + off, src, ...)` copying all of `src`. -/
def memcpy_at (dst : List Nat) (off : Nat) (src : List Nat) : List Nat :=
  dst.take off ++ src ++ dst.drop (off + src.length)

/-- The first loop of `scrypt_block_mix`, over `i < 2 * r`, as a step on `(X, Y)`;
`Y` is what has been written so far, 16 words for each `i`. -/
def scrypt_block_mix_step (B : List Nat) (XY : List Nat × List Nat) (i : Nat) :
    List Nat × List Nat :=
  let X := (List.range 16).foldl
    (fun X j => X.set j (X.getD j 0 ^^^ B.getD (i * 16 + j) 0)) XY.1
  let X := salsa20_8 X
  (X, XY.2 ++ X)

/-- The function `scrypt_block_mix(B, Y, r)`; the result is the content of `B`. With
`r < 1` the first `memcpy` reads in front of `B`. -/
def scrypt_block_mix (B : List Nat) (r : Int) : Except Fault (List Nat) :=
  if r < 1 then .error .overflow
  else
    let r := r.toNat
    let X := (B.drop ((2 * r - 1) * 16)).take 16
    let (_, Y) := (List.range (2 * r)).foldl (scrypt_block_mix_step B) (X, [])
    .ok ((List.range r).foldl (fun B i =>
      let B := memcpy_at B (i * 16) ((Y.drop ((2 * i) * 16)).take 16)
      memcpy_at B ((r + i) * 16) ((Y.drop ((2 * i + 1) * 16)).take 16)) B)

/-- The first loop of `scrypt_romix` with `n` iterations left; `V` is what has been
written of the table so far, one block for each iteration. -/
def scrypt_romix_fill (r : Int) : Nat → List Nat → List Nat → Except Fault (List Nat × List Nat)
  | 0, V, X => .ok (V, X)
  | n + 1, V, X =>
    match scrypt_block_mix X r with
    | .error e => .error e
    | .ok X' => scrypt_romix_fill r n (V ++ X) X'

/-- The second loop of `scrypt_romix` with `n` iterations left. -/
def scrypt_romix_mix (r N : Int) (V : List Nat) : Nat → List Nat → Except Fault (List Nat)
  | 0, X => .ok X
  | n + 1, X =>
    let blockSize := (32 * r).toNat
    let j := X.getD ((2 * r.toNat - 1) * 16) 0 % N.toNat
    let X := (List.range blockSize).foldl
      (fun X k => X.set k (X.getD k 0 ^^^ V.getD (j * blockSize + k) 0)) X
    match scrypt_block_mix X r with
    | .error e => .error e
    | .ok X => scrypt_romix_mix r N V n X

/-- The function `scrypt_romix(B, r, N, V, XY)` on a block of `32 * r` words; the
result is the content of `B`. A negative `r` makes the first `memcpy` copy a
negative number of bytes. -/
def scrypt_romix (B : List Nat) (r N : Int) : Except Fault (List Nat) :=
  let blockSize := 32 * r
  if blockSize < 0 then .error .overflow
  else
    let X := B.take blockSize.toNat
    match scrypt_romix_fill r N.toNat [] X with
    | .error e => .error e
    | .ok (V, X) => scrypt_romix_mix r N V N.toNat X

/-- The words of a byte buffer read through a `uint32_t*` (little-endian target). -/
def bytes_to_words (bytes : List Nat) : List Nat :=
  (List.range (bytes.length / 4)).map fun i =>
    u32 (bytes.getD (4 * i) 0 ||| (bytes.getD (4 * i + 1) 0 <<< 8) |||
      (bytes.getD (4 * i + 2) 0 <<< 16) ||| (bytes.getD (4 * i + 3) 0 <<< 24))

/-- The bytes of a buffer of 32-bit words (little-endian target). -/
def words_to_bytes (words : List Nat) : List Nat :=
  words.flatMap fun w => [u8 w, u8 (w >>> 8), u8 (w >>> 16), u8 (w >>> 24)]

/-- The loop `for (int i = 0; i < p; i++) scrypt_romix((uint32_t*)(B + i * blockSize), ...)`
of `scrypt_hash`, with `n` iterations left. -/
def scrypt_lanes (r N : Int) (blockSize : Nat) : Nat → Nat → List Nat → Except Fault (List Nat)
  | 0, _, B => .ok B
  | n + 1, i, B =>
    match scrypt_romix (bytes_to_words ((B.drop (i * blockSize)).take blockSize)) r N with
    | .error e => .error e
    | .ok X => scrypt_lanes r N blockSize n (i + 1) (memcpy_at B (i * blockSize) (words_to_bytes X))

/-- The function `scrypt_hash(password, passwordLen, salt, saltLen, N, r, p, output,
outputLen)`; the result is the content of `output`. The three `malloc` calls are
taken to succeed. A negative `blockSize * p` is converted to a `size_t` beyond any
buffer. -/
def scrypt_hash (password salt : List Nat) (N r p : Int) (outputLen : Nat) :
    Except Fault (List Nat) :=
  let blockSize := 128 * r
  if blockSize * p < 0 then .error .overflow
  else
    match pbkdf2_sha256 password salt 1 (blockSize * p).toNat with
    | .error e => .error e
    | .ok B =>
      match scrypt_lanes r N blockSize.toNat p.toNat 0 B with
      | .error e => .error e
      | .ok B => pbkdf2_sha256 password B 1 outputLen


/-! ## Auxiliary definitions used to state and prove the properties -/

/-- A search loop over nonces of a machine type with `M` values, written once for the
proofs: `test` is one attempt, and the result is the nonce found, if any, and the
number of attempts. Both loops of `native_miner.cpp` are instances of it
(`mineSha256d_loop_eq`, `mineBlake3_loop_eq`). -/
def nonce_scan (M : Nat) (test : Nat → Except Fault Bool) (endNonce : Nat) :
    Nat → Nat → Nat → Except Fault (Option Nat × Nat)
  | 0, nonce, hashCount =>
    if nonce ≤ endNonce then .error .timeout else .ok (none, hashCount)
  | fuel + 1, nonce, hashCount =>
    if nonce ≤ endNonce then
      match test nonce with
      | .error e => .error e
      | .ok true => .ok (some nonce, hashCount + 1)
      | .ok false => nonce_scan M test endNonce fuel ((nonce + 1) % M) (hashCount + 1)
    else .ok (none, hashCount)

/-- Whether an attempt of `mineSha256d` ends in `return (jlong)nonce`. -/
def sha256d_accepts (header target : List Nat) (nonce : Nat) : Except Fault Bool :=
  match sha256d_attempt header target nonce with
  | .error e => .error e
  | .ok .returned => .ok true
  | .ok (.finished _) => .ok false

/-- The `jlong` that a search returns for a nonce found or not found. -/
def sha256d_return : Option Nat × Nat → Int × Nat
  | (some n, c) => ((n : Int), c)
  | (none, c) => (-1, c)

/-- The `jlong` that `mineBlake3` returns for a nonce found or not found. -/
def blake3_return : Option Nat × Nat → Int × Nat
  | (some n, c) => (castJlong n, c)
  | (none, c) => (-1, c)

/-- The value of a byte string read as a little-endian number: byte `i` has weight `256 ^ i`. -/
def leValue : List Nat → Nat
  | [] => 0
  | b :: bs => b + 256 * leValue bs


deriving instance DecidableEq for Except

/-- The first `d` bits of a digest are zero, the bits counted from byte 0 and from
the most significant bit of each byte: bit `k` is bit `7 - k % 8` of byte `k / 8`. -/
def leading_bits_zero (d : Nat) (hash : List Nat) : Prop :=
  ∀ k, k < d → (hash.getD (k / 8) 0).testBit (7 - k % 8) = false


/-- A quarter-round of the stream-cipher core in the words of the specification:
add-rotate-XOR on the words `a`, `b`, `c`, `d` of the 16-word state. -/
def spec_salsa20_quarter (x : List Nat) (a b c d : Nat) : List Nat :=
  let x := x.set b (x.getD b 0 ^^^ R (u32 (x.getD a 0 + x.getD d 0)) 7)
  let x := x.set c (x.getD c 0 ^^^ R (u32 (x.getD b 0 + x.getD a 0)) 9)
  let x := x.set d (x.getD d 0 ^^^ R (u32 (x.getD c 0 + x.getD b 0)) 13)
  x.set a (x.getD a 0 ^^^ R (u32 (x.getD d 0 + x.getD c 0)) 18)

/-- The column round: a quarter-round down each of the four columns. -/
def spec_salsa20_column_round (x : List Nat) : List Nat :=
  let x := spec_salsa20_quarter x 0 4 8 12
  let x := spec_salsa20_quarter x 5 9 13 1
  let x := spec_salsa20_quarter x 10 14 2 6
  spec_salsa20_quarter x 15 3 7 11

/-- The row round: a quarter-round along each of the four rows. -/
def spec_salsa20_row_round (x : List Nat) : List Nat :=
  let x := spec_salsa20_quarter x 0 1 2 3
  let x := spec_salsa20_quarter x 5 6 7 4
  let x := spec_salsa20_quarter x 10 11 8 9
  spec_salsa20_quarter x 15 12 13 14

/-- A double-round: one column round followed by one row round. -/
def spec_salsa20_double_round (x : List Nat) : List Nat :=
  spec_salsa20_row_round (spec_salsa20_column_round x)

/-- The state after `n` double-rounds. -/
def spec_salsa20_rounds : Nat → List Nat → List Nat
  | 0, x => x
  | n + 1, x => spec_salsa20_rounds n (spec_salsa20_double_round x)

/-- The stream-cipher core with `n` double-rounds in the words of the specification:
the double-rounds are applied to a copy of the 16 input words and the input words
are added to the result modulo `2^32`. It is compared with `salsa20_8`, which is the
code. -/
def spec_salsa20_core (n : Nat) (B : List Nat) : List Nat :=
  (List.range 16).map fun i => u32 (B.getD i 0 + (spec_salsa20_rounds n B).getD i 0)

/-- The interior blocks of the chain of `blake3_hash` in the words of the
specification: `j` successive 64-byte blocks are compressed with counter 0, block
length 64 and no flag, each from the first 8 output words of the compression before;
the result is the chaining value for the final block. -/
def spec_blake3_interior : Nat → List Nat → List Nat → List Nat
  | 0, chaining, _ => chaining
  | j + 1, chaining, data =>
    spec_blake3_interior j ((blake3_compress chaining (data.take 64) 0 64 0).take 8)
      (data.drop 64)

/-- The linear chain over an input of more than 64 bytes in the words of the
specification, with `k = ceil(len / 64)`: block 0 with the flag `CHUNK_START` from
`IV`, the interior blocks `1 .. k - 2`, and the final block, zero-padded, with its
length `len - 64 * (k - 1)` and the flags `CHUNK_END | ROOT`; the digest is the first
8 output words of the last compression, little-endian. It is compared with
`blake3_hash`, which is the code. -/
def spec_blake3_chain (data : List Nat) : List Nat :=
  let k := (data.length + 63) / 64
  let first := (blake3_compress IV (data.take 64) 0 64 1).take 8
  let chaining := spec_blake3_interior (k - 2) first (data.drop 64)
  let last := data.drop (64 * (k - 1))
  blake3_output
    (blake3_compress chaining (last ++ List.replicate (64 - last.length) 0) 0
      (data.length - 64 * (k - 1)) (2 ||| 8))


/-- The running block `X` of BlockMix in the words of the specification, after `i`
sub-blocks: it starts as the last sub-block `B_{2r-1}`, and each sub-block `B_i` is
XORed into it, word by word, before the stream-cipher core is run on it. The output
`Y_i` is the block after `i + 1` sub-blocks. -/
def spec_block_mix_X (B : List Nat) (r : Nat) : Nat → List Nat
  | 0 => (B.drop ((2 * r - 1) * 16)).take 16
  | i + 1 =>
    salsa20_8 ((List.range 16).map fun j =>
      (spec_block_mix_X B r i).getD j 0 ^^^ B.getD (16 * i + j) 0)

/-- BlockMix in the words of the specification: the outputs `Y_0 .. Y_{2r-1}` with
the even-indexed ones in the first half and the odd-indexed ones in the second half.
It is compared with `scrypt_block_mix`, which is the code. -/
def spec_block_mix (B : List Nat) (r : Nat) : List Nat :=
  (List.range r).flatMap (fun i => spec_block_mix_X B r (2 * i + 1)) ++
    (List.range r).flatMap (fun i => spec_block_mix_X B r (2 * i + 2))


/-- BlockMix of the specification applied `n` times. -/
def spec_block_mix_iter (r : Nat) : Nat → List Nat → List Nat
  | 0, X => X
  | n + 1, X => spec_block_mix_iter r n (spec_block_mix X r)

/-- The table of ROMix in the words of the specification: `n` entries, entry `i`
being BlockMix applied `i` times to the lane's block. -/
def spec_romix_table (r : Nat) : Nat → List Nat → List Nat
  | 0, _ => []
  | n + 1, X => X ++ spec_romix_table r n (spec_block_mix X r)

/-- The second phase of ROMix in the words of the specification, `n` iterations,
with the table index taken from word `word` of the working block: the entry at index
`X[word] mod N` is XORed into `X`, word by word, and BlockMix is applied. -/
def spec_romix_mix (word r N : Nat) (V : List Nat) : Nat → List Nat → List Nat
  | 0, X => X
  | n + 1, X =>
    let j := X.getD word 0 % N
    spec_romix_mix word r N V n
      (spec_block_mix ((List.range (32 * r)).map fun k =>
        X.getD k 0 ^^^ V.getD (j * (32 * r) + k) 0) r)


/-- The first 256 bytes of an input, zero-padded to 256 bytes. -/
def pad256 (input : List Nat) : List Nat :=
  input.take 256 ++ List.replicate (256 - input.length) 0

/-- The first 16 bytes of a key, zero-padded to 16 bytes. -/
def pad16 (key : List Nat) : List Nat :=
  key.take 16 ++ List.replicate (16 - key.length) 0

/-- The scratchpad address that a round of `execute_program` computes from the
register file. -/
def execute_addr (scratchpadSize : Nat) (registerFile : List Nat) : Nat :=
  ((registerFile.getD 0 0 <<< 8) ||| registerFile.getD 1 0) % (scratchpadSize - 8)

/-- The register indices that no pseudo-instruction stores into: `17 .. 23`,
`42 .. 47` and `64 .. 255`. -/
def untouched_register (k : Nat) : Prop :=
  (17 ≤ k ∧ k ≤ 23) ∨ (42 ≤ k ∧ k ≤ 47) ∨ 64 ≤ k

instance (k : Nat) : Decidable (untouched_register k) :=
  inferInstanceAs (Decidable ((17 ≤ k ∧ k ≤ 23) ∨ (42 ≤ k ∧ k ≤ 47) ∨ 64 ≤ k))

/-- The `switch (round % 8)` of `execute_program`, on its own: the register file
after the operation of the round. -/
def execute_switch (round addr value : Nat) (scratchpad registerFile : List Nat) : List Nat :=
  match round % 8 with
  | 0 => (List.range 8).foldl (fun (rf : List Nat) i =>
      rf.set (i * 2) (u8 (rf.getD (i * 2) 0 ^^^ ((value >>> (i * 8)) &&& 0xFF)))) registerFile
  | 1 => (List.range 8).foldl (fun (rf : List Nat) i =>
      rf.set (i * 2 + 1) (u8 (rf.getD (i * 2 + 1) 0 + ((value >>> (i * 8)) &&& 0xFF))))
        registerFile
  | 2 => registerFile.set 16 (u8 (u64 (value * registerFile.getD 0 0)))
  | 3 =>
    let shift := u8 (registerFile.getD 1 0 % 8)
    (List.range 8).foldl (fun (rf : List Nat) i =>
      rf.set (24 + i) (u8 ((scratchpad.getD (addr + i) 0 <<< shift) |||
        (scratchpad.getD (addr + i) 0 >>> (8 - shift))))) registerFile
  | 4 => (List.range 8).foldl (fun (rf : List Nat) i =>
      rf.set (32 + i) (u8 (rf.getD (32 + i) 0 + 256 - ((value >>> (i * 8)) &&& 0xFF))))
        registerFile
  | 5 =>
    let temp := registerFile.getD 40 0
    let registerFile := registerFile.set 40 (registerFile.getD 41 0)
    registerFile.set 41 temp
  | 6 => (List.range 8).foldl (fun (rf : List Nat) i =>
      rf.set (48 + i) (u8 (rf.getD (48 + i) 0 &&& ((value >>> (i * 8)) &&& 0xFF))))
        registerFile
  | _ => (List.range 8).foldl (fun (rf : List Nat) i =>
      rf.set (56 + i) (u8 (rf.getD (56 + i) 0 ||| ((value >>> (i * 8)) &&& 0xFF))))
        registerFile

/-- The 64-bit value that a round of `execute_program` reads at `addr`. -/
def execute_value (addr : Nat) (scratchpad : List Nat) : Nat :=
  (List.range 8).foldl (fun v i => v ||| u64 (scratchpad.getD (addr + i) 0 <<< (i * 8))) 0

/-- The write-back of a round of `execute_program` into the scratchpad. -/
def execute_write_back (round addr : Nat) (scratchpad registerFile : List Nat) : List Nat :=
  (List.range 8).foldl (fun sp i =>
    sp.set (addr + i) (u8 (sp.getD (addr + i) 0 ^^^ registerFile.getD (round % 256) 0)))
      scratchpad


/-- The message permutation of reference BLAKE3: after each round the message word at
position `k` becomes the one that was at position `spec_blake3_sigma[k]`. -/
def spec_blake3_sigma : List Nat := [2, 6, 3, 10, 7, 0, 4, 13, 1, 11, 12, 5, 9, 14, 15, 8]

/-- The message words of the next round of reference BLAKE3. -/
def spec_blake3_permute (m : List Nat) : List Nat :=
  spec_blake3_sigma.map fun j => m.getD j 0

/-- The quarter-round `G` of reference BLAKE3 on the words `a b c d` of the state `v`
with the message words `x` and `y`: the four new words are computed from the four old
ones and then stored. -/
def spec_blake3_G (v : List Nat) (a b c d x y : Nat) : List Nat :=
  let va := u32 (v.getD a 0 + v.getD b 0 + x)
  let vd := ROTR32 (v.getD d 0 ^^^ va) 16
  let vc := u32 (v.getD c 0 + vd)
  let vb := ROTR32 (v.getD b 0 ^^^ vc) 12
  let va := u32 (va + vb + y)
  let vd := ROTR32 (vd ^^^ va) 8
  let vc := u32 (vc + vd)
  let vb := ROTR32 (vb ^^^ vc) 7
  (((v.set a va).set b vb).set c vc).set d vd

/-- A round of reference BLAKE3: `G` on the four columns with the message words
`m[0] .. m[7]`, then on the four diagonals with `m[8] .. m[15]`. -/
def spec_blake3_round (v m : List Nat) : List Nat :=
  let v := spec_blake3_G v 0 4 8 12 (m.getD 0 0) (m.getD 1 0)
  let v := spec_blake3_G v 1 5 9 13 (m.getD 2 0) (m.getD 3 0)
  let v := spec_blake3_G v 2 6 10 14 (m.getD 4 0) (m.getD 5 0)
  let v := spec_blake3_G v 3 7 11 15 (m.getD 6 0) (m.getD 7 0)
  let v := spec_blake3_G v 0 5 10 15 (m.getD 8 0) (m.getD 9 0)
  let v := spec_blake3_G v 1 6 11 12 (m.getD 10 0) (m.getD 11 0)
  let v := spec_blake3_G v 2 7 8 13 (m.getD 12 0) (m.getD 13 0)
  spec_blake3_G v 3 4 9 14 (m.getD 14 0) (m.getD 15 0)

/-- The rounds of reference BLAKE3, `n` of them: a round, then the permutation of the
message words for the round after it. -/
def spec_blake3_rounds : Nat → List Nat → List Nat → List Nat
  | 0, v, _ => v
  | n + 1, v, m => spec_blake3_rounds n (spec_blake3_round v m) (spec_blake3_permute m)

/-- The compression function of reference BLAKE3 on the chaining value `h`, the block,
the counter `t`, the block length `b` and the flags `d`: the state is
`h[0..7], IV[0..3], t_lo, t_hi, b, d`, it goes through 7 rounds, and the output words
are `v[i] ^ v[i + 8]` and `v[i + 8] ^ h[i]` for `i = 0 .. 7`. -/
def spec_blake3_compress (h block : List Nat) (t b d : Nat) : List Nat :=
  let m := (List.range 16).map (blake3_load block)
  let v := (List.range 8).map (fun i => h.getD i 0) ++ IV.take 4 ++
    [u32 t, u32 (t >>> 32), b, d]
  let v := spec_blake3_rounds 7 v m
  (List.range 8).map (fun i => v.getD i 0 ^^^ v.getD (i + 8) 0) ++
    (List.range 8).map (fun i => v.getD (i + 8) 0 ^^^ h.getD i 0)

/-- The chaining value of the single chunk of reference BLAKE3 after `i` full blocks
that are not the last block: each is compressed with counter 0, block length 64 and
the flag `CHUNK_START` (1) for the first of them only. -/
def spec_blake3_chunk_cv (data : List Nat) : Nat → List Nat
  | 0 => IV
  | i + 1 =>
    (spec_blake3_compress (spec_blake3_chunk_cv data i) ((data.drop (64 * i)).take 64) 0 64
      (if i = 0 then 1 else 0)).take 8

/-- Reference BLAKE3 on an input that is a single chunk (at most 1024 bytes), which is
the root: the chunk has `k = ceil (len / 64)` blocks, and one block when the input is
empty; the last one, zero-padded,
is compressed with its own length and the flags `CHUNK_END | ROOT` (2 | 8), together
with `CHUNK_START` (1) when it is also the first; the digest is made of the first 8
output words, little-endian. -/
def spec_blake3_single_chunk (data : List Nat) : List Nat :=
  let k := if data.length = 0 then 1 else (data.length + 63) / 64
  let last := data.drop (64 * (k - 1))
  blake3_output
    (spec_blake3_compress (spec_blake3_chunk_cv data (k - 1))
      (last ++ List.replicate (64 - last.length) 0) 0 last.length
      ((if k = 1 then 1 else 0) ||| 2 ||| 8))


/-! ## Theorems -/

set_option maxRecDepth 100000 in
/-- C1: `sha256_hash` of the empty input is the SHA-256 digest of the empty
string, `e3b0c442 98fc1c14 9afbf4c8 996fb924 27ae41e4 649b934c a495991b 7852b855`. -/
theorem sha256_hash_empty :
    sha256_hash [] =
      [0xe3, 0xb0, 0xc4, 0x42, 0x98, 0xfc, 0x1c, 0x14, 0x9a, 0xfb, 0xf4, 0xc8, 0x99, 0x6f, 0xb9, 0x24,
       0x27, 0xae, 0x41, 0xe4, 0x64, 0x9b, 0x93, 0x4c, 0xa4, 0x95, 0x99, 0x1b, 0x78, 0x52, 0xb8, 0x55] := by
  decide!

/-! ### The generic search loop -/

theorem nonce_scan_found (M : Nat) (test : Nat → Except Fault Bool) (e n : Nat)
    (hne : n ≤ e) (hnM : n < M) (hn : test n = .ok true) :
    ∀ (fuel s hc : Nat), s ≤ n → (∀ m, s ≤ m → m < n → test m = .ok false) →
      n - s + 1 ≤ fuel →
      nonce_scan M test e fuel s hc = .ok (some n, hc + (n - s + 1)) := by
  intro fuel
  induction fuel with
  | zero => intro s hc _ _ hf; omega
  | succ fuel ih =>
    intro s hc hs hbelow hf
    have hse : s ≤ e := le_trans hs hne
    rcases Nat.eq_or_lt_of_le hs with heq | hlt
    · subst heq
      simp [nonce_scan, hse, hn]
    · have hfalse : test s = .ok false := hbelow s (le_refl _) hlt
      have hmod : (s + 1) % M = s + 1 := Nat.mod_eq_of_lt (by omega)
      have step : nonce_scan M test e (fuel + 1) s hc
          = nonce_scan M test e fuel (s + 1) (hc + 1) := by
        rw [nonce_scan, if_pos hse, hfalse, hmod]
      have harith : hc + 1 + (n - (s + 1) + 1) = hc + (n - s + 1) := by omega
      rw [step, ih (s + 1) (hc + 1) (by omega) (fun m h1 h2 => hbelow m (by omega) h2) (by omega),
        harith]

theorem nonce_scan_sound (M : Nat) (hM : 0 < M) (test : Nat → Except Fault Bool) (e : Nat) :
    ∀ (fuel s hc n c : Nat), s < M → nonce_scan M test e fuel s hc = .ok (some n, c) →
      n < M ∧ n ≤ e ∧ test n = .ok true := by
  intro fuel
  induction fuel with
  | zero =>
    intro s hc n c _ h
    simp only [nonce_scan] at h
    split at h <;> simp at h
  | succ fuel ih =>
    intro s hc n c hs h
    simp only [nonce_scan] at h
    split at h
    · next hse =>
      split at h
      · simp at h
      · next ht =>
        simp only [Except.ok.injEq, Prod.mk.injEq, Option.some.injEq] at h
        obtain ⟨rfl, _⟩ := h
        exact ⟨hs, hse, ht⟩
      · exact ih _ _ n c (Nat.mod_lt _ hM) h
    · simp at h

theorem nonce_scan_count (M : Nat) (hM : 0 < M) (test : Nat → Except Fault Bool) (e : Nat) :
    ∀ (fuel s hc n c : Nat), s < M → s ≤ n → nonce_scan M test e fuel s hc = .ok (some n, c) →
      c = hc + (n - s + 1) := by
  intro fuel
  induction fuel with
  | zero =>
    intro s hc n c _ _ h
    simp only [nonce_scan] at h
    split at h <;> simp at h
  | succ fuel ih =>
    intro s hc n c hs hsn h
    have hfull := h
    simp only [nonce_scan] at h
    split at h
    · split at h
      · simp at h
      · simp only [Except.ok.injEq, Prod.mk.injEq, Option.some.injEq] at h
        obtain ⟨rfl, rfl⟩ := h
        simp
      · next hfalse =>
        have hsound := nonce_scan_sound M hM test e _ _ _ n c (Nat.mod_lt _ hM) h
        have hne : n ≠ s := by
          rintro rfl
          rw [hsound.2.2] at hfalse
          simp at hfalse
        have hlt : s + 1 < M := by omega
        rw [Nat.mod_eq_of_lt hlt] at h
        rw [ih _ _ n c hlt (by omega) h]
        omega
    · simp at h

theorem nonce_scan_ge (M : Nat) (test : Nat → Except Fault Bool) (e : Nat) (heM : e + 1 < M) :
    ∀ (fuel s hc n c : Nat), nonce_scan M test e fuel s hc = .ok (some n, c) → s ≤ n := by
  intro fuel
  induction fuel with
  | zero =>
    intro s hc n c h
    simp only [nonce_scan] at h
    split at h <;> simp at h
  | succ fuel ih =>
    intro s hc n c h
    simp only [nonce_scan] at h
    split at h
    · next hse =>
      split at h
      · simp at h
      · simp only [Except.ok.injEq, Prod.mk.injEq, Option.some.injEq] at h
        omega
      · rw [Nat.mod_eq_of_lt (by omega)] at h
        have := ih _ _ n c h
        omega
    · simp at h

/-! ### The two loops of `native_miner.cpp` as instances of the generic loop -/

theorem sha256d_insert_nonce_idem (header : List Nat) (m n : Nat) :
    sha256d_insert_nonce (sha256d_insert_nonce header m) n = sha256d_insert_nonce header n := by
  apply List.ext_getElem?
  intro i
  simp only [sha256d_insert_nonce, List.getElem?_set, List.length_set]
  by_cases h76 : 76 = i <;> by_cases h77 : 77 = i <;> by_cases h78 : 78 = i <;>
    by_cases h79 : 79 = i <;> simp [h76, h77, h78, h79]

theorem sha256d_accepts_insert (header target : List Nat) (m : Nat) :
    sha256d_accepts (sha256d_insert_nonce header m) target = sha256d_accepts header target := by
  funext n
  simp only [sha256d_accepts, sha256d_attempt, sha256d_digest, sha256d_insert_nonce_idem]

theorem mineSha256d_loop_eq (target : List Nat) (e : Nat) :
    ∀ (fuel : Nat) (header : List Nat) (s hc : Nat),
      mineSha256d_loop target e fuel header s hc =
        (nonce_scan 4294967296 (sha256d_accepts header target) e fuel s hc).map sha256d_return := by
  intro fuel
  induction fuel with
  | zero =>
    intro header s hc
    simp only [mineSha256d_loop, nonce_scan]
    split <;> rfl
  | succ fuel ih =>
    intro header s hc
    simp only [mineSha256d_loop, nonce_scan]
    split
    · simp only [sha256d_accepts]
      cases hatt : sha256d_attempt header target s with
      | error err => rfl
      | ok r =>
        cases r with
        | returned => rfl
        | finished b =>
          simp only []
          rw [ih, sha256d_accepts_insert]
          rfl
    · rfl

theorem mineBlake3_loop_eq (blockData : List Nat) (difficulty : Int) (e : Nat) :
    ∀ (fuel s hc : Nat),
      mineBlake3_loop blockData difficulty e fuel s hc =
        (nonce_scan 18446744073709551616 (blake3_attempt blockData difficulty) e fuel s hc).map
          blake3_return := by
  intro fuel
  induction fuel with
  | zero =>
    intro s hc
    simp only [mineBlake3_loop, nonce_scan]
    split <;> rfl
  | succ fuel ih =>
    intro s hc
    simp only [mineBlake3_loop, nonce_scan]
    split
    · cases hatt : blake3_attempt blockData difficulty s with
      | error err => rfl
      | ok b =>
        cases b with
        | true => rfl
        | false =>
          simp only []
          rw [ih]
          rfl
    · rfl

theorem castU32_natCast (n : Nat) (h : n < 4294967296) : castU32 (n : Int) = n := by
  unfold castU32; omega

theorem castU64_castJlong (n : Nat) (h : n < 18446744073709551616) : castU64 (castJlong n) = n := by
  unfold castU64 castJlong u64
  split <;> omega

/-! ### The attempts never fault on well-formed arguments -/

theorem sha256d_target_scan_ok (hash2 target : List Nat) :
    ∀ k, k ≤ target.length → ∃ r, sha256d_target_scan hash2 target k = .ok r := by
  intro k
  induction k with
  | zero => intro _; exact ⟨_, rfl⟩
  | succ k ih =>
    intro hk
    have hlt : k < target.length := hk
    simp only [sha256d_target_scan, List.getElem?_eq_getElem hlt]
    split
    · exact ⟨_, rfl⟩
    · split
      · exact ⟨_, rfl⟩
      · exact ih (Nat.le_of_lt hlt)

theorem sha256d_accepts_ok (header target : List Nat) (h : target.length = 32) (n : Nat) :
    ∃ b, sha256d_accepts header target n = .ok b := by
  obtain ⟨r, hr⟩ := sha256d_target_scan_ok (sha256d_digest header n) target 32 (by omega)
  unfold sha256d_accepts sha256d_attempt
  rw [hr]
  cases r with
  | returned => exact ⟨true, rfl⟩
  | finished b => exact ⟨false, rfl⟩

theorem sha256d_accepts_true_iff (header target : List Nat) (n : Nat) :
    sha256d_accepts header target n = .ok true ↔
      sha256d_attempt header target n = .ok .returned := by
  unfold sha256d_accepts
  cases sha256d_attempt header target n with
  | error e => simp
  | ok r => cases r <;> simp

theorem length_sha256_output (state : List Nat) : (sha256_output state).length = 32 := by
  simp [sha256_output, List.range, List.range.loop]

theorem length_sha256_hash (data : List Nat) : (sha256_hash data).length = 32 := by
  unfold sha256_hash
  exact length_sha256_output _

theorem length_blake3_output (out : List Nat) : (blake3_output out).length = 32 := by
  simp [blake3_output, List.range, List.range.loop]

theorem length_blake3_hash (data : List Nat) : (blake3_hash data).length = 32 := by
  unfold blake3_hash
  exact length_blake3_output _

theorem blake3_zero_bytes_ok (hash : List Nat) :
    ∀ k i, i + k ≤ hash.length → ∃ b, blake3_zero_bytes hash k i = .ok b := by
  intro k
  induction k with
  | zero => intro i _; exact ⟨_, rfl⟩
  | succ k ih =>
    intro i hk
    have hlt : i < hash.length := by omega
    simp only [blake3_zero_bytes, List.getElem?_eq_getElem hlt]
    split
    · exact ⟨_, rfl⟩
    · exact ih (i + 1) (by omega)

theorem tdiv_tmod_8_of_nonneg (d : Int) (h : 0 ≤ d) : d.tdiv 8 = d / 8 ∧ d.tmod 8 = d % 8 :=
  ⟨Int.tdiv_eq_ediv h (by decide), Int.tmod_eq_emod h (by decide)⟩

theorem tdiv_tmod_8_of_neg (d : Int) (h : d < 0) : d.tdiv 8 ≤ 0 ∧ d.tmod 8 ≤ 0 := by
  have hdiv : d.tdiv 8 = -((-d) / 8) := by
    have h1 : d = -(-d) := by omega
    rw [h1, Int.neg_tdiv, Int.tdiv_eq_ediv (by omega) (by decide)]
    simp
  have hsum := Int.tmod_add_tdiv d 8
  omega

theorem blake3_valid_ok (difficulty : Int) (hash : List Nat) (hd : difficulty ≤ 256)
    (hlen : hash.length = 32) : ∃ b, blake3_valid difficulty hash = .ok b := by
  have hz : (difficulty.tdiv 8).toNat ≤ 32 := by
    rcases Int.lt_or_le difficulty 0 with h0 | h0
    · have := (tdiv_tmod_8_of_neg difficulty h0).1
      omega
    · rw [(tdiv_tmod_8_of_nonneg difficulty h0).1]; omega
  obtain ⟨v, hv⟩ := blake3_zero_bytes_ok hash (difficulty.tdiv 8).toNat 0 (by omega)
  unfold blake3_valid
  simp only [hv]
  split
  · next hcond =>
    simp only [Bool.and_eq_true, decide_eq_true_eq] at hcond
    have hpos : 0 < difficulty.tmod 8 := hcond.2
    have hlt : (difficulty.tdiv 8).toNat < hash.length := by
      rcases Int.lt_or_le difficulty 0 with h0 | h0
      · have := (tdiv_tmod_8_of_neg difficulty h0).2
        omega
      · rw [(tdiv_tmod_8_of_nonneg difficulty h0).1]
        rw [(tdiv_tmod_8_of_nonneg difficulty h0).2] at hpos
        omega
    simp only [List.getElem?_eq_getElem hlt]
    split <;> exact ⟨_, rfl⟩
  · exact ⟨_, rfl⟩

theorem blake3_attempt_ok (blockData : List Nat) (difficulty : Int) (hd : difficulty ≤ 256)
    (n : Nat) : ∃ b, blake3_attempt blockData difficulty n = .ok b :=
  blake3_valid_ok difficulty _ hd (length_blake3_hash _)

/-! ### Nonce search: the claims -/

/-- C5: in both searches, over a range `s ≤ e` of nonces of the loop's width, when
some nonce `n` of the range passes the check of the code, the search returns (given
fuel for the attempts up to it) the smallest nonce `m` of the range that passes: `m`
passes and no `k` with `s ≤ k < m` does. For `mineBlake3` the difficulty is at most
256, the number of bits of a digest. -/
theorem nonce_search_returns_smallest :
    (∀ (header target : List Nat) (s e n : Nat),
      header.length = 80 → target.length = 32 → s ≤ n → n ≤ e → e < 4294967296 →
      sha256d_attempt header target n = .ok .returned →
      ∃ m hc, s ≤ m ∧ m ≤ n ∧
        (∀ fuel, m - s + 1 ≤ fuel →
          mineSha256d fuel header target (s : Int) (e : Int) = .ok ((m : Int), hc)) ∧
        sha256d_attempt header target m = .ok .returned ∧
        ∀ k, s ≤ k → k < m → sha256d_attempt header target k ≠ .ok .returned) ∧
    (∀ (blockData : List Nat) (difficulty : Int) (s e n : Nat),
      difficulty ≤ 256 → s ≤ n → n ≤ e → e < 18446744073709551616 →
      blake3_attempt blockData difficulty n = .ok true →
      ∃ m hc, s ≤ m ∧ m ≤ n ∧
        (∀ fuel, m - s + 1 ≤ fuel →
          mineBlake3 fuel blockData difficulty (castJlong s) (castJlong e)
            = .ok (castJlong m, hc)) ∧
        blake3_attempt blockData difficulty m = .ok true ∧
        ∀ k, s ≤ k → k < m → blake3_attempt blockData difficulty k ≠ .ok true) := by
  constructor
  · intro header target s e n hlen htl hsn hne he hn
    have hex : ∃ m, s ≤ m ∧ sha256d_accepts header target m = .ok true :=
      ⟨n, hsn, (sha256d_accepts_true_iff _ _ _).mpr hn⟩
    classical
    let m := Nat.find hex
    have hm : s ≤ m ∧ sha256d_accepts header target m = .ok true := Nat.find_spec hex
    have hmn : m ≤ n := Nat.find_min' hex ⟨hsn, (sha256d_accepts_true_iff _ _ _).mpr hn⟩
    have hbelow : ∀ k, s ≤ k → k < m → sha256d_accepts header target k = .ok false := by
      intro k hk hkm
      obtain ⟨b, hb⟩ := sha256d_accepts_ok header target htl k
      cases b with
      | false => exact hb
      | true => exact absurd ⟨hk, hb⟩ (Nat.find_min hex hkm)
    refine ⟨m, 0 + (m - s + 1), hm.1, hmn, ?_, (sha256d_accepts_true_iff _ _ _).mp hm.2, ?_⟩
    · intro fuel hf
      have hnl : ¬ header.length < 80 := by omega
      have htake : header.take 80 = header := List.take_of_length_le (by omega)
      simp only [mineSha256d, hnl, if_false, htake, castU32_natCast s (by omega),
        castU32_natCast e he, mineSha256d_loop_eq]
      rw [nonce_scan_found 4294967296 _ e m (by omega) (by omega) hm.2 fuel s 0 hm.1 hbelow hf]
      rfl
    · intro k hk hkm hacc
      have := hbelow k hk hkm
      rw [(sha256d_accepts_true_iff _ _ _).mpr hacc] at this
      simp at this
  · intro blockData difficulty s e n hd hsn hne he hn
    have hex : ∃ m, s ≤ m ∧ blake3_attempt blockData difficulty m = .ok true := ⟨n, hsn, hn⟩
    classical
    let m := Nat.find hex
    have hm : s ≤ m ∧ blake3_attempt blockData difficulty m = .ok true := Nat.find_spec hex
    have hmn : m ≤ n := Nat.find_min' hex ⟨hsn, hn⟩
    have hbelow : ∀ k, s ≤ k → k < m → blake3_attempt blockData difficulty k = .ok false := by
      intro k hk hkm
      obtain ⟨b, hb⟩ := blake3_attempt_ok blockData difficulty hd k
      cases b with
      | false => exact hb
      | true => exact absurd ⟨hk, hb⟩ (Nat.find_min hex hkm)
    refine ⟨m, 0 + (m - s + 1), hm.1, hmn, ?_, hm.2, ?_⟩
    · intro fuel hf
      simp only [mineBlake3, castU64_castJlong s (by omega), castU64_castJlong e he,
        mineBlake3_loop_eq]
      rw [nonce_scan_found 18446744073709551616 _ e m (by omega) (by omega) hm.2 fuel s 0 hm.1
        hbelow hf]
      rfl
    · intro k hk hkm hacc
      have := hbelow k hk hkm
      rw [hacc] at this
      simp at this

/-- The counter of a search whose loop counter does not wrap around: in both searches,
when a search over `s ≤ e` returns a nonce `n` as found, `hashCount = n - s + 1`,
provided that `e` is below the largest value of the nonce type (then every nonce
returned is at least `s`) or that `s ≤ n`. At the largest end nonce the counter can
wrap around and the proviso fails, as the run over `[0xFFFFFFFF, 0xFFFFFFFF]` further
down shows. -/
theorem hashCount_of_found_nonce :
    (∀ (fuel : Nat) (header target : List Nat) (s e n hc : Nat),
      s ≤ e → e < 4294967296 → (s ≤ n ∨ e < 4294967295) →
      mineSha256d fuel header target (s : Int) (e : Int) = .ok ((n : Int), hc) →
      s ≤ n ∧ hc = n - s + 1) ∧
    (∀ (fuel : Nat) (blockData : List Nat) (difficulty : Int) (s e hc : Nat) (r : Int),
      s ≤ e → e < 18446744073709551616 → r ≠ -1 →
      (s ≤ castU64 r ∨ e < 18446744073709551615) →
      mineBlake3 fuel blockData difficulty (castJlong s) (castJlong e) = .ok (r, hc) →
      s ≤ castU64 r ∧ hc = castU64 r - s + 1) := by
  constructor
  · intro fuel header target s e n hc hse he hsn hrun
    unfold mineSha256d at hrun
    split at hrun
    · simp at hrun
    · rw [castU32_natCast s (by omega), castU32_natCast e he, mineSha256d_loop_eq] at hrun
      cases hscan : nonce_scan 4294967296 (sha256d_accepts (header.take 80) target) e fuel s 0 with
      | error err => rw [hscan] at hrun; simp [Except.map] at hrun
      | ok res =>
        rw [hscan] at hrun
        obtain ⟨o, c⟩ := res
        cases o with
        | none =>
          simp only [Except.map, sha256d_return, Except.ok.injEq, Prod.mk.injEq] at hrun
          omega
        | some k =>
          simp only [Except.map, sha256d_return, Except.ok.injEq, Prod.mk.injEq] at hrun
          obtain ⟨hk, hc'⟩ := hrun
          have hkn : k = n := by omega
          subst hkn; subst hc'
          have hge : s ≤ k := by
            rcases hsn with h1 | h1
            · exact h1
            · exact nonce_scan_ge 4294967296 _ e (by omega) fuel s 0 k c hscan
          have := nonce_scan_count 4294967296 (by decide) _ e fuel s 0 k c (by omega) hge hscan
          exact ⟨hge, by omega⟩
  · intro fuel blockData difficulty s e hc r hse he hr hsr hrun
    unfold mineBlake3 at hrun
    rw [castU64_castJlong s (by omega), castU64_castJlong e he, mineBlake3_loop_eq] at hrun
    cases hscan : nonce_scan 18446744073709551616 (blake3_attempt blockData difficulty) e fuel s 0 with
    | error err => rw [hscan] at hrun; simp [Except.map] at hrun
    | ok res =>
      rw [hscan] at hrun
      obtain ⟨o, c⟩ := res
      cases o with
      | none =>
        simp only [Except.map, blake3_return, Except.ok.injEq, Prod.mk.injEq] at hrun
        exact absurd hrun.1.symm hr
      | some k =>
        simp only [Except.map, blake3_return, Except.ok.injEq, Prod.mk.injEq] at hrun
        obtain ⟨hk, hc'⟩ := hrun
        have hsound := nonce_scan_sound 18446744073709551616 (by decide) _ e fuel s 0 k c
          (by omega) hscan
        have hkr : castU64 r = k := by rw [← hk]; exact castU64_castJlong k hsound.1
        subst hc'
        rw [hkr] at hsr ⊢
        have hge : s ≤ k := by
          rcases hsr with h1 | h1
          · exact h1
          · exact nonce_scan_ge 18446744073709551616 _ e (by omega) fuel s 0 k c hscan
        have := nonce_scan_count 18446744073709551616 (by decide) _ e fuel s 0 k c (by omega)
          hge hscan
        exact ⟨hge, by omega⟩

theorem sha256d_target_scan_zero_target (hash2 : List Nat) :
    ∀ k, k ≤ 32 → sha256d_target_scan hash2 (List.replicate 32 0) k ≠ .ok .returned := by
  intro k
  induction k with
  | zero => intro _ h; simp [sha256d_target_scan] at h
  | succ k ih =>
    intro hk
    have hlt : k < (List.replicate 32 0).length := by simp; omega
    simp only [sha256d_target_scan, List.getElem?_eq_getElem hlt, List.getElem_replicate]
    split
    · omega
    · split
      · simp
      · exact ih (by omega)

/-- C8: with difficulty 0 `mineBlake3` returns `startNonce` as found, with
`hashCount = 1`, for every payload and every range `s ≤ e` of 64-bit nonces. -/
theorem mineBlake3_difficulty_zero (fuel : Nat) (blockData : List Nat) (s e : Nat)
    (hse : s ≤ e) (he : e < 18446744073709551616) (hf : 1 ≤ fuel) :
    mineBlake3 fuel blockData 0 (castJlong s) (castJlong e) = .ok (castJlong s, 1) := by
  obtain ⟨fuel, rfl⟩ : ∃ k, fuel = k + 1 := ⟨fuel - 1, by omega⟩
  have hvalid : blake3_attempt blockData 0 s = .ok true := by
    simp [blake3_attempt, blake3_valid, blake3_zero_bytes]
  simp only [mineBlake3, castU64_castJlong s (by omega), castU64_castJlong e he,
    mineBlake3_loop, hse, if_true, hvalid]

/-! ### The comparison with the target -/

theorem leValue_lt (l : List Nat) (hb : ∀ b ∈ l, b < 256) : leValue l < 256 ^ l.length := by
  induction l with
  | nil => simp [leValue]
  | cons b bs ih =>
    have h1 : b < 256 := hb b (List.mem_cons_self _ _)
    have h2 := ih (fun x hx => hb x (List.mem_cons_of_mem _ hx))
    simp only [leValue, List.length_cons, pow_succ]
    omega

theorem leValue_take_succ (l : List Nat) :
    ∀ k, k < l.length → leValue (l.take (k + 1)) = leValue (l.take k) + 256 ^ k * l.getD k 0 := by
  induction l with
  | nil => intro k hk; simp at hk
  | cons b bs ih =>
    intro k hk
    cases k with
    | zero => simp [leValue]
    | succ k =>
      have hk' : k < bs.length := by simpa using hk
      simp only [List.take_succ_cons, leValue, ih k hk', List.getD_cons_succ, pow_succ]
      ring

theorem sha256d_target_scan_take (hash2 target : List Nat)
    (hh : ∀ b ∈ hash2, b < 256) (ht : ∀ b ∈ target, b < 256) :
    ∀ k, k ≤ hash2.length → k ≤ target.length →
      (sha256d_target_scan hash2 target k = .ok .returned ↔
        leValue (hash2.take k) < leValue (target.take k)) ∧
      (sha256d_target_scan hash2 target k = .ok (.finished true) ↔
        leValue (hash2.take k) = leValue (target.take k)) := by
  intro k
  induction k with
  | zero => intro _ _; simp [sha256d_target_scan, leValue]
  | succ k ih =>
    intro hkh hkt
    have hlh : k < hash2.length := hkh
    have hlt : k < target.length := hkt
    obtain ⟨ih1, ih2⟩ := ih (Nat.le_of_lt hlh) (Nat.le_of_lt hlt)
    have bh : leValue (hash2.take k) < 256 ^ k := by
      have := leValue_lt (hash2.take k) (fun b hb => hh b (List.mem_of_mem_take hb))
      rwa [List.length_take, Nat.min_eq_left (Nat.le_of_lt hlh)] at this
    have bt : leValue (target.take k) < 256 ^ k := by
      have := leValue_lt (target.take k) (fun b hb => ht b (List.mem_of_mem_take hb))
      rwa [List.length_take, Nat.min_eq_left (Nat.le_of_lt hlt)] at this
    have hget : target.getD k 0 = target[k] := by
      simp [List.getD_eq_getElem?_getD, List.getElem?_eq_getElem hlt]
    rw [leValue_take_succ hash2 k hlh, leValue_take_succ target k hlt, hget]
    simp only [sha256d_target_scan, List.getElem?_eq_getElem hlt]
    generalize hash2.getD k 0 = a
    generalize target[k] = b
    generalize hP : 256 ^ k = P at bh bt ⊢
    rcases Nat.lt_trichotomy a b with hab | hab | hab
    · have hmul : P * (a + 1) ≤ P * b := Nat.mul_le_mul_left _ hab
      rw [Nat.mul_succ] at hmul
      simp only [hab, if_true, true_iff, Except.ok.injEq, reduceCtorEq, false_iff]
      constructor <;> omega
    · subst hab
      simp only [Nat.lt_irrefl, if_false, ih1, ih2]
      constructor <;> constructor <;> intro h <;> omega
    · have hmul : P * (b + 1) ≤ P * a := Nat.mul_le_mul_left _ hab
      rw [Nat.mul_succ] at hmul
      have hnot : ¬ a < b := by omega
      simp only [hnot, if_false, hab, if_true, reduceCtorEq, false_iff, Except.ok.injEq,
        TargetScan.finished.injEq, Bool.false_eq_true]
      constructor <;> omega

theorem sha256d_target_scan_first_difference (hash2 target : List Nat) (i : Nat)
    (hne : hash2.getD i 0 ≠ target.getD i 0) :
    ∀ k, i < k → k ≤ target.length →
      (∀ j, i < j → j < k → hash2.getD j 0 = target.getD j 0) →
      sha256d_target_scan hash2 target k =
        if hash2.getD i 0 < target.getD i 0 then .ok .returned else .ok (.finished false) := by
  intro k
  induction k with
  | zero => intro h; omega
  | succ k ih =>
    intro hik hkt heq
    have hlt : k < target.length := hkt
    have hget : target.getD k 0 = target[k] := by
      simp [List.getD_eq_getElem?_getD, List.getElem?_eq_getElem hlt]
    simp only [sha256d_target_scan, List.getElem?_eq_getElem hlt, ← hget]
    rcases Nat.eq_or_lt_of_le (Nat.le_of_lt_succ hik) with hk | hk
    · subst hk
      split
      · rfl
      · next h1 =>
        have h2 : hash2.getD i 0 > target.getD i 0 := by omega
        rw [if_pos h2]
    · have hsame := heq k hk (Nat.lt_succ_self k)
      simp only [hsame, Nat.lt_irrefl, if_false, gt_iff_lt]
      exact ih hk (Nat.le_of_lt hlt) (fun j h1 h2 => heq j h1 (by omega))

/-- C10: the comparison loop of `mineSha256d` accepts a digest exactly when the
digest is numerically below the target, both read as 256-bit numbers with byte 31
the most significant; and when byte `i` is the first (from index 31 down) at which
they differ, it accepts exactly when the digest's byte `i` is below the target's. -/
theorem sha256d_target_scan_iff_lt (hash2 target : List Nat)
    (hlh : hash2.length = 32) (hlt : target.length = 32)
    (hh : ∀ b ∈ hash2, b < 256) (ht : ∀ b ∈ target, b < 256) :
    (sha256d_target_scan hash2 target 32 = .ok .returned ↔ leValue hash2 < leValue target) ∧
    (∀ i, i < 32 → hash2.getD i 0 ≠ target.getD i 0 →
      (∀ j, i < j → j < 32 → hash2.getD j 0 = target.getD j 0) →
      (sha256d_target_scan hash2 target 32 = .ok .returned ↔
        hash2.getD i 0 < target.getD i 0)) := by
  constructor
  · have h := (sha256d_target_scan_take hash2 target hh ht 32 (by omega) (by omega)).1
    rwa [List.take_of_length_le (by omega), List.take_of_length_le (by omega)] at h
  · intro i hi hne hsame
    rw [sha256d_target_scan_first_difference hash2 target i hne 32 hi (by omega) hsame]
    split <;> simp_all

/-! ### SHA-256: padding -/

theorem sha256_full_blocks_short (fuel : Nat) (state data : List Nat) (h : data.length < 64) :
    sha256_full_blocks fuel state data = (state, data) := by
  cases fuel with
  | zero => rfl
  | succ n => simp [sha256_full_blocks, Nat.not_le.mpr h]

theorem sha256_full_blocks_length :
    ∀ (fuel : Nat) (state data : List Nat), data.length / 64 ≤ fuel →
      (sha256_full_blocks fuel state data).2.length = data.length % 64 := by
  intro fuel
  induction fuel with
  | zero =>
    intro state data h
    simp only [sha256_full_blocks]
    omega
  | succ fuel ih =>
    intro state data h
    simp only [sha256_full_blocks]
    split
    · next h64 =>
      rw [ih _ _ (by simp only [List.length_drop]; omega)]
      simp only [List.length_drop]
      omega
    · simp only []
      omega

theorem sha256_write_length_tail (pre : List Nat) (bits : Nat) (h : pre.length = 56) :
    sha256_write_length (pre ++ List.replicate 8 0) bits = pre ++ be64 bits := by
  simp [sha256_write_length, List.range, List.range.loop, List.set_append, h, be64, List.replicate]

theorem sha256_pad_block (data : List Nat) (h : data.length < 56) :
    (data ++ (List.replicate 64 0).drop data.length).set data.length 0x80
      = (data ++ [0x80] ++ List.replicate (55 - data.length) 0) ++ List.replicate 8 0 := by
  rw [List.set_append_right _ _ (le_refl _)]
  have e1 : (List.replicate 64 0).drop data.length
      = (0 : Nat) :: (List.replicate (55 - data.length) 0 ++ List.replicate 8 0) := by
    rw [List.drop_replicate, ← List.replicate_add, ← List.replicate_succ]
    congr 1; omega
  rw [e1]; simp

theorem sha256_last_call_short (data : List Nat) (h : data.length < 56) :
    sha256_last_call data =
      (H0, data ++ [0x80] ++ List.replicate (55 - data.length) 0 ++ be64 (8 * data.length)) := by
  have h64 : data.length < 64 := by omega
  have hbits : u64 (data.length * 8) = 8 * data.length := by
    unfold u64; omega
  unfold sha256_last_call
  simp only [sha256_full_blocks_short _ _ _ h64, Nat.not_le.mpr h, if_false, hbits,
    sha256_pad_block data h]
  rw [sha256_write_length_tail]
  simp; omega

theorem beValue_be64 (n : Nat) (h : n < 18446744073709551616) : beValue (be64 n) = n := by
  simp only [beValue, be64, u8, List.foldl, Nat.shiftRight_eq_div_pow]
  omega

theorem sha256_length_field_eq (data : List Nat) :
    sha256_length_field (sha256_last_call data).2 = 8 * (data.length % 64) := by
  have hrem := sha256_full_blocks_length data.length H0 data (Nat.div_le_self _ _)
  unfold sha256_last_call
  generalize sha256_full_blocks data.length H0 data = res at hrem
  obtain ⟨state, rest⟩ := res
  simp only [] at hrem
  have hlt : rest.length < 64 := by rw [hrem]; exact Nat.mod_lt _ (by decide)
  have hbits : u64 (rest.length * 8) = 8 * rest.length := by unfold u64; omega
  have hfield : ∀ pre : List Nat, pre.length = 56 →
      sha256_length_field (sha256_write_length (pre ++ List.replicate 8 0) (8 * rest.length))
        = 8 * rest.length := by
    intro pre hpre
    rw [sha256_write_length_tail pre _ hpre]
    simp only [sha256_length_field, List.drop_left' hpre]
    exact beValue_be64 _ (by omega)
  simp only [hbits]
  split
  · next h56 =>
    have hz : List.replicate 64 (0 : Nat) = List.replicate 56 0 ++ List.replicate 8 0 := by
      rw [← List.replicate_add]
    simp only []
    rw [hz, hfield _ (by simp), hrem]
  · next h56 =>
    simp only []
    rw [sha256_pad_block rest (by omega), hfield _ (by simp; omega), hrem]

theorem spec_sha256_short (data : List Nat) (h : data.length < 56) :
    spec_sha256 data =
      sha256_output (sha256_transform H0
        (data ++ [0x80] ++ List.replicate (55 - data.length) 0 ++ be64 (8 * data.length))) := by
  have hk : (119 - data.length % 64) % 64 = 55 - data.length := by omega
  have hlen : (spec_sha256_pad data).length / 64 = 1 := by
    simp only [spec_sha256_pad, hk, List.length_append, List.length_replicate, be64,
      List.length_cons, List.length_nil]
    omega
  unfold spec_sha256
  rw [hlen]
  simp only [spec_sha256_chain, spec_sha256_pad, hk]

/-- C2: for an input shorter than 56 bytes `sha256_hash` compresses, from the
initial state `H0`, the one 64-byte block made of the message, the byte `0x80`, zero
bytes and the 64-bit big-endian value `8 * len`, and serialises the state big-endian;
this is the hash of the specification (`spec_sha256`), and on `"abc"` the result is
the FIPS 180-4 test vector `ba7816bf ... f20015ad`. -/
theorem sha256_hash_short (data : List Nat) (h : data.length < 56) :
    sha256_hash data =
      sha256_output (sha256_transform H0
        (data ++ [0x80] ++ List.replicate (55 - data.length) 0 ++ be64 (8 * data.length))) ∧
    (data ++ [0x80] ++ List.replicate (55 - data.length) 0 ++ be64 (8 * data.length)).length = 64 ∧
    sha256_hash data = spec_sha256 data ∧
    sha256_hash [0x61, 0x62, 0x63] =
      [0xba, 0x78, 0x16, 0xbf, 0x8f, 0x01, 0xcf, 0xea, 0x41, 0x41, 0x40, 0xde, 0x5d, 0xae, 0x22, 0x23,
       0xb0, 0x03, 0x61, 0xa3, 0x96, 0x17, 0x7a, 0x9c, 0xb4, 0x10, 0xff, 0x61, 0xf2, 0x00, 0x15, 0xad] := by
  have hcode : sha256_hash data =
      sha256_output (sha256_transform H0
        (data ++ [0x80] ++ List.replicate (55 - data.length) 0 ++ be64 (8 * data.length))) := by
    unfold sha256_hash
    rw [sha256_last_call_short data h]
  refine ⟨hcode, ?_, ?_, by decide!⟩
  · simp [be64]; omega
  · rw [hcode, spec_sha256_short data h]

/-- Witness of C2 at the 3-byte input `"abc"`. -/
theorem sha256_hash_short_witness :
    sha256_hash [0x61, 0x62, 0x63] =
      sha256_output (sha256_transform H0
        ([0x61, 0x62, 0x63] ++ [0x80] ++ List.replicate 52 0 ++ be64 24)) :=
  (sha256_hash_short [0x61, 0x62, 0x63] (by decide)).1

/-- C3 (what the code does): the length field of the last padded block is
`8 * (len mod 64)`, the bit length of the final partial block; for an 80-byte input
it is 128 and not `8 * 80 = 640`. -/
theorem sha256_length_field_is_partial :
    (∀ data : List Nat,
      sha256_length_field (sha256_last_call data).2 = 8 * (data.length % 64)) ∧
    sha256_length_field (sha256_last_call (List.replicate 80 0)).2 = 128 ∧
    8 * (List.replicate 80 0).length = 640 := by
  refine ⟨sha256_length_field_eq, ?_, by simp⟩
  rw [sha256_length_field_eq]
  simp

/-! ### Lengths of the buffers -/

theorem length_foldl_of_step {ι : Type} (f : List Nat → ι → List Nat)
    (hf : ∀ s i, (f s i).length = s.length) (l : List ι) (s : List Nat) :
    (l.foldl f s).length = s.length := by
  induction l generalizing s with
  | nil => rfl
  | cons a l ih => rw [List.foldl_cons, ih, hf]

theorem length_aes_round (state key : List Nat) : (aes_round state key).length = state.length := by
  simp only [aes_round, List.length_set]
  exact length_foldl_of_step _ (fun s i => by simp) _ _

theorem length_init_scratchpad_fill :
    ∀ (n : Nat) (state scratchpad : List Nat), state.length = 16 →
      (init_scratchpad_fill n state scratchpad).length = scratchpad.length + 16 * n := by
  intro n
  induction n with
  | zero => intro state scratchpad _; rfl
  | succ n ih =>
    intro state scratchpad h
    have h16 : (aes_round state AES_ROUND_KEYS).length = 16 := by rw [length_aes_round, h]
    simp only [init_scratchpad_fill]
    rw [ih _ _ h16, List.length_append, h16]
    omega

theorem length_init_scratchpad (seed : List Nat) :
    (init_scratchpad SCRATCHPAD_SIZE seed).length = SCRATCHPAD_SIZE := by
  unfold init_scratchpad
  rw [length_init_scratchpad_fill]
  · simp [SCRATCHPAD_SIZE]
  · rw [length_foldl_of_step _ (fun s i => by simp)]
    simp

theorem hmac_sha256_ok (key data : List Nat) (h : data.length ≤ 1024) :
    ∃ mac, hmac_sha256 key data = .ok mac ∧ mac.length = 32 := by
  unfold hmac_sha256
  simp only [Nat.not_lt.mpr h, if_false]
  exact ⟨_, rfl, length_sha256_hash _⟩

theorem pbkdf2_blocks_ok (password salt : List Nat) (outputLen : Nat)
    (hsalt : salt.length ≤ 252) :
    ∀ (fuel outputOffset blockNum : Nat) (output : List Nat),
      output.length = min outputOffset outputLen → outputLen ≤ outputOffset + fuel →
      ∃ out, pbkdf2_blocks password salt 1 outputLen fuel outputOffset blockNum output = .ok out ∧
        out.length = outputLen := by
  intro fuel
  induction fuel with
  | zero =>
    intro off blockNum output hout hfuel
    have hn : ¬ off < outputLen := by omega
    refine ⟨output, by simp only [pbkdf2_blocks, hn, if_false], ?_⟩
    rw [hout]; omega
  | succ fuel ih =>
    intro off blockNum output hout hfuel
    by_cases hlt : off < outputLen
    · have hbuf : ¬ 256 < salt.length + 4 := by omega
      obtain ⟨U, hU, hUlen⟩ := hmac_sha256_ok password
        (salt ++ [u8 (blockNum >>> 24), u8 (blockNum >>> 16), u8 (blockNum >>> 8), u8 blockNum])
        (by simp; omega)
      have hiter : pbkdf2_iterate password ((1 : Int) - 1).toNat U U = .ok U := rfl
      simp only [pbkdf2_blocks, hlt, if_true, hbuf, if_false, hU, hiter]
      apply ih
      · rw [List.length_append, List.length_take, hout, hUlen]
        split <;> omega
      · omega
    · refine ⟨output, by simp only [pbkdf2_blocks, hlt, if_false], ?_⟩
      rw [hout]; omega

theorem pbkdf2_sha256_ok (password salt : List Nat) (outputLen : Nat) (hsalt : salt.length ≤ 252) :
    ∃ out, pbkdf2_sha256 password salt 1 outputLen = .ok out ∧ out.length = outputLen :=
  pbkdf2_blocks_ok password salt outputLen hsalt outputLen 0 1 [] (by simp) (by omega)

theorem length_foldl_of_step_mem {ι : Type} (f : List Nat → ι → List Nat) (n : Nat) (l : List ι)
    (hf : ∀ s, s.length = n → ∀ i ∈ l, (f s i).length = n) (s : List Nat) (hs : s.length = n) :
    (l.foldl f s).length = n := by
  induction l generalizing s with
  | nil => exact hs
  | cons a l ih =>
    rw [List.foldl_cons]
    exact ih (fun s hs i hi => hf s hs i (List.mem_cons_of_mem _ hi)) _
      (hf s hs a (List.mem_cons_self _ _))

theorem length_salsa20_8 (B : List Nat) : (salsa20_8 B).length = B.length := by
  unfold salsa20_8
  exact length_foldl_of_step _ (fun s i => by simp) _ _

theorem length_memcpy_at (dst src : List Nat) (off : Nat) (h : off + src.length ≤ dst.length) :
    (memcpy_at dst off src).length = dst.length := by
  simp only [memcpy_at, List.length_append, List.length_take, List.length_drop]
  omega

theorem scrypt_block_mix_step_length (B : List Nat) (XY : List Nat × List Nat) (i : Nat) :
    (scrypt_block_mix_step B XY i).1.length = XY.1.length ∧
    (scrypt_block_mix_step B XY i).2.length = XY.2.length + XY.1.length := by
  have hX : (salsa20_8 ((List.range 16).foldl
      (fun X j => X.set j (X.getD j 0 ^^^ B.getD (i * 16 + j) 0)) XY.1)).length = XY.1.length := by
    rw [length_salsa20_8, length_foldl_of_step _ (fun s i => by simp)]
  simp only [scrypt_block_mix_step, List.length_append, hX, and_self]

theorem scrypt_block_mix_fold_length (B : List Nat) (l : List Nat) :
    ∀ (XY : List Nat × List Nat), XY.1.length = 16 →
      (l.foldl (scrypt_block_mix_step B) XY).1.length = 16 ∧
      (l.foldl (scrypt_block_mix_step B) XY).2.length = XY.2.length + 16 * l.length := by
  induction l with
  | nil => intro XY h; exact ⟨h, by simp⟩
  | cons a l ih =>
    intro XY h
    obtain ⟨h1, h2⟩ := scrypt_block_mix_step_length B XY a
    obtain ⟨h3, h4⟩ := ih (scrypt_block_mix_step B XY a) (by rw [h1, h])
    rw [List.foldl_cons]
    refine ⟨h3, ?_⟩
    rw [h4, h2, h, List.length_cons]
    omega

theorem scrypt_block_mix_ok (B : List Nat) (r : Int) (hr : 1 ≤ r) (hlen : B.length = 32 * r.toNat) :
    ∃ B', scrypt_block_mix B r = .ok B' ∧ B'.length = B.length := by
  have hnot : ¬ r < 1 := by omega
  unfold scrypt_block_mix
  simp only [hnot, if_false]
  refine ⟨_, rfl, ?_⟩
  have hX : ((B.drop ((2 * r.toNat - 1) * 16)).take 16).length = 16 := by
    rw [List.length_take, List.length_drop]; omega
  obtain ⟨_, hY⟩ := scrypt_block_mix_fold_length B (List.range (2 * r.toNat))
    ((B.drop ((2 * r.toNat - 1) * 16)).take 16, []) hX
  simp only [List.length_nil, List.length_range, Nat.zero_add] at hY
  apply length_foldl_of_step_mem _ B.length _ _ _ rfl
  intro s hs i hi
  have hi' : i < r.toNat := List.mem_range.mp hi
  show (memcpy_at (memcpy_at s (i * 16) _) ((r.toNat + i) * 16) _).length = B.length
  rw [length_memcpy_at, length_memcpy_at, hs]
  · rw [List.length_take, List.length_drop, hY, hs, hlen]; omega
  · rw [length_memcpy_at]
    · rw [List.length_take, List.length_drop, hY, hs, hlen]; omega
    · rw [List.length_take, List.length_drop, hY, hs, hlen]; omega

theorem scrypt_romix_fill_ok (r : Int) (hr : 1 ≤ r) :
    ∀ (n : Nat) (V X : List Nat), X.length = 32 * r.toNat →
      ∃ V' X', scrypt_romix_fill r n V X = .ok (V', X') ∧ X'.length = 32 * r.toNat := by
  intro n
  induction n with
  | zero => intro V X h; exact ⟨V, X, rfl, h⟩
  | succ n ih =>
    intro V X h
    obtain ⟨X1, h1, hl1⟩ := scrypt_block_mix_ok X r hr h
    obtain ⟨V2, X2, h2, hl2⟩ := ih (V ++ X) X1 (by rw [hl1, h])
    exact ⟨V2, X2, by simp only [scrypt_romix_fill, h1, h2], hl2⟩

theorem scrypt_romix_mix_ok (r N : Int) (hr : 1 ≤ r) (V : List Nat) :
    ∀ (n : Nat) (X : List Nat), X.length = 32 * r.toNat →
      ∃ X', scrypt_romix_mix r N V n X = .ok X' ∧ X'.length = 32 * r.toNat := by
  intro n
  induction n with
  | zero => intro X h; exact ⟨X, rfl, h⟩
  | succ n ih =>
    intro X h
    have hx : ((List.range (32 * r).toNat).foldl
        (fun Z k => Z.set k (Z.getD k 0 ^^^
          V.getD (X.getD ((2 * r.toNat - 1) * 16) 0 % N.toNat * (32 * r).toNat + k) 0)) X).length
        = 32 * r.toNat := by
      generalize X.getD ((2 * r.toNat - 1) * 16) 0 % N.toNat * (32 * r).toNat = base
      rw [length_foldl_of_step _ (fun s i => by simp), h]
    obtain ⟨X1, h1, hl1⟩ := scrypt_block_mix_ok _ r hr hx
    obtain ⟨X2, h2, hl2⟩ := ih X1 (by rw [hl1, hx])
    exact ⟨X2, by simp only [scrypt_romix_mix, h1, h2], hl2⟩

theorem scrypt_romix_ok (B : List Nat) (r N : Int) (hr : 1 ≤ r) (hlen : B.length = 32 * r.toNat) :
    ∃ X, scrypt_romix B r N = .ok X ∧ X.length = 32 * r.toNat := by
  have hnot : ¬ 32 * r < 0 := by omega
  have htake : (B.take (32 * r).toNat).length = 32 * r.toNat := by
    rw [List.length_take, hlen]; omega
  obtain ⟨V, X1, h1, hl1⟩ := scrypt_romix_fill_ok r hr N.toNat [] _ htake
  obtain ⟨X2, h2, hl2⟩ := scrypt_romix_mix_ok r N hr V N.toNat X1 hl1
  exact ⟨X2, by simp only [scrypt_romix, hnot, if_false, h1, h2], hl2⟩

theorem length_bytes_to_words (bytes : List Nat) :
    (bytes_to_words bytes).length = bytes.length / 4 := by
  simp [bytes_to_words]

theorem length_words_to_bytes (words : List Nat) :
    (words_to_bytes words).length = 4 * words.length := by
  induction words with
  | nil => rfl
  | cons w ws ih =>
    simp only [words_to_bytes, List.flatMap_cons, List.length_append, List.length_cons,
      List.length_nil] at ih ⊢
    omega

theorem scrypt_lanes_ok (r N : Int) (hr : 1 ≤ r) :
    ∀ (n i : Nat) (B : List Nat), (i + n) * (128 * r).toNat ≤ B.length →
      ∃ B', scrypt_lanes r N (128 * r).toNat n i B = .ok B' ∧ B'.length = B.length := by
  intro n
  induction n with
  | zero => intro i B _; exact ⟨B, rfl, rfl⟩
  | succ n ih =>
    intro i B h
    have hbs : (128 * r).toNat = 128 * r.toNat := by omega
    have hmul : (i + (n + 1)) * (128 * r).toNat
        = i * (128 * r).toNat + (128 * r).toNat + n * (128 * r).toNat := by ring
    have hlane : ((B.drop (i * (128 * r).toNat)).take (128 * r).toNat).length = 128 * r.toNat := by
      rw [List.length_take, List.length_drop]; omega
    obtain ⟨X, hX, hXl⟩ := scrypt_romix_ok
      (bytes_to_words ((B.drop (i * (128 * r).toNat)).take (128 * r).toNat)) r N hr
      (by rw [length_bytes_to_words, hlane]; omega)
    have hcopy : (memcpy_at B (i * (128 * r).toNat) (words_to_bytes X)).length = B.length := by
      apply length_memcpy_at
      rw [length_words_to_bytes, hXl]; omega
    obtain ⟨B', hB', hB'l⟩ := ih (i + 1) (memcpy_at B (i * (128 * r).toNat) (words_to_bytes X))
      (by rw [hcopy]; rw [hmul] at h; have : (i + 1 + n) * (128 * r).toNat
            = i * (128 * r).toNat + (128 * r).toNat + n * (128 * r).toNat := by ring
          omega)
    exact ⟨B', by simp only [scrypt_lanes, hX, hB'], by rw [hB'l, hcopy]⟩

theorem scrypt_hash_ok (password salt : List Nat) (N : Int) (outputLen : Nat)
    (hsalt : salt.length ≤ 252) :
    ∃ out, scrypt_hash password salt N 1 1 outputLen = .ok out ∧ out.length = outputLen := by
  obtain ⟨B, hB, hBl⟩ := pbkdf2_sha256_ok password salt 128 hsalt
  obtain ⟨B', hB', hB'l⟩ := scrypt_lanes_ok 1 N (le_refl _) 1 0 B (by rw [hBl]; decide)
  obtain ⟨out, hout, houtl⟩ := pbkdf2_sha256_ok password B' outputLen (by rw [hB'l, hBl]; decide)
  refine ⟨out, ?_, houtl⟩
  have h1 : ((128 : Int) * 1 * 1).toNat = 128 := by decide
  have h2 : ((128 : Int) * 1).toNat = 128 := by decide
  have h3 : ((1 : Int)).toNat = 1 := by decide
  have hneg : ¬ ((128 : Int) * 1 * 1 < 0) := by decide
  have hB2 : scrypt_lanes 1 N 128 1 0 B = .ok B' := by rw [← h2]; exact hB'
  simp only [scrypt_hash, hneg, if_false, h1, h2, h3, hB, hB2, hout]

/-! ### Output lengths -/

set_option maxRecDepth 100000 in
/-- Witness of C5: the header of 80 zero bytes against the target of 32 bytes `0xFF`,
and the empty payload at difficulty 0. -/
theorem nonce_search_returns_smallest_witness :
    (∃ m hc : Nat, 0 ≤ m ∧ m ≤ 0 ∧
      (∀ fuel, m - 0 + 1 ≤ fuel →
        mineSha256d fuel (List.replicate 80 0) (List.replicate 32 255) ((0 : Nat) : Int)
          ((10 : Nat) : Int) = .ok ((m : Int), hc)) ∧
      sha256d_attempt (List.replicate 80 0) (List.replicate 32 255) m = .ok .returned ∧
      ∀ k, 0 ≤ k → k < m →
        sha256d_attempt (List.replicate 80 0) (List.replicate 32 255) k ≠ .ok .returned) ∧
    (∃ m hc : Nat, 5 ≤ m ∧ m ≤ 7 ∧
      (∀ fuel, m - 5 + 1 ≤ fuel →
        mineBlake3 fuel [] 0 (castJlong 5) (castJlong 10) = .ok (castJlong m, hc)) ∧
      blake3_attempt [] 0 m = .ok true ∧
      ∀ k, 5 ≤ k → k < m → blake3_attempt [] 0 k ≠ .ok true) :=
  ⟨nonce_search_returns_smallest.1 (List.replicate 80 0) (List.replicate 32 255) 0 10 0
      (by decide) (by decide) (by decide) (by decide) (by decide) (by decide!),
   nonce_search_returns_smallest.2 [] 0 5 10 7
      (by decide) (by decide) (by decide) (by decide) (by decide)⟩

set_option maxRecDepth 100000 in
/-- An instance of `hashCount_of_found_nonce`: the header of 80 zero bytes against the
target of 32 bytes `0xFF` over `[0, 10]` is found at nonce 0 after one attempt. -/
theorem hashCount_of_found_nonce_witness :
    mineSha256d 1 (List.replicate 80 0) (List.replicate 32 255) ((0 : Nat) : Int)
      ((10 : Nat) : Int) = .ok (((0 : Nat) : Int), 1) ∧ 0 ≤ 0 ∧ 1 = 0 - 0 + 1 :=
  ⟨by decide!,
   hashCount_of_found_nonce.1 1 (List.replicate 80 0) (List.replicate 32 255) 0 10 0 1
      (by decide) (by decide) (by decide) (by decide!)⟩

/-! ### Nonce search: the counter after a wrap-around -/

set_option maxRecDepth 100000 in
theorem sha256d_attempt_last_nonce_rejected :
    sha256d_attempt (List.replicate 80 0) (List.replicate 31 0 ++ [0x4b]) 4294967295 =
      .ok (.finished false) := by
  decide!

set_option maxRecDepth 100000 in
theorem sha256d_attempt_wrapped_nonce_accepted :
    sha256d_attempt (sha256d_insert_nonce (List.replicate 80 0) 4294967295)
      (List.replicate 31 0 ++ [0x4b]) 0 = .ok .returned := by
  decide!

set_option maxRecDepth 100000 in
theorem sha256d_digest_last_nonce_byte_31 :
    (sha256d_digest (List.replicate 80 0) 4294967295).getD 31 0 = 0xb4 := by
  decide!

set_option maxRecDepth 100000 in
theorem sha256d_digest_nonce_zero_byte_31 :
    (sha256d_digest (List.replicate 80 0) 0).getD 31 0 = 0x4a := by
  decide!

set_option maxRecDepth 100000 in
/-- C6 (what the code does): with `startNonce = endNonce = 0xFFFFFFFF`, the header of
80 zero bytes and the target whose byte 31 is `0x4b` and whose other bytes are 0, the
nonce `0xFFFFFFFF` is not accepted (byte 31 of its digest is `0xb4`), `nonce++` wraps
to 0, the test `nonce <= (uint32_t)endNonce` still holds, and nonce 0 is accepted
(byte 31 of its digest is `0x4a`). With fuel for two attempts or more the search
returns nonce 0, which is not in the range, with `hashCount = 2`; that is the number of
digests computed, and it is not `n - startNonce + 1`. -/
theorem mineSha256d_wrapped_nonce_hashCount :
    (∀ fuel, mineSha256d (fuel + 2) (List.replicate 80 0) (List.replicate 31 0 ++ [0x4b])
      4294967295 4294967295 = .ok (0, 2)) ∧
    sha256d_attempt (List.replicate 80 0) (List.replicate 31 0 ++ [0x4b]) 4294967295 =
      .ok (.finished false) ∧
    (sha256d_digest (List.replicate 80 0) 4294967295).getD 31 0 = 0xb4 ∧
    (sha256d_digest (List.replicate 80 0) 0).getD 31 0 = 0x4a ∧
    ¬ (4294967295 : Int) ≤ 0 ∧
    ((2 : Nat) : Int) ≠ 0 - 4294967295 + 1 := by
  have hc : castU32 4294967295 = 4294967295 := by decide
  have hw : u32 (4294967295 + 1) = 0 := by decide
  have hnl : ¬ (List.replicate 80 0).length < 80 := by simp
  have htake : (List.replicate 80 (0 : Nat)).take 80 = List.replicate 80 0 :=
    List.take_of_length_le (by simp)
  refine ⟨fun fuel => ?_, sha256d_attempt_last_nonce_rejected,
    sha256d_digest_last_nonce_byte_31, sha256d_digest_nonce_zero_byte_31, by decide, by decide⟩
  simp only [mineSha256d, hnl, if_false, htake, hc, mineSha256d_loop, le_refl, if_true,
    sha256d_attempt_last_nonce_rejected, hw, Nat.zero_le, sha256d_attempt_wrapped_nonce_accepted]
  rfl

/-- Witness of C8: the empty payload over the nonces `[5, 10]`. -/
theorem mineBlake3_difficulty_zero_witness :
    mineBlake3 1 [] 0 (castJlong 5) (castJlong 10) = .ok (castJlong 5, 1) :=
  mineBlake3_difficulty_zero 1 [] 5 10 (by decide) (by decide) (by decide)

set_option maxRecDepth 100000 in
/-- C9 (what the code does): with the header of 80 zero bytes and the target equal
to the digest that the code computes for nonce 0, the comparison loop runs to its
end with `meetsTarget` still `true`, the nonce is not returned, and the search over
`[0, 0]` returns `-1` with `hashCount = 1`. -/
theorem mineSha256d_equal_digest_not_found :
    sha256d_digest (List.replicate 80 0) 0 =
      [197, 154, 70, 13, 109, 173, 193, 189, 153, 130, 184, 149, 138, 128, 238, 67,
       6, 30, 23, 151, 202, 166, 19, 132, 166, 133, 20, 175, 18, 126, 113, 74] ∧
    sha256d_attempt (List.replicate 80 0)
      [197, 154, 70, 13, 109, 173, 193, 189, 153, 130, 184, 149, 138, 128, 238, 67,
       6, 30, 23, 151, 202, 166, 19, 132, 166, 133, 20, 175, 18, 126, 113, 74] 0
      = .ok (.finished true) ∧
    mineSha256d 1 (List.replicate 80 0)
      [197, 154, 70, 13, 109, 173, 193, 189, 153, 130, 184, 149, 138, 128, 238, 67,
       6, 30, 23, 151, 202, 166, 19, 132, 166, 133, 20, 175, 18, 126, 113, 74] 0 0
      = .ok (-1, 1) := by
  refine ⟨by decide!, by decide!, by decide!⟩

/-- Witness of C10: a digest and a target that differ in byte 31 only. -/
theorem sha256d_target_scan_iff_lt_witness :
    (sha256d_target_scan (List.replicate 31 7 ++ [1]) (List.replicate 31 7 ++ [2]) 32
        = .ok .returned ↔
      leValue (List.replicate 31 7 ++ [1]) < leValue (List.replicate 31 7 ++ [2])) ∧
    (∀ i, i < 32 →
      (List.replicate 31 7 ++ [1]).getD i 0 ≠ (List.replicate 31 7 ++ [2]).getD i 0 →
      (∀ j, i < j → j < 32 →
        (List.replicate 31 7 ++ [1]).getD j 0 = (List.replicate 31 7 ++ [2]).getD j 0) →
      (sha256d_target_scan (List.replicate 31 7 ++ [1]) (List.replicate 31 7 ++ [2]) 32
          = .ok .returned ↔
        (List.replicate 31 7 ++ [1]).getD i 0 < (List.replicate 31 7 ++ [2]).getD i 0)) :=
  sha256d_target_scan_iff_lt (List.replicate 31 7 ++ [1]) (List.replicate 31 7 ++ [2])
    (by decide) (by decide) (by decide) (by decide)

/-! ### Nonce search: a concrete run, malformed ranges, the largest end nonce -/

theorem mineSha256d_found_at_start (fuel : Nat) (blockHeader target : List Nat) (s e : Nat)
    (hlen : blockHeader.length = 80) (hse : s ≤ e) (he : e < 4294967296)
    (hacc : sha256d_attempt blockHeader target s = .ok .returned) :
    mineSha256d (fuel + 1) blockHeader target (s : Int) (e : Int) = .ok ((s : Int), 1) := by
  have hnl : ¬ blockHeader.length < 80 := by omega
  have htake : blockHeader.take 80 = blockHeader := List.take_of_length_le (by omega)
  simp only [mineSha256d, hnl, if_false, htake, castU32_natCast s (by omega),
    castU32_natCast e he, mineSha256d_loop, hse, if_true, hacc]

set_option maxRecDepth 100000 in
/-- C11: with the header of 80 zero bytes, the target of 32 bytes `0xFF` and the
range `[0, 10]`, `mineSha256d` returns nonce 0 with `hashCount = 1`, whatever fuel
(at least one attempt) it is given: byte 31 of the digest that the code computes
for nonce 0 is `0x4a`, below `0xFF`. -/
theorem mineSha256d_zero_header_ff_target :
    (∀ fuel, mineSha256d (fuel + 1) (List.replicate 80 0) (List.replicate 32 255) 0 10
      = .ok (0, 1)) ∧
    (sha256d_digest (List.replicate 80 0) 0).getD 31 0 = 0x4a ∧
    sha256d_attempt (List.replicate 80 0) (List.replicate 32 255) 0 = .ok .returned := by
  have hatt : sha256d_attempt (List.replicate 80 0) (List.replicate 32 255) 0 = .ok .returned := by
    decide!
  refine ⟨fun fuel => ?_, by decide!, hatt⟩
  exact mineSha256d_found_at_start fuel (List.replicate 80 0) (List.replicate 32 255) 0 10
    (by decide) (by decide) (by decide) hatt

theorem nonce_scan_empty_range (M : Nat) (test : Nat → Except Fault Bool) (e s hc : Nat)
    (h : e < s) (fuel : Nat) : nonce_scan M test e fuel s hc = .ok (none, hc) := by
  have hn : ¬ s ≤ e := by omega
  cases fuel <;> simp [nonce_scan, hn]

/-- C16 (as amended): a search called with `startNonce > endNonce` (as unsigned
values of the loop's width) computes no digest and returns the ordinary not-found
result, `-1` with `hashCount = 0`, for any fuel; no error is raised. -/
theorem nonce_search_empty_range :
    (∀ (fuel : Nat) (blockHeader target : List Nat) (s e : Nat),
      blockHeader.length = 80 → e < s → s < 4294967296 →
      mineSha256d fuel blockHeader target (s : Int) (e : Int) = .ok (-1, 0)) ∧
    (∀ (fuel : Nat) (blockData : List Nat) (difficulty : Int) (s e : Nat),
      e < s → s < 18446744073709551616 →
      mineBlake3 fuel blockData difficulty (castJlong s) (castJlong e) = .ok (-1, 0)) := by
  constructor
  · intro fuel blockHeader target s e hlen hes hs
    have hnl : ¬ blockHeader.length < 80 := by omega
    simp only [mineSha256d, hnl, if_false, castU32_natCast s hs,
      castU32_natCast e (by omega), mineSha256d_loop_eq,
      nonce_scan_empty_range _ _ e s 0 hes fuel]
    rfl
  · intro fuel blockData difficulty s e hes hs
    simp only [mineBlake3, castU64_castJlong s hs, castU64_castJlong e (by omega),
      mineBlake3_loop_eq, nonce_scan_empty_range _ _ e s 0 hes fuel]
    rfl

/-- Witness of C16: the ranges `[5, 3]`. -/
theorem nonce_search_empty_range_witness :
    mineSha256d 7 (List.replicate 80 0) (List.replicate 32 255) ((5 : Nat) : Int) ((3 : Nat) : Int)
      = .ok (-1, 0) ∧
    mineBlake3 7 [] 0 (castJlong 5) (castJlong 3) = .ok (-1, 0) :=
  ⟨nonce_search_empty_range.1 7 (List.replicate 80 0) (List.replicate 32 255) 5 3
      (by decide) (by decide) (by decide),
   nonce_search_empty_range.2 7 [] 0 5 3 (by decide) (by decide)⟩

/-- Counterexample to C16 as stated: the range `[5, 3]` is not rejected; the result
is the one of a search that found nothing. -/
theorem mineSha256d_reversed_range_not_rejected :
    mineSha256d 7 (List.replicate 80 0) (List.replicate 32 255) 5 3 = .ok (-1, 0) ∧
    mineBlake3 7 [] 0 5 3 = .ok (-1, 0) := by
  constructor <;> decide

theorem nonce_scan_never_ends (M : Nat) (hM : 0 < M) (test : Nat → Except Fault Bool)
    (hfalse : ∀ n, test n = .ok false) :
    ∀ (fuel s hc : Nat), s < M → nonce_scan M test (M - 1) fuel s hc = .error .timeout := by
  intro fuel
  induction fuel with
  | zero =>
    intro s hc hs
    have : s ≤ M - 1 := by omega
    simp [nonce_scan, this]
  | succ fuel ih =>
    intro s hc hs
    have : s ≤ M - 1 := by omega
    simp only [nonce_scan, this, if_true, hfalse]
    exact ih _ _ (Nat.mod_lt _ hM)

/-- C17 (what the code does): with `endNonce = 0xFFFFFFFF` the test
`nonce <= (uint32_t)endNonce` holds for every 32-bit `nonce`, so when no nonce is
accepted (here the all-zero target) the loop never ends: whatever the fuel, the run
of `mineSha256d` from any start nonce is still inside the loop when it is used up. -/
theorem mineSha256d_max_end_nonce_never_ends :
    ∀ (fuel s : Nat), s < 4294967296 →
      mineSha256d fuel (List.replicate 80 0) (List.replicate 32 0) (s : Int)
        ((4294967295 : Nat) : Int) = .error .timeout := by
  intro fuel s hs
  have hfalse : ∀ n, sha256d_accepts (List.replicate 80 0) (List.replicate 32 0) n = .ok false := by
    intro n
    obtain ⟨b, hb⟩ := sha256d_accepts_ok (List.replicate 80 0) (List.replicate 32 0) (by simp) n
    cases b with
    | false => exact hb
    | true =>
      exact absurd ((sha256d_accepts_true_iff _ _ _).mp hb)
        (sha256d_target_scan_zero_target _ 32 (le_refl _))
  have hnl : ¬ (List.replicate 80 0).length < 80 := by simp
  have htake : (List.replicate 80 (0 : Nat)).take 80 = List.replicate 80 0 :=
    List.take_of_length_le (by simp)
  simp only [mineSha256d, hnl, if_false, htake, castU32_natCast s hs,
    castU32_natCast 4294967295 (by decide), mineSha256d_loop_eq]
  rw [show (4294967295 : Nat) = 4294967296 - 1 from rfl,
    nonce_scan_never_ends 4294967296 (by decide) _ hfalse fuel s 0 hs]
  rfl

/-- Witness of C17's run: the range `[0xFFFFFFFF, 0xFFFFFFFF]` of one nonce, with
fuel for 1000 attempts. -/
theorem mineSha256d_max_end_nonce_never_ends_witness :
    mineSha256d 1000 (List.replicate 80 0) (List.replicate 32 0) ((4294967295 : Nat) : Int)
      ((4294967295 : Nat) : Int) = .error .timeout :=
  mineSha256d_max_end_nonce_never_ends 1000 4294967295 (by decide)

/-! ### The buffers that the searches hash -/

theorem and_255 (n : Nat) : n &&& 0xFF = n % 256 := by
  have := Nat.and_pow_two_sub_one_eq_mod n 8
  simpa using this

theorem split_header_80 (header : List Nat) (hlen : header.length = 80) :
    ∃ a b c d, header = header.take 76 ++ [a, b, c, d] := by
  have h4 : (header.drop 76).length = 4 := by rw [List.length_drop]; omega
  match hd : header.drop 76, h4 with
  | [a, b, c, d], _ =>
    exact ⟨a, b, c, d, by rw [← hd, List.take_append_drop]⟩

theorem sha256d_insert_nonce_eq (header : List Nat) (hlen : header.length = 80) (n : Nat) :
    sha256d_insert_nonce header n =
      header.take 76 ++ [n % 256, n / 256 % 256, n / 65536 % 256, n / 16777216 % 256] := by
  obtain ⟨a, b, c, d, hsplit⟩ := split_header_80 header hlen
  have hpre : (header.take 76).length = 76 := by rw [List.length_take]; omega
  generalize header.take 76 = pre at hsplit hpre
  subst hsplit
  simp [sha256d_insert_nonce, and_255, u8, Nat.shiftRight_eq_div_pow, List.set_append, hpre]

/-- C12: for an 80-byte header and a 32-bit nonce `n`, the digest that `mineSha256d`
tests is `sha256_hash (sha256_hash B)`, where `B` is the 80-byte buffer made of the
caller's header bytes 0..75 followed by `n` in little-endian order; storing a nonce
leaves bytes 0..75 and the length as they were, so the header carried from one
iteration to the next gives the same digests and the same run as the caller's. -/
theorem sha256d_digest_of_header (header : List Nat) (n : Nat) (hlen : header.length = 80)
    (hn : n < 4294967296) :
    sha256d_digest header n =
      sha256_hash (sha256_hash
        (header.take 76 ++ [n % 256, n / 256 % 256, n / 65536 % 256, n / 16777216])) ∧
    (header.take 76 ++ [n % 256, n / 256 % 256, n / 65536 % 256, n / 16777216]).length = 80 ∧
    (sha256d_insert_nonce header n).take 76 = header.take 76 ∧
    (sha256d_insert_nonce header n).length = 80 ∧
    (∀ m, sha256d_digest (sha256d_insert_nonce header m) n = sha256d_digest header n) ∧
    (∀ (target : List Nat) (e fuel s hc m : Nat),
      mineSha256d_loop target e fuel (sha256d_insert_nonce header m) s hc
        = mineSha256d_loop target e fuel header s hc) := by
  have hpre : (header.take 76).length = 76 := by rw [List.length_take]; omega
  have htop : n / 16777216 % 256 = n / 16777216 := by omega
  have hins := sha256d_insert_nonce_eq header hlen n
  rw [htop] at hins
  have hlen' : (header.take 76 ++ [n % 256, n / 256 % 256, n / 65536 % 256, n / 16777216]).length
      = 80 := by simp [hpre]
  refine ⟨?_, hlen', ?_, ?_, ?_, ?_⟩
  · simp only [sha256d_digest, hins]
    rw [List.take_of_length_le (le_of_eq hlen'),
      List.take_of_length_le (le_of_eq (length_sha256_hash _))]
  · rw [hins, List.take_left' hpre]
  · rw [hins, hlen']
  · intro m
    simp only [sha256d_digest, sha256d_insert_nonce_idem]
  · intro target e fuel s hc m
    rw [mineSha256d_loop_eq, mineSha256d_loop_eq, sha256d_accepts_insert]

/-- Witness of C12: the header of 80 zero bytes and the nonce `0x01020304`. -/
theorem sha256d_digest_of_header_witness :
    sha256d_digest (List.replicate 80 0) 16909060 =
      sha256_hash (sha256_hash ((List.replicate 80 0).take 76 ++ [16909060 % 256,
        16909060 / 256 % 256, 16909060 / 65536 % 256, 16909060 / 16777216])) :=
  (sha256d_digest_of_header (List.replicate 80 0) 16909060 (by decide) (by decide)).1

theorem le64_eq (n : Nat) :
    le64 n = [n % 256, n / 256 % 256, n / 65536 % 256, n / 16777216 % 256,
      n / 4294967296 % 256, n / 1099511627776 % 256, n / 281474976710656 % 256,
      n / 72057594037927936 % 256] := by
  simp [le64, List.range, List.range.loop, and_255, u8, Nat.shiftRight_eq_div_pow]

/-- C13 (as amended): for every payload and every nonce `n`, the digest that
`mineBlake3` tests is `blake3_hash (P ++ LE64(n))`, where `P` is the first
`min(len, 248)` bytes of the payload and `LE64(n)` the 8 bytes of `n`, least
significant first; for a payload of at most 248 bytes `P` is the whole payload, and
two payloads with the same first 248 bytes give the same digest. -/
theorem blake3_digest_of_payload (blockData : List Nat) (n : Nat) :
    blake3_digest blockData n = blake3_hash (blockData.take 248 ++ le64 n) ∧
    (blockData.length ≤ 248 → blake3_digest blockData n = blake3_hash (blockData ++ le64 n)) ∧
    (∀ other : List Nat, other.take 248 = blockData.take 248 →
      blake3_digest other n = blake3_digest blockData n) ∧
    le64 n = [n % 256, n / 256 % 256, n / 65536 % 256, n / 16777216 % 256,
      n / 4294967296 % 256, n / 1099511627776 % 256, n / 281474976710656 % 256,
      n / 72057594037927936 % 256] := by
  have h1 : ∀ data : List Nat, blake3_digest data n = blake3_hash (data.take 248 ++ le64 n) := by
    intro data
    by_cases h : data.length < 248
    · simp only [blake3_digest, h, if_true]
      rw [List.take_of_length_le (le_refl _), List.take_of_length_le (Nat.le_of_lt h)]
    · simp only [blake3_digest, h, if_false]
  refine ⟨h1 blockData, ?_, ?_, le64_eq n⟩
  · intro h
    rw [h1, List.take_of_length_le h]
  · intro other h
    rw [h1, h1, h]

/-- Witness of C13: a payload of 3 bytes. -/
theorem blake3_digest_of_payload_witness :
    blake3_digest [1, 2, 3] 7 = blake3_hash ([1, 2, 3] ++ le64 7) :=
  (blake3_digest_of_payload [1, 2, 3] 7).2.1 (by decide)

set_option maxRecDepth 100000 in
/-- Counterexample to C13 as stated: for a payload of 249 bytes the digest tested
is not `blake3_hash (payload ++ LE64(n))`; byte 248 of the payload is dropped. -/
theorem blake3_digest_truncates_payload :
    blake3_digest (List.replicate 249 1) 0 ≠ blake3_hash (List.replicate 249 1 ++ le64 0) ∧
    blake3_digest (List.replicate 249 1) 0 = blake3_hash (List.replicate 248 1 ++ le64 0) := by
  constructor <;> decide!

/-! ### The leading-zero check of `mineBlake3` -/

theorem byte_zero_iff_bits : ∀ b : Fin 256,
    ((b : Nat) = 0 ↔ ∀ t : Fin 8, (b : Nat).testBit (7 - (t : Nat)) = false) := by
  decide!

theorem byte_mask_iff_bits : ∀ r : Fin 8, ∀ b : Fin 256, 0 < (r : Nat) →
    (((b : Nat) &&& u8 (0xFF <<< (8 - (r : Nat))) = 0) ↔
      ∀ t : Fin 8, (t : Nat) < (r : Nat) → (b : Nat).testBit (7 - (t : Nat)) = false) := by
  decide!

theorem blake3_zero_bytes_spec (hash : List Nat) :
    ∀ k i, i + k ≤ hash.length →
      ∃ v, blake3_zero_bytes hash k i = .ok v ∧
        (v = true ↔ ∀ j, i ≤ j → j < i + k → hash.getD j 0 = 0) := by
  intro k
  induction k with
  | zero =>
    intro i _
    exact ⟨true, rfl, by simp; intro j h1 h2; omega⟩
  | succ k ih =>
    intro i hk
    have hlt : i < hash.length := by omega
    have hget : hash.getD i 0 = hash[i] := by
      simp [List.getD_eq_getElem?_getD, List.getElem?_eq_getElem hlt]
    simp only [blake3_zero_bytes, List.getElem?_eq_getElem hlt, ← hget]
    by_cases hz : hash.getD i 0 = 0
    · simp only [hz, ne_eq, not_true_eq_false, if_false]
      obtain ⟨v, hv, hiff⟩ := ih (i + 1) (by omega)
      refine ⟨v, hv, ?_⟩
      rw [hiff]
      constructor
      · intro h j h1 h2
        rcases Nat.eq_or_lt_of_le h1 with rfl | h3
        · exact hz
        · exact h j h3 (by omega)
      · intro h j h1 h2
        exact h j (by omega) (by omega)
    · simp only [ne_eq, hz, not_false_eq_true, if_true]
      refine ⟨false, rfl, ?_⟩
      simp only [Bool.false_eq_true, false_iff]
      intro h
      exact hz (h i (le_refl _) (by omega))

/-- C14: for a difficulty `0 ≤ d ≤ 256` and a digest of 32 bytes, the validity check
of `mineBlake3` accepts the digest exactly when its first `d` bits are zero, the
bits counted from byte 0, most significant bit first. -/
theorem blake3_valid_iff_leading_bits_zero (d : Nat) (hash : List Nat) (hd : d ≤ 256)
    (hlen : hash.length = 32) (hbytes : ∀ b ∈ hash, b < 256) :
    blake3_valid (d : Int) hash = .ok true ↔ leading_bits_zero d hash := by
  have hq : ((d : Int).tdiv 8).toNat = d / 8 := by
    rw [(tdiv_tmod_8_of_nonneg (d : Int) (by omega)).1]; omega
  have hr : (d : Int).tmod 8 = ((d % 8 : Nat) : Int) := by
    rw [(tdiv_tmod_8_of_nonneg (d : Int) (by omega)).2]; omega
  have hbyte : ∀ j, j < 32 → hash.getD j 0 < 256 := by
    intro j hj
    have hlt : j < hash.length := by omega
    have hget : hash.getD j 0 = hash[j] := by
      simp [List.getD_eq_getElem?_getD, List.getElem?_eq_getElem hlt]
    rw [hget]
    exact hbytes _ (List.getElem_mem _)
  have hzero : ∀ j, j < 32 →
      (hash.getD j 0 = 0 ↔ ∀ t, t < 8 → (hash.getD j 0).testBit (7 - t) = false) := by
    intro j hj
    have := byte_zero_iff_bits ⟨hash.getD j 0, hbyte j hj⟩
    simp only [] at this
    rw [this]
    constructor
    · intro h t ht; exact h ⟨t, ht⟩
    · intro h t; exact h t t.isLt
  have hmask : ∀ j r, j < 32 → 0 < r → r < 8 →
      (hash.getD j 0 &&& u8 (0xFF <<< (8 - r)) = 0 ↔
        ∀ t, t < r → (hash.getD j 0).testBit (7 - t) = false) := by
    intro j r hj hr0 hr8
    have := byte_mask_iff_bits ⟨r, hr8⟩ ⟨hash.getD j 0, hbyte j hj⟩ hr0
    simp only [] at this
    rw [this]
    constructor
    · intro h t ht; exact h ⟨t, by omega⟩ ht
    · intro h t ht; exact h t ht
  obtain ⟨v, hv, hviff⟩ := blake3_zero_bytes_spec hash (d / 8) 0 (by omega)
  unfold blake3_valid leading_bits_zero
  simp only [hq, hr, hv]
  cases v with
  | true =>
    have hall : ∀ j, 0 ≤ j → j < 0 + d / 8 → hash.getD j 0 = 0 := hviff.mp rfl
    have hwhole : ∀ k, k < 8 * (d / 8) → (hash.getD (k / 8) 0).testBit (7 - k % 8) = false := by
      intro k hk
      have hj : k / 8 < d / 8 := by omega
      exact (hzero (k / 8) (by omega)).mp (hall (k / 8) (Nat.zero_le _) (by omega)) (k % 8)
        (Nat.mod_lt _ (by decide))
    by_cases hrem : 0 < d % 8
    · have hcond : (true && decide (0 < ((d % 8 : Nat) : Int))) = true := by
        simp only [Bool.true_and, decide_eq_true_eq]
        omega
      have hlt : d / 8 < hash.length := by omega
      have hget : hash[d / 8] = hash.getD (d / 8) 0 := by
        simp [List.getD_eq_getElem?_getD, List.getElem?_eq_getElem hlt]
      have hsh : (8 - ((d % 8 : Nat) : Int)).toNat = 8 - d % 8 := by omega
      simp only [hcond, if_true, List.getElem?_eq_getElem hlt, hget, hsh]
      have hm := hmask (d / 8) (d % 8) (by omega) hrem (Nat.mod_lt _ (by decide))
      by_cases hz : hash.getD (d / 8) 0 &&& u8 (0xFF <<< (8 - d % 8)) = 0
      · simp only [hz, ne_eq, not_true_eq_false, if_false, true_iff]
        intro k hk
        by_cases hk8 : k < 8 * (d / 8)
        · exact hwhole k hk8
        · have hkq : k / 8 = d / 8 := by omega
          rw [hkq]
          exact hm.mp hz (k % 8) (by omega)
      · simp only [ne_eq, hz, not_false_eq_true, if_true, Except.ok.injEq, Bool.false_eq_true,
          false_iff]
        intro hbits
        apply hz
        apply hm.mpr
        intro t ht
        have := hbits (8 * (d / 8) + t) (by omega)
        have e1 : (8 * (d / 8) + t) / 8 = d / 8 := by omega
        have e2 : (8 * (d / 8) + t) % 8 = t := by omega
        rwa [e1, e2] at this
    · have hcond : ¬ ((true && decide (0 < ((d % 8 : Nat) : Int))) = true) := by
        simp only [Bool.true_and, decide_eq_true_eq]
        omega
      simp only [hcond, Bool.false_eq_true, if_false, true_iff]
      intro k hk
      exact hwhole k (by omega)
  | false =>
    have hall : ¬ ∀ j, 0 ≤ j → j < 0 + d / 8 → hash.getD j 0 = 0 := by
      intro h
      exact absurd (hviff.mpr h) (by simp)
    simp only [Bool.false_and, Bool.false_eq_true, if_false, Except.ok.injEq, false_iff]
    intro hbits
    apply hall
    intro j _ hj
    apply (hzero j (by omega)).mpr
    intro t ht
    have := hbits (8 * j + t) (by omega)
    have e1 : (8 * j + t) / 8 = j := by omega
    have e2 : (8 * j + t) % 8 = t := by omega
    rwa [e1, e2] at this

/-- Witness of C14: difficulty 12 and a digest whose first 12 bits are zero. -/
theorem blake3_valid_iff_leading_bits_zero_witness :
    blake3_valid ((12 : Nat) : Int) (0 :: 15 :: List.replicate 30 255) = .ok true ↔
      leading_bits_zero 12 (0 :: 15 :: List.replicate 30 255) :=
  blake3_valid_iff_leading_bits_zero 12 (0 :: 15 :: List.replicate 30 255)
    (by decide) (by decide) (by decide)

/-! ### `scrypt_hash` on parameters out of range -/

theorem scrypt_romix_of_nonpos (B : List Nat) (r N : Int) (hN : N ≤ 0) (hr : 0 ≤ r) :
    scrypt_romix B r N = .ok (B.take (32 * r).toNat) := by
  have hn : N.toNat = 0 := by omega
  have hnot : ¬ 32 * r < 0 := by omega
  simp only [scrypt_romix, hnot, if_false, hn, scrypt_romix_fill, scrypt_romix_mix]

theorem pbkdf2_sha256_zero_length (password salt : List Nat) :
    pbkdf2_sha256 password salt 1 0 = .ok [] := by
  simp [pbkdf2_sha256, pbkdf2_blocks]

theorem pbkdf2_sha256_overflow (password salt : List Nat) (outputLen : Nat)
    (hsalt : 252 < salt.length) (hout : 0 < outputLen) :
    pbkdf2_sha256 password salt 1 outputLen = .error .overflow := by
  obtain ⟨k, rfl⟩ : ∃ k, outputLen = k + 1 := ⟨outputLen - 1, by omega⟩
  have hbuf : 256 < salt.length + 4 := by omega
  simp only [pbkdf2_sha256, pbkdf2_blocks, hout, if_true, hbuf]

theorem scrypt_hash_zero_lanes (password salt : List Nat) (N r : Int) (outputLen : Nat) :
    scrypt_hash password salt N r 0 outputLen = pbkdf2_sha256 password [] 1 outputLen := by
  have h0 : ¬ (128 * r * 0 < 0) := by omega
  have h1 : (128 * r * 0).toNat = 0 := by omega
  simp only [scrypt_hash, h0, if_false, h1, pbkdf2_sha256_zero_length, Int.toNat_zero,
    scrypt_lanes]

theorem scrypt_hash_nonpos_r (password salt : List Nat) (N r p : Int) (outputLen : Nat)
    (hr : r ≤ 0) (hN : 1 ≤ N) (hp : 1 ≤ p) :
    scrypt_hash password salt N r p outputLen = .error .overflow := by
  rcases (by omega : r < 0 ∨ r = 0) with hneg | hzero
  · have h0 : 128 * r * p < 0 := by
      have : 128 * r ≤ -128 := by omega
      nlinarith
    simp only [scrypt_hash, h0, if_true]
  · subst hzero
    obtain ⟨k, hk⟩ : ∃ k, p.toNat = k + 1 := ⟨p.toNat - 1, by omega⟩
    obtain ⟨m, hm⟩ : ∃ m, N.toNat = m + 1 := ⟨N.toNat - 1, by omega⟩
    have h0 : ¬ ((128 : Int) * 0 * p < 0) := by omega
    have h1 : ((128 : Int) * 0 * p).toNat = 0 := by omega
    have hmix : scrypt_block_mix ([] : List Nat) 0 = .error .overflow := by
      simp [scrypt_block_mix]
    have hromix : ∀ B : List Nat, scrypt_romix B 0 N = .error .overflow := by
      intro B
      simp [scrypt_romix, hm, scrypt_romix_fill, hmix]
    simp only [scrypt_hash, h0, if_false, h1, pbkdf2_sha256_zero_length, hk, scrypt_lanes,
      hromix]

theorem scrypt_hash_oversize (password salt : List Nat) (N : Int) (r p outputLen : Nat)
    (hr : 1 ≤ r) (hbig : 252 < 128 * r * p) (hsalt : salt.length ≤ 252)
    (hout : 0 < outputLen) :
    scrypt_hash password salt N (r : Int) (p : Int) outputLen = .error .overflow := by
  have hsize : (128 * (r : Int) * (p : Int)).toNat = 128 * r * p := by
    have : (128 * (r : Int) * (p : Int)) = ((128 * r * p : Nat) : Int) := by push_cast; ring
    rw [this, Int.toNat_natCast]
  have hbs : (128 * (r : Int)).toNat = 128 * r := by omega
  have hnn : ¬ (128 * (r : Int) * (p : Int) < 0) := by
    have : (128 * (r : Int) * (p : Int)) = ((128 * r * p : Nat) : Int) := by push_cast; ring
    rw [this]; omega
  obtain ⟨B, hB, hBl⟩ := pbkdf2_sha256_ok password salt (128 * r * p) hsalt
  obtain ⟨B', hB', hB'l⟩ := scrypt_lanes_ok (r : Int) N (by omega) p 0 B
    (by rw [hbs, hBl]; apply le_of_eq; ring)
  have hfinal := pbkdf2_sha256_overflow password B' outputLen (by rw [hB'l, hBl]; exact hbig) hout
  simp only [scrypt_hash, hnn, if_false, hsize, hB, Int.toNat_natCast, hB', hfinal]

/-- C15 (as amended): `scrypt_hash` checks none of its parameters and has no failure
result. With `N ≤ 0` both loops of `scrypt_romix` run zero times and the block is
left as it is, and for `r = p = 1` and a salt of at most 252 bytes an output of
`outputLen` bytes is written; with `p = 0` no lane is mixed and the output is
`pbkdf2_sha256` of the empty salt. With `r ≤ 0` (and `N, p ≥ 1`), or with
`128 * r * p + 4 > 256` (and `r, p ≥ 1`), the call is not rejected: it overruns a
buffer. -/
theorem scrypt_hash_unchecked_parameters :
    (∀ (B : List Nat) (r N : Int), N ≤ 0 → 0 ≤ r →
      scrypt_romix B r N = .ok (B.take (32 * r).toNat)) ∧
    (∀ (password salt : List Nat) (N : Int) (outputLen : Nat), N ≤ 0 → salt.length ≤ 252 →
      ∃ out, scrypt_hash password salt N 1 1 outputLen = .ok out ∧ out.length = outputLen) ∧
    (∀ (password salt : List Nat) (N r : Int) (outputLen : Nat),
      scrypt_hash password salt N r 0 outputLen = pbkdf2_sha256 password [] 1 outputLen ∧
      ∃ out, scrypt_hash password salt N r 0 outputLen = .ok out ∧ out.length = outputLen) ∧
    (∀ (password salt : List Nat) (N r p : Int) (outputLen : Nat), r ≤ 0 → 1 ≤ N → 1 ≤ p →
      scrypt_hash password salt N r p outputLen = .error .overflow) ∧
    (∀ (password salt : List Nat) (N : Int) (r p outputLen : Nat),
      1 ≤ r → 1 ≤ p → 252 < 128 * r * p → salt.length ≤ 252 → 0 < outputLen →
      scrypt_hash password salt N (r : Int) (p : Int) outputLen = .error .overflow) := by
  refine ⟨scrypt_romix_of_nonpos, fun password salt N outputLen _ hsalt =>
    scrypt_hash_ok password salt N outputLen hsalt, ?_, scrypt_hash_nonpos_r,
    fun password salt N r p outputLen hr _ hbig hsalt hout =>
      scrypt_hash_oversize password salt N r p outputLen hr hbig hsalt hout⟩
  intro password salt N r outputLen
  refine ⟨scrypt_hash_zero_lanes password salt N r outputLen, ?_⟩
  rw [scrypt_hash_zero_lanes]
  exact pbkdf2_sha256_ok password [] outputLen (by simp)

/-- Witness of C15: `N = -3` with the Litecoin `r = p = 1`, and `r = 2`. -/
theorem scrypt_hash_unchecked_parameters_witness :
    (∃ out, scrypt_hash [1, 2, 3] [1, 2, 3] (-3) 1 1 32 = .ok out ∧ out.length = 32) ∧
    scrypt_hash [1, 2, 3] [1, 2, 3] 1024 ((2 : Nat) : Int) ((1 : Nat) : Int) 32
      = .error .overflow :=
  ⟨scrypt_hash_unchecked_parameters.2.1 [1, 2, 3] [1, 2, 3] (-3) 32 (by decide) (by decide),
   scrypt_hash_unchecked_parameters.2.2.2.2 [1, 2, 3] [1, 2, 3] 1024 2 1 32
     (by decide) (by decide) (by decide) (by decide) (by decide)⟩

/-- Counterexample to C15 as stated: with `N = 0` (and with `N = -1`) the call is
not rejected; an output digest of 32 bytes is written. -/
theorem scrypt_hash_accepts_nonpositive_N :
    (∃ out, scrypt_hash [] [] 0 1 1 32 = .ok out ∧ out.length = 32) ∧
    (∃ out, scrypt_hash [] [] (-1) 1 1 32 = .ok out ∧ out.length = 32) :=
  ⟨scrypt_hash_ok [] [] 0 32 (by decide), scrypt_hash_ok [] [] (-1) 32 (by decide)⟩

/-! ### Loops that store into each index once -/

theorem foldl_set_range (g : Nat → Nat → Nat) (X : List Nat) :
    ∀ m, m ≤ X.length →
      (List.range m).foldl (fun Z j => Z.set j (g j (Z.getD j 0))) X
        = (List.range m).map (fun j => g j (X.getD j 0)) ++ X.drop m := by
  intro m
  induction m with
  | zero => intro _; simp
  | succ m ih =>
    intro hm
    have hlt : m < X.length := hm
    rw [List.range_succ, List.foldl_append, ih (Nat.le_of_lt hlt), List.map_append]
    have hlen : ((List.range m).map (fun j => g j (X.getD j 0))).length = m := by simp
    have hdrop : X.drop m = X.getD m 0 :: X.drop (m + 1) := by
      rw [List.drop_eq_getElem_cons hlt]
      simp [List.getD_eq_getElem?_getD, List.getElem?_eq_getElem hlt]
    simp only [List.foldl_cons, List.foldl_nil, List.map_cons, List.map_nil]
    rw [List.set_append_right _ _ (by rw [hlen]), hlen, Nat.sub_self,
      List.getD_append_right _ _ _ _ (by rw [hlen]), hlen, Nat.sub_self, hdrop]
    simp

theorem foldl_set_range_full (g : Nat → Nat → Nat) (X : List Nat) (n : Nat) (h : X.length = n) :
    (List.range n).foldl (fun Z j => Z.set j (g j (Z.getD j 0))) X
      = (List.range n).map (fun j => g j (X.getD j 0)) := by
  rw [foldl_set_range g X n (by omega), List.drop_of_length_le (by omega), List.append_nil]

/-! ### The stream-cipher core -/

theorem spec_salsa20_quarter_eq (x : List Nat) (a b c d : Nat) :
    spec_salsa20_quarter x a b c d =
      salsa20_step (salsa20_step (salsa20_step (salsa20_step x b a d 7) c b a 9) d c b 13)
        a d c 18 := rfl

theorem salsa20_body_eq (x : List Nat) : salsa20_body x = spec_salsa20_double_round x := by
  simp only [salsa20_body, spec_salsa20_double_round, spec_salsa20_row_round,
    spec_salsa20_column_round, spec_salsa20_quarter_eq]

theorem salsa20_loop_eq (x : List Nat) : salsa20_loop 8 0 x = spec_salsa20_rounds 4 x := by
  simp [salsa20_loop, spec_salsa20_rounds, salsa20_body_eq]

theorem salsa20_8_eq (B : List Nat) (h : B.length = 16) : salsa20_8 B = spec_salsa20_core 4 B := by
  unfold salsa20_8 spec_salsa20_core
  rw [salsa20_loop_eq]
  exact foldl_set_range_full (fun i b => u32 (b + (spec_salsa20_rounds 4 B).getD i 0)) B 16 h

/-- C19 (as amended): `salsa20_8` applies 4 double-rounds (8 rounds; a double-round
is a column round followed by a row round of add-rotate-XOR quarter-rounds) to a
copy of its 16-word input and then adds the input words to the result modulo `2^32`;
the body of its loop, which runs for `i = 0, 2, 4, 6`, is one double-round. -/
theorem salsa20_8_four_double_rounds (B : List Nat) (h : B.length = 16) :
    salsa20_8 B = spec_salsa20_core 4 B ∧
    (∀ x : List Nat, salsa20_body x = spec_salsa20_double_round x) ∧
    (∀ x : List Nat, salsa20_loop 8 0 x = spec_salsa20_rounds 4 x) :=
  ⟨salsa20_8_eq B h, salsa20_body_eq, salsa20_loop_eq⟩

/-- Witness of C19: the input `1, 0, ..., 0`. -/
theorem salsa20_8_four_double_rounds_witness :
    salsa20_8 (1 :: List.replicate 15 0) = spec_salsa20_core 4 (1 :: List.replicate 15 0) :=
  (salsa20_8_four_double_rounds (1 :: List.replicate 15 0) (by decide)).1

set_option maxRecDepth 100000 in
/-- Counterexample to C19 as stated: on the input `1, 0, ..., 0` the result of
`salsa20_8` is not that of 8 double-rounds. -/
theorem salsa20_8_not_eight_double_rounds :
    salsa20_8 (1 :: List.replicate 15 0) ≠ spec_salsa20_core 8 (1 :: List.replicate 15 0) := by
  decide!

/-! ### The chain of `blake3_hash` -/

theorem blake3_middle_blocks_eq :
    ∀ (fuel : Nat) (chaining data : List Nat), (data.length - 1) / 64 ≤ fuel →
      blake3_middle_blocks fuel chaining data =
        (spec_blake3_interior ((data.length - 1) / 64) chaining data,
          data.drop (64 * ((data.length - 1) / 64))) := by
  intro fuel
  induction fuel with
  | zero =>
    intro chaining data h
    have h0 : (data.length - 1) / 64 = 0 := by omega
    simp [blake3_middle_blocks, h0, spec_blake3_interior]
  | succ fuel ih =>
    intro chaining data h
    by_cases hlen : 64 < data.length
    · obtain ⟨j, hj⟩ : ∃ j, (data.length - 1) / 64 = j + 1 :=
        ⟨(data.length - 1) / 64 - 1, by omega⟩
      have hj' : ((data.drop 64).length - 1) / 64 = j := by
        rw [List.length_drop]; omega
      simp only [blake3_middle_blocks, hlen, if_true]
      rw [ih _ _ (by rw [hj']; omega), hj', hj, List.drop_drop]
      simp only [spec_blake3_interior]
      congr 2
      omega
    · have h0 : (data.length - 1) / 64 = 0 := by omega
      simp [blake3_middle_blocks, hlen, h0, spec_blake3_interior]

theorem blake3_hash_chain_spec (data : List Nat) (h : 64 < data.length) :
    blake3_hash data = spec_blake3_chain data := by
  have hne : ¬ data.length = 0 := by omega
  have hgt : ¬ data.length ≤ 64 := by omega
  have hj : ((data.drop 64).length - 1) / 64 = (data.length + 63) / 64 - 2 := by
    rw [List.length_drop]; omega
  have hmid := blake3_middle_blocks_eq (data.length - 64)
    ((blake3_compress IV (data.take 64) 0 64 CHUNK_START).take 8) (data.drop 64)
    (by rw [List.length_drop]; omega)
  rw [hj, List.drop_drop] at hmid
  have hoff : 64 + 64 * ((data.length + 63) / 64 - 2) = 64 * ((data.length + 63) / 64 - 1) := by
    omega
  rw [hoff] at hmid
  have hlast : (data.drop (64 * ((data.length + 63) / 64 - 1))).length
      = data.length - 64 * ((data.length + 63) / 64 - 1) := by rw [List.length_drop]
  have hu : u32 (data.length - 64 * ((data.length + 63) / 64 - 1))
      = data.length - 64 * ((data.length + 63) / 64 - 1) := by
    unfold u32; omega
  unfold blake3_hash blake3_final_out spec_blake3_chain
  simp only [hne, hgt, if_false, hmid, hlast, hu, List.drop_replicate]
  rfl

/-- C18: for an input of more than 64 bytes, with `k = ceil(len / 64) ≥ 2`,
`blake3_hash` is the linear chain of the specification: one compression of block 0
with the flag `CHUNK_START` (1) from `IV`, one of each interior block `1 .. k - 2`
with no flag, and one of the final block, zero-padded to 64 bytes, with block length
`len - 64 * (k - 1)` (between 1 and 64) and the flags `CHUNK_END | ROOT` (2 | 8); the
counter is 0 throughout, every block after the first starts from the first 8 output
words of the compression before, and the digest is the first 8 output words of the
last compression, little-endian. That is `1 + (k - 2) + 1 = k` compressions. -/
theorem blake3_hash_linear_chain (data : List Nat) (h : 64 < data.length) :
    blake3_hash data = spec_blake3_chain data ∧
    2 ≤ (data.length + 63) / 64 ∧
    1 ≤ data.length - 64 * ((data.length + 63) / 64 - 1) ∧
    data.length - 64 * ((data.length + 63) / 64 - 1) ≤ 64 ∧
    (data.drop (64 * ((data.length + 63) / 64 - 1))).length
      = data.length - 64 * ((data.length + 63) / 64 - 1) ∧
    1 + ((data.length + 63) / 64 - 2) + 1 = (data.length + 63) / 64 ∧
    CHUNK_START = 1 ∧ CHUNK_END ||| ROOT = 2 ||| 8 := by
  exact ⟨blake3_hash_chain_spec data h, by omega, by omega, by omega,
    by rw [List.length_drop], by omega, rfl, rfl⟩

/-- Witness of C18: an input of 130 bytes, which makes three blocks. -/
theorem blake3_hash_linear_chain_witness :
    blake3_hash (List.replicate 130 7) = spec_blake3_chain (List.replicate 130 7) :=
  (blake3_hash_linear_chain (List.replicate 130 7) (by simp)).1

/-! ### BlockMix -/

theorem length_flatMap_range_16 (f : Nat → List Nat) (hf : ∀ i, (f i).length = 16) (n : Nat) :
    ((List.range n).flatMap f).length = 16 * n := by
  induction n with
  | zero => rfl
  | succ n ih =>
    rw [List.range_succ, List.flatMap_append, List.length_append, ih]
    simp [hf]
    omega

theorem chunk_flatMap_range_16 (f : Nat → List Nat) (hf : ∀ i, (f i).length = 16) :
    ∀ n m, m < n → (((List.range n).flatMap f).drop (m * 16)).take 16 = f m := by
  intro n
  induction n with
  | zero => intro m h; omega
  | succ n ih =>
    intro m hm
    have hlen := length_flatMap_range_16 f hf n
    rw [List.range_succ, List.flatMap_append]
    simp only [List.flatMap_cons, List.flatMap_nil, List.append_nil]
    rcases Nat.eq_or_lt_of_le (Nat.le_of_lt_succ hm) with rfl | hlt
    · rw [List.drop_left' (by rw [hlen]; omega), List.take_of_length_le (by rw [hf])]
    · rw [List.drop_append_of_le_length (by rw [hlen]; omega),
        List.take_append_of_le_length (by rw [List.length_drop, hlen]; omega)]
      exact ih m hlt

theorem memcpy_at_append (P Q src : List Nat) (off : Nat) (h : P.length = off) :
    memcpy_at (P ++ Q) off src = P ++ src ++ Q.drop src.length := by
  unfold memcpy_at
  rw [List.take_left' h, ← h, List.drop_append]

theorem length_spec_block_mix_X (B : List Nat) (r : Nat) (hr : 1 ≤ r) (hlen : B.length = 32 * r) :
    ∀ i, (spec_block_mix_X B r i).length = 16 := by
  intro i
  cases i with
  | zero =>
    simp only [spec_block_mix_X, List.length_take, List.length_drop]
    omega
  | succ i => simp [spec_block_mix_X, length_salsa20_8]

theorem scrypt_block_mix_first_loop (B : List Nat) (r : Nat) (hr : 1 ≤ r)
    (hlen : B.length = 32 * r) :
    ∀ n, (List.range n).foldl (scrypt_block_mix_step B) ((B.drop ((2 * r - 1) * 16)).take 16, [])
      = (spec_block_mix_X B r n, (List.range n).flatMap (fun i => spec_block_mix_X B r (i + 1))) := by
  intro n
  induction n with
  | zero => rfl
  | succ n ih =>
    rw [List.range_succ, List.foldl_append, ih]
    have hX := length_spec_block_mix_X B r hr hlen n
    have hxor : (List.range 16).foldl
        (fun X j => X.set j (X.getD j 0 ^^^ B.getD (n * 16 + j) 0)) (spec_block_mix_X B r n)
        = (List.range 16).map fun j => (spec_block_mix_X B r n).getD j 0 ^^^ B.getD (16 * n + j) 0 := by
      rw [foldl_set_range_full (fun j x => x ^^^ B.getD (n * 16 + j) 0) _ 16 hX]
      simp only [Nat.mul_comm n 16]
    simp only [List.foldl_cons, List.foldl_nil, scrypt_block_mix_step, hxor, List.flatMap_append,
      List.flatMap_cons, List.flatMap_nil, List.append_nil, spec_block_mix_X]

theorem scrypt_block_mix_second_loop (B Y : List Nat) (r : Nat) (E O : Nat → List Nat)
    (hlen : B.length = 32 * r) (hE : ∀ i, (E i).length = 16) (hO : ∀ i, (O i).length = 16)
    (hYE : ∀ i, i < r → (Y.drop ((2 * i) * 16)).take 16 = E i)
    (hYO : ∀ i, i < r → (Y.drop ((2 * i + 1) * 16)).take 16 = O i) :
    ∀ m, m ≤ r →
      (List.range m).foldl (fun B i =>
        memcpy_at (memcpy_at B (i * 16) ((Y.drop ((2 * i) * 16)).take 16)) ((r + i) * 16)
          ((Y.drop ((2 * i + 1) * 16)).take 16)) B
        = (List.range m).flatMap E ++ ((B.drop (16 * m)).take (16 * (r - m)) ++
            ((List.range m).flatMap O ++ B.drop (16 * (r + m)))) := by
  intro m
  induction m with
  | zero =>
    intro _
    simp only [List.range_zero, List.foldl_nil, List.flatMap_nil, List.nil_append, Nat.mul_zero,
      List.drop_zero, Nat.sub_zero, Nat.add_zero]
    exact (List.take_append_drop (16 * r) B).symm
  | succ m ih =>
    intro hm
    have hlt : m < r := hm
    have hEv := length_flatMap_range_16 E hE m
    have hOd := length_flatMap_range_16 O hO m
    rw [List.range_succ, List.foldl_append, ih (Nat.le_of_lt hlt)]
    simp only [List.foldl_cons, List.foldl_nil, hYE m hlt, hYO m hlt, List.flatMap_append,
      List.flatMap_cons, List.flatMap_nil, List.append_nil]
    rw [memcpy_at_append _ _ _ _ (by rw [hEv]; ring), hE]
    have hM : ((B.drop (16 * m)).take (16 * (r - m))).length = 16 * (r - m) := by
      rw [List.length_take, List.length_drop]; omega
    rw [List.drop_append_of_le_length (by rw [hM]; omega), List.drop_take, List.drop_drop]
    have hM' : ((B.drop (16 * m + 16)).take (16 * (r - m) - 16)).length = 16 * (r - (m + 1)) := by
      rw [List.length_take, List.length_drop]; omega
    have hregroup : (List.range m).flatMap E ++ E m ++
        ((B.drop (16 * m + 16)).take (16 * (r - m) - 16) ++
          ((List.range m).flatMap O ++ B.drop (16 * (r + m))))
        = ((List.range m).flatMap E ++ E m ++ (B.drop (16 * m + 16)).take (16 * (r - m) - 16) ++
            (List.range m).flatMap O) ++ B.drop (16 * (r + m)) := by
      simp only [List.append_assoc]
    rw [hregroup, memcpy_at_append _ _ _ _
      (by simp only [List.length_append, hEv, hE, hM', hOd]; omega), hO, List.drop_drop]
    have e1 : 16 * m + 16 = 16 * (m + 1) := by ring
    have e2 : 16 * (r - m) - 16 = 16 * (r - (m + 1)) := by omega
    have e3 : 16 * (r + m) + 16 = 16 * (r + (m + 1)) := by ring
    rw [e1, e2, e3]
    simp only [List.append_assoc]

theorem scrypt_block_mix_spec (B : List Nat) (r : Nat) (hr : 1 ≤ r)
    (hlen : B.length = 32 * r) :
    scrypt_block_mix B (r : Int) = .ok (spec_block_mix B r) := by
  have hnot : ¬ (r : Int) < 1 := by omega
  have hY := length_spec_block_mix_X B r hr hlen
  have hloop := scrypt_block_mix_first_loop B r hr hlen (2 * r)
  have hsecond := scrypt_block_mix_second_loop B
    ((List.range (2 * r)).flatMap (fun i => spec_block_mix_X B r (i + 1))) r
    (fun i => spec_block_mix_X B r (2 * i + 1)) (fun i => spec_block_mix_X B r (2 * i + 2))
    hlen (fun i => hY _) (fun i => hY _)
    (fun i hi => chunk_flatMap_range_16 _ (fun i => hY _) (2 * r) (2 * i) (by omega))
    (fun i hi => chunk_flatMap_range_16 _ (fun i => hY _) (2 * r) (2 * i + 1) (by omega))
    r (le_refl _)
  unfold scrypt_block_mix
  simp only [hnot, if_false, Int.toNat_natCast, hloop, hsecond, Nat.sub_self, Nat.mul_zero,
    List.take_zero, List.nil_append]
  rw [List.drop_of_length_le (by omega), List.append_nil]
  rfl

/-- C20: for `r ≥ 1` and a block `B` of `2r` sub-blocks of 16 words, `scrypt_block_mix`
leaves in `B` the BlockMix of the specification: with `X := B_{2r-1}` and, for
`i = 0 .. 2r-1`, `X := salsa20_8 (X xor B_i)`, `Y_i := X`, the result is
`Y_0, Y_2, ..., Y_{2r-2}, Y_1, Y_3, ..., Y_{2r-1}`. -/
theorem scrypt_block_mix_eq_spec (B : List Nat) (r : Nat) (hr : 1 ≤ r)
    (hlen : B.length = 32 * r) :
    scrypt_block_mix B (r : Int) = .ok (spec_block_mix B r) :=
  scrypt_block_mix_spec B r hr hlen

/-- Witness of C20: `r = 1` and the block of 32 words `0, 1, ..., 31`. -/
theorem scrypt_block_mix_eq_spec_witness :
    scrypt_block_mix (List.range 32) ((1 : Nat) : Int) = .ok (spec_block_mix (List.range 32) 1) :=
  scrypt_block_mix_eq_spec (List.range 32) 1 (by decide) (by decide)

/-! ### ROMix -/

theorem length_spec_block_mix (B : List Nat) (r : Nat) (hr : 1 ≤ r) (hlen : B.length = 32 * r) :
    (spec_block_mix B r).length = 32 * r := by
  obtain ⟨B', hB', hl⟩ := scrypt_block_mix_ok B (r : Int) (by omega) (by rw [hlen]; omega)
  rw [scrypt_block_mix_spec B r hr hlen] at hB'
  simp only [Except.ok.injEq] at hB'
  rw [hB', hl, hlen]

theorem length_spec_block_mix_iter (r : Nat) (hr : 1 ≤ r) :
    ∀ (n : Nat) (X : List Nat), X.length = 32 * r →
      (spec_block_mix_iter r n X).length = 32 * r := by
  intro n
  induction n with
  | zero => intro X h; exact h
  | succ n ih => intro X h; exact ih _ (length_spec_block_mix X r hr h)

theorem length_spec_romix_table (r : Nat) (hr : 1 ≤ r) :
    ∀ (n : Nat) (X : List Nat), X.length = 32 * r →
      (spec_romix_table r n X).length = n * (32 * r) := by
  intro n
  induction n with
  | zero => intro X _; simp [spec_romix_table]
  | succ n ih =>
    intro X h
    simp only [spec_romix_table, List.length_append, h, ih _ (length_spec_block_mix X r hr h)]
    ring

theorem spec_romix_table_entry (r : Nat) (hr : 1 ≤ r) :
    ∀ (n i : Nat) (X : List Nat), X.length = 32 * r → i < n →
      ((spec_romix_table r n X).drop (i * (32 * r))).take (32 * r) = spec_block_mix_iter r i X := by
  intro n
  induction n with
  | zero => intro i X _ hi; omega
  | succ n ih =>
    intro i X h hi
    cases i with
    | zero =>
      simp only [spec_romix_table, Nat.zero_mul, List.drop_zero, spec_block_mix_iter]
      exact List.take_left' h
    | succ i =>
      have hoff : (i + 1) * (32 * r) = X.length + i * (32 * r) := by rw [h]; ring
      simp only [spec_romix_table, spec_block_mix_iter]
      rw [hoff, List.drop_append]
      exact ih i _ (length_spec_block_mix X r hr h) (by omega)

theorem scrypt_romix_fill_spec (r : Nat) (hr : 1 ≤ r) :
    ∀ (n : Nat) (V X : List Nat), X.length = 32 * r →
      scrypt_romix_fill (r : Int) n V X
        = .ok (V ++ spec_romix_table r n X, spec_block_mix_iter r n X) := by
  intro n
  induction n with
  | zero => intro V X _; simp [scrypt_romix_fill, spec_romix_table, spec_block_mix_iter]
  | succ n ih =>
    intro V X h
    simp only [scrypt_romix_fill, scrypt_block_mix_spec X r hr h, spec_romix_table,
      spec_block_mix_iter]
    rw [ih _ _ (length_spec_block_mix X r hr h), List.append_assoc]

theorem scrypt_romix_mix_spec (r N : Nat) (hr : 1 ≤ r) (V : List Nat) :
    ∀ (n : Nat) (X : List Nat), X.length = 32 * r →
      scrypt_romix_mix (r : Int) (N : Int) V n X
        = .ok (spec_romix_mix (32 * r - 16) r N V n X) := by
  intro n
  induction n with
  | zero => intro X _; rfl
  | succ n ih =>
    intro X h
    have hbs : (32 * (r : Int)).toNat = 32 * r := by omega
    have hword : (2 * r - 1) * 16 = 32 * r - 16 := by omega
    have hxor : (List.range (32 * r)).foldl
        (fun Z k => Z.set k (Z.getD k 0 ^^^
          V.getD (X.getD (32 * r - 16) 0 % N * (32 * r) + k) 0)) X
        = (List.range (32 * r)).map fun k =>
            X.getD k 0 ^^^ V.getD (X.getD (32 * r - 16) 0 % N * (32 * r) + k) 0 :=
      foldl_set_range_full
        (fun k x => x ^^^ V.getD (X.getD (32 * r - 16) 0 % N * (32 * r) + k) 0) X (32 * r) h
    simp only [scrypt_romix_mix, spec_romix_mix, Int.toNat_natCast, hbs, hword, hxor]
    rw [scrypt_block_mix_spec _ r hr (by simp)]
    exact ih _ (length_spec_block_mix _ r hr (by simp))

theorem scrypt_romix_spec (B : List Nat) (r N : Nat) (hr : 1 ≤ r) (hlen : B.length = 32 * r) :
    scrypt_romix B (r : Int) (N : Int)
      = scrypt_romix_mix (r : Int) (N : Int) (spec_romix_table r N B) N
          (spec_block_mix_iter r N B) := by
  have hnot : ¬ 32 * (r : Int) < 0 := by omega
  have hbs : (32 * (r : Int)).toNat = 32 * r := by omega
  have htake : B.take (32 * r) = B := List.take_of_length_le (by omega)
  simp only [scrypt_romix, hnot, if_false, hbs, htake, Int.toNat_natCast,
    scrypt_romix_fill_spec r hr N [] B hlen, List.nil_append]

/-- C21: for `N ≥ 1`, `r ≥ 1` and a lane block `B` of `32 r` words, the first loop of
`scrypt_romix` ends with a table of `N` entries, entry `i` being BlockMix applied `i`
times to `B` (entry 0 is `B`), and with the working block `X` equal to BlockMix
applied `N` times to `B`; the second loop runs on this complete table, which it takes
as an argument that it only reads. -/
theorem scrypt_romix_table_complete (B : List Nat) (r N : Nat) (hr : 1 ≤ r) (hN : 1 ≤ N)
    (hlen : B.length = 32 * r) :
    scrypt_romix_fill (r : Int) N [] B
      = .ok (spec_romix_table r N B, spec_block_mix_iter r N B) ∧
    (spec_romix_table r N B).length = N * (32 * r) ∧
    (∀ i, i < N →
      ((spec_romix_table r N B).drop (i * (32 * r))).take (32 * r)
        = spec_block_mix_iter r i B) ∧
    (spec_romix_table r N B).take (32 * r) = B ∧
    (∀ i X, scrypt_block_mix (spec_block_mix_iter r i B) (r : Int) = .ok X →
      X = spec_block_mix_iter r (i + 1) B) ∧
    scrypt_romix B (r : Int) (N : Int)
      = scrypt_romix_mix (r : Int) (N : Int) (spec_romix_table r N B) N
          (spec_block_mix_iter r N B) := by
  refine ⟨?_, length_spec_romix_table r hr N B hlen, fun i hi =>
    spec_romix_table_entry r hr N i B hlen hi, ?_, ?_, scrypt_romix_spec B r N hr hlen⟩
  · have := scrypt_romix_fill_spec r hr N [] B hlen
    rwa [List.nil_append] at this
  · have := spec_romix_table_entry r hr N 0 B hlen (by omega)
    simpa [spec_block_mix_iter] using this
  · intro i X hX
    rw [scrypt_block_mix_spec _ r hr (length_spec_block_mix_iter r hr i B hlen)] at hX
    simp only [Except.ok.injEq] at hX
    rw [← hX]
    clear hX
    induction i generalizing B with
    | zero => rfl
    | succ i ih =>
      simp only [spec_block_mix_iter]
      exact ih (spec_block_mix B r) (length_spec_block_mix B r hr hlen)

/-- Witness of C21: `r = 1`, `N = 4` and the block of 32 words `0, 1, ..., 31`. -/
theorem scrypt_romix_table_complete_witness :
    scrypt_romix_fill ((1 : Nat) : Int) 4 [] (List.range 32)
      = .ok (spec_romix_table 1 4 (List.range 32), spec_block_mix_iter 1 4 (List.range 32)) :=
  (scrypt_romix_table_complete (List.range 32) 1 4 (by decide) (by decide) (by decide)).1

/-- C22 (as amended): in each of the `N` iterations of the second loop of
`scrypt_romix` the table entry XORed into the working block `X` is the one at index
`X[16 (2r - 1)] mod N`: the word is the first of the last 16-word sub-block of `X`
(word `32 r - 16`), not word `32 r - 1`. -/
theorem scrypt_romix_index_word (B V : List Nat) (r N n : Nat) (hr : 1 ≤ r)
    (hlen : B.length = 32 * r) :
    scrypt_romix_mix (r : Int) (N : Int) V n B = .ok (spec_romix_mix (32 * r - 16) r N V n B) ∧
    32 * r - 16 = 16 * (2 * r - 1) ∧
    scrypt_romix B (r : Int) (N : Int)
      = .ok (spec_romix_mix (32 * r - 16) r N (spec_romix_table r N B) N
          (spec_block_mix_iter r N B)) := by
  refine ⟨scrypt_romix_mix_spec r N hr V n B hlen, by omega, ?_⟩
  rw [scrypt_romix_spec B r N hr hlen]
  exact scrypt_romix_mix_spec r N hr _ N _ (length_spec_block_mix_iter r hr N B hlen)

/-- Witness of C22: `r = 1`, `N = 2`, one iteration. -/
theorem scrypt_romix_index_word_witness :
    scrypt_romix_mix ((1 : Nat) : Int) ((2 : Nat) : Int) (List.range 64) 1
        (List.replicate 16 0 ++ 1 :: List.replicate 15 0)
      = .ok (spec_romix_mix (32 * 1 - 16) 1 2 (List.range 64) 1
          (List.replicate 16 0 ++ 1 :: List.replicate 15 0)) :=
  (scrypt_romix_index_word (List.replicate 16 0 ++ 1 :: List.replicate 15 0) (List.range 64)
    1 2 1 (by decide) (by decide)).1

set_option maxRecDepth 100000 in
/-- Counterexample to C22 as stated: with `r = 1`, `N = 2` and a block whose word 16
is 1 and whose word 31 is 0, the iteration does not mix in the entry at index
`X[31] mod N = 0`; it mixes in the one at index `X[16] mod N = 1`. -/
theorem scrypt_romix_index_not_last_word :
    scrypt_romix_mix 1 2 (List.range 64) 1 (List.replicate 16 0 ++ 1 :: List.replicate 15 0)
      ≠ .ok (spec_romix_mix 31 1 2 (List.range 64) 1
          (List.replicate 16 0 ++ 1 :: List.replicate 15 0)) := by
  decide!

/-! ### RandomX light: seeding -/

theorem map_getD_range_eq_take (l : List Nat) (m : Nat) (h : m ≤ l.length) :
    (List.range m).map (fun j => l.getD j 0) = l.take m := by
  apply List.ext_getElem
  · simp [h]
  · intro i h1 h2
    have hi : i < m := by simpa using h1
    have hl : i < l.length := by omega
    simp [List.getD_eq_getElem?_getD, List.getElem?_eq_getElem hl, List.getElem_take]

theorem foldl_copy_prefix (src : List Nat) (n : Nat) :
    (List.range (min src.length n)).foldl (fun Z i => Z.set i (src.getD i 0)) (List.replicate n 0)
      = src.take n ++ List.replicate (n - src.length) 0 := by
  have h := foldl_set_range (fun j _ => src.getD j 0) (List.replicate n 0) (min src.length n)
    (by simp)
  simp only [] at h
  rw [h, List.drop_replicate]
  have hmap : (List.range (min src.length n)).map (fun j => src.getD j 0)
      = src.take (min src.length n) := map_getD_range_eq_take src _ (Nat.min_le_left _ _)
  have hmin : src.take (min src.length n) = src.take n := by
    rcases Nat.le_total src.length n with hle | hle
    · rw [Nat.min_eq_left hle, List.take_of_length_le (le_refl _), List.take_of_length_le hle]
    · rw [Nat.min_eq_right hle]
  rw [List.map_congr_left (fun j _ => rfl)] at hmap
  rw [hmap, hmin]
  congr 2
  omega

theorem init_registers_eq (input : List Nat) : init_registers input = pad256 input :=
  foldl_copy_prefix input 256

theorem init_scratchpad_eq (size : Nat) (seed : List Nat) :
    init_scratchpad size seed = init_scratchpad_fill ((size + 15) / 16) (pad16 seed) [] := by
  simp only [init_scratchpad, pad16, foldl_copy_prefix seed 16]

/-! ### RandomX light: what a round stores into -/

theorem getD_foldl_set_ne {ι : Type} (idx : ι → Nat) (val : List Nat → ι → Nat) (k : Nat)
    (l : List ι) (hk : ∀ i ∈ l, idx i ≠ k) (s : List Nat) :
    (l.foldl (fun z i => z.set (idx i) (val z i)) s).getD k 0 = s.getD k 0 := by
  induction l generalizing s with
  | nil => rfl
  | cons a l ih =>
    rw [List.foldl_cons, ih (fun i hi => hk i (List.mem_cons_of_mem _ hi))]
    have hne : idx a ≠ k := hk a (List.mem_cons_self _ _)
    simp [List.getD_eq_getElem?_getD, List.getElem?_set_ne hne]

theorem getD_set_ne' (s : List Nat) (i k v : Nat) (h : i ≠ k) :
    (s.set i v).getD k 0 = s.getD k 0 := by
  simp [List.getD_eq_getElem?_getD, List.getElem?_set_ne h]

theorem getD_set_eq_lt (s : List Nat) (i v : Nat) (hv : v < 256) (hs : s.getD i 0 < 256) :
    (s.set i v).getD i 0 < 256 := by
  by_cases hi : i < s.length
  · simp [List.getD_eq_getElem?_getD, List.getElem?_set_self hi, hv]
  · rw [List.set_eq_of_length_le (by omega)]
    exact hs

theorem getD_foldl_set_lt {ι : Type} (idx : ι → Nat) (val : List Nat → ι → Nat) (k : Nat)
    (l : List ι) (hval : ∀ z i, val z i < 256) (s : List Nat) (hs : s.getD k 0 < 256) :
    (l.foldl (fun z i => z.set (idx i) (val z i)) s).getD k 0 < 256 := by
  induction l generalizing s with
  | nil => exact hs
  | cons a l ih =>
    rw [List.foldl_cons]
    apply ih
    by_cases hne : idx a = k
    · rw [← hne]
      exact getD_set_eq_lt s (idx a) _ (hval s a) (by rw [hne]; exact hs)
    · rw [getD_set_ne' _ _ _ _ hne]
      exact hs

theorem u8_lt (x : Nat) : u8 x < 256 := Nat.mod_lt _ (by decide)

theorem execute_round_eq (size round : Nat) (sp rf : List Nat) :
    execute_round size round sp rf =
      if sp.length < execute_addr size rf + 8 then .error .overflow
      else
        .ok (execute_write_back round (execute_addr size rf) sp
              (execute_switch round (execute_addr size rf)
                (execute_value (execute_addr size rf) sp) sp rf),
            ((execute_switch round (execute_addr size rf)
                (execute_value (execute_addr size rf) sp) sp rf).set 0
              ((execute_switch round (execute_addr size rf)
                (execute_value (execute_addr size rf) sp) sp rf).getD 1 0)).set 1
              ((execute_write_back round (execute_addr size rf) sp
                (execute_switch round (execute_addr size rf)
                  (execute_value (execute_addr size rf) sp) sp rf)).getD
                (execute_addr size rf) 0)) := rfl

theorem execute_switch_effect (round addr value : Nat) (sp rf : List Nat) :
    (execute_switch round addr value sp rf).length = rf.length ∧
    (∀ k, untouched_register k →
      (execute_switch round addr value sp rf).getD k 0 = rf.getD k 0) ∧
    (rf.getD 0 0 < 256 → (execute_switch round addr value sp rf).getD 0 0 < 256) ∧
    (rf.getD 1 0 < 256 → (execute_switch round addr value sp rf).getD 1 0 < 256) := by
  have hmem : ∀ i, i ∈ List.range 8 → i < 8 := fun i hi => List.mem_range.mp hi
  unfold execute_switch untouched_register
  split
  · refine ⟨length_foldl_of_step _ (fun s i => by simp) _ _, fun k hk => ?_, fun h => ?_,
      fun h => ?_⟩
    · exact getD_foldl_set_ne _ _ k _ (fun i hi => by have := hmem i hi; omega) rf
    · exact getD_foldl_set_lt _ _ 0 _ (fun z i => u8_lt _) rf h
    · exact getD_foldl_set_lt _ _ 1 _ (fun z i => u8_lt _) rf h
  · refine ⟨length_foldl_of_step _ (fun s i => by simp) _ _, fun k hk => ?_, fun h => ?_,
      fun h => ?_⟩
    · exact getD_foldl_set_ne _ _ k _ (fun i hi => by have := hmem i hi; omega) rf
    · exact getD_foldl_set_lt _ _ 0 _ (fun z i => u8_lt _) rf h
    · exact getD_foldl_set_lt _ _ 1 _ (fun z i => u8_lt _) rf h
  · refine ⟨by simp, fun k hk => ?_, fun h => ?_, fun h => ?_⟩
    · exact getD_set_ne' _ _ _ _ (by omega)
    · rw [getD_set_ne' _ _ _ _ (by decide)]; exact h
    · rw [getD_set_ne' _ _ _ _ (by decide)]; exact h
  · refine ⟨length_foldl_of_step _ (fun s i => by simp) _ _, fun k hk => ?_, fun h => ?_,
      fun h => ?_⟩
    · exact getD_foldl_set_ne _ _ k _ (fun i hi => by have := hmem i hi; omega) rf
    · exact getD_foldl_set_lt _ _ 0 _ (fun z i => u8_lt _) rf h
    · exact getD_foldl_set_lt _ _ 1 _ (fun z i => u8_lt _) rf h
  · refine ⟨length_foldl_of_step _ (fun s i => by simp) _ _, fun k hk => ?_, fun h => ?_,
      fun h => ?_⟩
    · exact getD_foldl_set_ne _ _ k _ (fun i hi => by have := hmem i hi; omega) rf
    · exact getD_foldl_set_lt _ _ 0 _ (fun z i => u8_lt _) rf h
    · exact getD_foldl_set_lt _ _ 1 _ (fun z i => u8_lt _) rf h
  · refine ⟨by simp, fun k hk => ?_, fun h => ?_, fun h => ?_⟩
    · simp only []
      rw [getD_set_ne' _ _ _ _ (by omega), getD_set_ne' _ _ _ _ (by omega)]
    · simp only []
      rw [getD_set_ne' _ _ _ _ (by decide), getD_set_ne' _ _ _ _ (by decide)]; exact h
    · simp only []
      rw [getD_set_ne' _ _ _ _ (by decide), getD_set_ne' _ _ _ _ (by decide)]; exact h
  · refine ⟨length_foldl_of_step _ (fun s i => by simp) _ _, fun k hk => ?_, fun h => ?_,
      fun h => ?_⟩
    · exact getD_foldl_set_ne _ _ k _ (fun i hi => by have := hmem i hi; omega) rf
    · exact getD_foldl_set_lt _ _ 0 _ (fun z i => u8_lt _) rf h
    · exact getD_foldl_set_lt _ _ 1 _ (fun z i => u8_lt _) rf h
  · refine ⟨length_foldl_of_step _ (fun s i => by simp) _ _, fun k hk => ?_, fun h => ?_,
      fun h => ?_⟩
    · exact getD_foldl_set_ne _ _ k _ (fun i hi => by have := hmem i hi; omega) rf
    · exact getD_foldl_set_lt _ _ 0 _ (fun z i => u8_lt _) rf h
    · exact getD_foldl_set_lt _ _ 1 _ (fun z i => u8_lt _) rf h

theorem getD_foldl_set_hit_lt {ι : Type} (idx : ι → Nat) (val : List Nat → ι → Nat) (k : Nat)
    (l : List ι) (hval : ∀ z i, val z i < 256) (hit : ∃ i ∈ l, idx i = k) (s : List Nat)
    (hk : k < s.length) :
    (l.foldl (fun z i => z.set (idx i) (val z i)) s).getD k 0 < 256 := by
  induction l generalizing s with
  | nil => obtain ⟨i, hi, _⟩ := hit; cases hi
  | cons a l ih =>
    rw [List.foldl_cons]
    by_cases ha : idx a = k
    · apply getD_foldl_set_lt idx val k l hval
      rw [ha]
      simp [List.getD_eq_getElem?_getD, List.getElem?_set_self hk, hval]
    · apply ih
      · obtain ⟨i, hi, hik⟩ := hit
        rcases List.mem_cons.mp hi with h | h
        · exact absurd (h ▸ hik) ha
        · exact ⟨i, h, hik⟩
      · rw [List.length_set]; exact hk

theorem execute_write_back_effect (round addr : Nat) (sp rfs : List Nat) :
    (execute_write_back round addr sp rfs).length = sp.length ∧
    (∀ k, k < addr ∨ addr + 8 ≤ k →
      (execute_write_back round addr sp rfs).getD k 0 = sp.getD k 0) ∧
    (addr < sp.length → (execute_write_back round addr sp rfs).getD addr 0 < 256) := by
  unfold execute_write_back
  refine ⟨length_foldl_of_step _ (fun s i => by simp) _ _, fun k hk => ?_, fun h => ?_⟩
  · exact getD_foldl_set_ne _ _ k _
      (fun i hi => by have := List.mem_range.mp hi; omega) sp
  · exact getD_foldl_set_hit_lt (fun i => addr + i) _ addr _ (fun z i => u8_lt _)
      ⟨0, List.mem_range.mpr (by decide), rfl⟩ sp h

theorem execute_addr_lt (size : Nat) (rf : List Nat) (hsize : 8 < size) :
    execute_addr size rf + 8 < size + 1 := by
  have : execute_addr size rf < size - 8 := Nat.mod_lt _ (by omega)
  omega

theorem execute_addr_le (size : Nat) (rf : List Nat) (h0 : rf.getD 0 0 < 256)
    (h1 : rf.getD 1 0 < 256) : execute_addr size rf ≤ 65535 := by
  have hs : rf.getD 0 0 <<< 8 < 2 ^ 16 := by
    rw [Nat.shiftLeft_eq]; omega
  have h : (rf.getD 0 0 <<< 8) ||| rf.getD 1 0 < 2 ^ 16 :=
    Nat.or_lt_two_pow hs (by omega)
  have := Nat.mod_le ((rf.getD 0 0 <<< 8) ||| rf.getD 1 0) (size - 8)
  unfold execute_addr
  omega

/-- Everything a round of `execute_program` does that the later statements use. -/
theorem execute_round_effect (size round : Nat) (sp rf : List Nat) (hsize : 8 < size)
    (hlen : sp.length = size) :
    ∃ sp1 rf1, execute_round size round sp rf = .ok (sp1, rf1) ∧ sp1.length = size ∧
      rf1.length = rf.length ∧
      (∀ k, untouched_register k → rf1.getD k 0 = rf.getD k 0) ∧
      (∀ k, k < execute_addr size rf ∨ execute_addr size rf + 8 ≤ k →
        sp1.getD k 0 = sp.getD k 0) ∧
      (rf.getD 0 0 < 256 → rf.getD 1 0 < 256 → rf1.getD 0 0 < 256 ∧ rf1.getD 1 0 < 256) := by
  have haddr := execute_addr_lt size rf hsize
  have hnot : ¬ sp.length < execute_addr size rf + 8 := by omega
  obtain ⟨hsl, hsu, hs0, hs1⟩ := execute_switch_effect round (execute_addr size rf)
    (execute_value (execute_addr size rf) sp) sp rf
  obtain ⟨hwl, hwf, hwa⟩ := execute_write_back_effect round (execute_addr size rf) sp
    (execute_switch round (execute_addr size rf) (execute_value (execute_addr size rf) sp) sp rf)
  rw [execute_round_eq, if_neg hnot]
  refine ⟨_, _, rfl, by rw [hwl, hlen], by simp [hsl], fun k hk => ?_, hwf, fun h0 h1 => ⟨?_, ?_⟩⟩
  · have hk0 : (0 : Nat) ≠ k := by unfold untouched_register at hk; omega
    have hk1 : (1 : Nat) ≠ k := by unfold untouched_register at hk; omega
    rw [getD_set_ne' _ _ _ _ hk1, getD_set_ne' _ _ _ _ hk0]
    exact hsu k hk
  · rw [getD_set_ne' _ _ _ _ (by decide)]
    exact getD_set_eq_lt _ _ _ (hs1 h1) (hs0 h0)
  · apply getD_set_eq_lt _ _ _ (hwa (by omega))
    rw [getD_set_ne' _ _ _ _ (by decide)]
    exact hs1 h1

theorem execute_rounds_effect (size : Nat) (hsize : 8 < size) :
    ∀ (n round : Nat) (sp rf : List Nat), sp.length = size →
      ∃ sp1 rf1, execute_rounds size n round sp rf = .ok (sp1, rf1) ∧ sp1.length = size ∧
        rf1.length = rf.length ∧
        (∀ k, untouched_register k → rf1.getD k 0 = rf.getD k 0) ∧
        (rf.getD 0 0 < 256 → rf.getD 1 0 < 256 →
          rf1.getD 0 0 < 256 ∧ rf1.getD 1 0 < 256 ∧
          ∀ k, 65543 ≤ k → sp1.getD k 0 = sp.getD k 0) := by
  intro n
  induction n with
  | zero =>
    intro round sp rf h
    exact ⟨sp, rf, rfl, h, rfl, fun _ _ => rfl, fun h0 h1 => ⟨h0, h1, fun _ _ => rfl⟩⟩
  | succ n ih =>
    intro round sp rf h
    obtain ⟨sp1, rf1, e1, l1, m1, u1, f1, b1⟩ := execute_round_effect size round sp rf hsize h
    obtain ⟨sp2, rf2, e2, l2, m2, u2, b2⟩ := ih (round + 1) sp1 rf1 l1
    refine ⟨sp2, rf2, by simp only [execute_rounds, e1, e2], l2, by rw [m2, m1],
      fun k hk => by rw [u2 k hk, u1 k hk], fun h0 h1 => ?_⟩
    obtain ⟨c0, c1⟩ := b1 h0 h1
    obtain ⟨d0, d1, d2⟩ := b2 c0 c1
    refine ⟨d0, d1, fun k hk => ?_⟩
    have := execute_addr_le size rf h0 h1
    rw [d2 k hk, f1 k (Or.inr (by omega))]

/-- The loop of `execute_program` one round longer: the extra round is the last one. -/
theorem execute_rounds_succ (size : Nat) :
    ∀ (n round : Nat) (sp rf : List Nat),
      execute_rounds size (n + 1) round sp rf =
        match execute_rounds size n round sp rf with
        | .error e => .error e
        | .ok (sp1, rf1) => execute_round size (round + n) sp1 rf1 := by
  intro n
  induction n with
  | zero =>
    intro round sp rf
    simp only [execute_rounds, Nat.add_zero]
    cases execute_round size round sp rf with
    | error e => rfl
    | ok s => rfl
  | succ n ih =>
    intro round sp rf
    rw [execute_rounds]
    cases h : execute_round size round sp rf with
    | error e => simp only [execute_rounds, h]
    | ok s =>
      obtain ⟨sp1, rf1⟩ := s
      simp only []
      rw [ih (round + 1) sp1 rf1]
      conv_rhs => rw [execute_rounds]
      simp only [h]
      rw [show round + 1 + n = round + (n + 1) by omega]

/-- The loop of `execute_program` is the left-to-right run of `execute_round` over the
round numbers `round, round + 1, ..`, stopping at the first fault. -/
theorem execute_rounds_eq_foldlM (size : Nat) :
    ∀ (n round : Nat) (sp rf : List Nat),
      execute_rounds size n round sp rf =
        (List.range' round n).foldlM
          (fun (s : List Nat × List Nat) i => execute_round size i s.1 s.2) (sp, rf) := by
  intro n
  induction n with
  | zero => intro round sp rf; rfl
  | succ n ih =>
    intro round sp rf
    rw [execute_rounds, List.range'_succ, List.foldlM_cons]
    cases h : execute_round size round sp rf with
    | error e => rfl
    | ok s =>
      obtain ⟨sp1, rf1⟩ := s
      simp only []
      rw [ih]
      rfl

/-! ### RandomX light: the seeds -/

theorem length_pad256 (input : List Nat) : (pad256 input).length = 256 := by
  simp only [pad256, List.length_append, List.length_take, List.length_replicate]
  omega

theorem getD_pad256_lt (input : List Nat) (hin : ∀ b ∈ input, b < 256) (k : Nat) :
    (pad256 input).getD k 0 < 256 := by
  by_cases hk : k < (pad256 input).length
  · rw [List.getD_eq_getElem _ _ hk]
    have hb : (pad256 input)[k] ∈ pad256 input := List.getElem_mem hk
    rcases List.mem_append.mp hb with h1 | h1
    · exact hin _ (List.mem_of_mem_take h1)
    · rw [(List.mem_replicate.mp h1).2]; decide
  · rw [List.getD_eq_default _ _ (by omega)]
    decide

theorem take_pad_append_zero (l : List Nat) (n : Nat) (h : l.length < n) :
    (l ++ [0]).take n ++ List.replicate (n - (l ++ [0]).length) 0 =
      l.take n ++ List.replicate (n - l.length) 0 := by
  have h1 : (l ++ [0]).length ≤ n := by simp; omega
  rw [List.take_of_length_le h1, List.take_of_length_le (by omega)]
  have h2 : n - l.length = (n - (l ++ [0]).length) + 1 := by simp; omega
  rw [h2, List.replicate_succ]
  simp

theorem take_pad_append_extra (l extra : List Nat) (n : Nat) (h : n ≤ l.length) :
    (l ++ extra).take n ++ List.replicate (n - (l ++ extra).length) 0 =
      l.take n ++ List.replicate (n - l.length) 0 := by
  have h1 : n - (l ++ extra).length = 0 := by simp; omega
  have h2 : n - l.length = 0 := by omega
  rw [h1, h2, List.take_append_of_le_length h]

theorem execute_program_congr (sp : List Nat) (size : Nat) (a b : List Nat)
    (h : pad256 a = pad256 b) : execute_program sp size a = execute_program sp size b := by
  unfold execute_program
  rw [init_registers_eq, init_registers_eq, h]

theorem randomx_light_hash_congr_input (key a b : List Nat) (h : pad256 a = pad256 b) :
    randomx_light_hash true a key = randomx_light_hash true b key := by
  unfold randomx_light_hash
  rw [if_neg (by decide), if_neg (by decide), execute_program_congr _ _ a b h]

theorem randomx_light_hash_congr_key (mallocOk : Bool) (input k1 k2 : List Nat)
    (h : pad16 k1 = pad16 k2) :
    randomx_light_hash mallocOk input k1 = randomx_light_hash mallocOk input k2 := by
  cases mallocOk with
  | false =>
    unfold randomx_light_hash
    rw [if_pos (by decide), if_pos (by decide)]
  | true =>
    unfold randomx_light_hash
    rw [init_scratchpad_eq SCRATCHPAD_SIZE k1, init_scratchpad_eq SCRATCHPAD_SIZE k2, h]

theorem execute_round_untouched (size round : Nat) (sp rf sp1 rf1 : List Nat) (k : Nat)
    (hk : untouched_register k) (h : execute_round size round sp rf = .ok (sp1, rf1)) :
    rf1.getD k 0 = rf.getD k 0 := by
  rw [execute_round_eq] at h
  split at h
  · cases h
  · simp only [Except.ok.injEq, Prod.mk.injEq] at h
    have hk0 : (0 : Nat) ≠ k := by unfold untouched_register at hk; omega
    have hk1 : (1 : Nat) ≠ k := by unfold untouched_register at hk; omega
    rw [← h.2, getD_set_ne' _ _ _ _ hk1, getD_set_ne' _ _ _ _ hk0]
    exact (execute_switch_effect round _ _ sp rf).2.1 k hk

/-! ### RandomX light: the statements -/

/-- C23: with the scratch buffer available, `randomx_light_hash` returns `blake3_hash`
of the 512 bytes made of the final register file (256 bytes) followed by the first 256
bytes of the final scratchpad, where the final state is reached by running the rounds
numbered `0, 1, .., 2047` (2048 of them, none faulting), in this order, from the
scratchpad filled from the key and the register file seeded from the input; the
operation of a round depends on the round number through `round % 8` only. -/
theorem randomx_light_hash_final_state (input key : List Nat) :
    ∃ sp rf,
      (List.range 2048).foldlM
        (fun (s : List Nat × List Nat) round => execute_round SCRATCHPAD_SIZE round s.1 s.2)
        (init_scratchpad SCRATCHPAD_SIZE key, init_registers input) = .ok (sp, rf) ∧
      execute_program (init_scratchpad SCRATCHPAD_SIZE key) SCRATCHPAD_SIZE input =
        .ok (sp, rf) ∧
      rf.length = 256 ∧ (sp.take 256).length = 256 ∧ (rf ++ sp.take 256).length = 512 ∧
      randomx_light_hash true input key = .ok (blake3_hash (rf ++ sp.take 256)) ∧
      ∀ round addr value s r,
        execute_switch round addr value s r = execute_switch (round % 8) addr value s r := by
  obtain ⟨sp, rf, e, l, m, _, _⟩ := execute_rounds_effect SCRATCHPAD_SIZE (by decide) 2048 0
    (init_scratchpad SCRATCHPAD_SIZE key) (init_registers input) (length_init_scratchpad key)
  have hrf : rf.length = 256 := by rw [m, init_registers_eq, length_pad256]
  have hsp : (sp.take 256).length = 256 := by
    rw [List.length_take, l]; decide
  have hprog : execute_program (init_scratchpad SCRATCHPAD_SIZE key) SCRATCHPAD_SIZE input
      = .ok (sp, rf) := e
  refine ⟨sp, rf, ?_, hprog, hrf, hsp, by rw [List.length_append, hrf, hsp], ?_, ?_⟩
  · rw [List.range_eq_range', ← execute_rounds_eq_foldlM]
    exact e
  · unfold randomx_light_hash
    rw [if_neg (by decide), hprog]
    simp only []
    rw [List.take_of_length_le (show rf.length ≤ 256 by omega)]
  · intro round addr value s r
    unfold execute_switch
    rw [Nat.mod_mod]

/-- C24: for every input made of bytes and every key, in every round `n` (in particular
each of the 2048 rounds of `execute_program`) on the 256 KiB scratchpad, the rounds
before it have run without a fault, the address
`((reg[0] << 8) | reg[1]) % (size - 8)` of the round is at most 65535, the 8 bytes
at `addr .. addr + 7` are inside the scratchpad, the round itself runs without a fault,
and after it the scratchpad bytes at offsets `≥ 65543` are still the ones of the
initial fill. -/
theorem execute_program_addresses_in_range (input key : List Nat)
    (hin : ∀ b ∈ input, b < 256) (n : Nat) :
    ∃ sp rf sp1 rf1,
      execute_rounds SCRATCHPAD_SIZE n 0 (init_scratchpad SCRATCHPAD_SIZE key)
        (init_registers input) = .ok (sp, rf) ∧
      execute_addr SCRATCHPAD_SIZE rf =
        ((rf.getD 0 0 <<< 8) ||| rf.getD 1 0) % (SCRATCHPAD_SIZE - 8) ∧
      execute_addr SCRATCHPAD_SIZE rf ≤ 65535 ∧
      execute_addr SCRATCHPAD_SIZE rf + 8 ≤ sp.length ∧
      execute_round SCRATCHPAD_SIZE n sp rf = .ok (sp1, rf1) ∧
      execute_rounds SCRATCHPAD_SIZE (n + 1) 0 (init_scratchpad SCRATCHPAD_SIZE key)
        (init_registers input) = .ok (sp1, rf1) ∧
      sp1.length = SCRATCHPAD_SIZE ∧
      ∀ k, 65543 ≤ k → sp1.getD k 0 = (init_scratchpad SCRATCHPAD_SIZE key).getD k 0 := by
  have h0 : (init_registers input).getD 0 0 < 256 := by
    rw [init_registers_eq]; exact getD_pad256_lt input hin 0
  have h1 : (init_registers input).getD 1 0 < 256 := by
    rw [init_registers_eq]; exact getD_pad256_lt input hin 1
  obtain ⟨sp, rf, e, l, _, _, b⟩ := execute_rounds_effect SCRATCHPAD_SIZE (by decide) n 0
    (init_scratchpad SCRATCHPAD_SIZE key) (init_registers input) (length_init_scratchpad key)
  obtain ⟨c0, c1, c2⟩ := b h0 h1
  obtain ⟨sp1, rf1, e1, l1, _, _, f1, _⟩ :=
    execute_round_effect SCRATCHPAD_SIZE n sp rf (by decide) l
  have hle := execute_addr_le SCRATCHPAD_SIZE rf c0 c1
  have hsz : SCRATCHPAD_SIZE = 262144 := by decide
  refine ⟨sp, rf, sp1, rf1, e, rfl, hle, by omega, e1, ?_, l1, fun k hk => ?_⟩
  · rw [execute_rounds_succ, e]
    simp only [Nat.zero_add]
    exact e1
  · rw [f1 k (Or.inr (by omega)), c2 k hk]

/-- Witness of C24: the input `[1, 2, 3]`, the empty key and round 5. -/
theorem execute_program_addresses_in_range_witness :
    (∀ b ∈ [1, 2, 3], b < 256) ∧
    ∃ sp rf sp1 rf1,
      execute_rounds SCRATCHPAD_SIZE 5 0 (init_scratchpad SCRATCHPAD_SIZE [])
        (init_registers [1, 2, 3]) = .ok (sp, rf) ∧
      execute_addr SCRATCHPAD_SIZE rf =
        ((rf.getD 0 0 <<< 8) ||| rf.getD 1 0) % (SCRATCHPAD_SIZE - 8) ∧
      execute_addr SCRATCHPAD_SIZE rf ≤ 65535 ∧
      execute_addr SCRATCHPAD_SIZE rf + 8 ≤ sp.length ∧
      execute_round SCRATCHPAD_SIZE 5 sp rf = .ok (sp1, rf1) ∧
      execute_rounds SCRATCHPAD_SIZE (5 + 1) 0 (init_scratchpad SCRATCHPAD_SIZE [])
        (init_registers [1, 2, 3]) = .ok (sp1, rf1) ∧
      sp1.length = SCRATCHPAD_SIZE ∧
      ∀ k, 65543 ≤ k → sp1.getD k 0 = (init_scratchpad SCRATCHPAD_SIZE []).getD k 0 :=
  ⟨by decide, execute_program_addresses_in_range [1, 2, 3] [] (by decide) 5⟩

/-- C25, amended: when the scratch buffer is available, `randomx_light_hash` depends
on its input only through the first 256 bytes zero-padded to 256 bytes: two inputs with
the same `pad256` give the same result for every key; an input shorter than 256 bytes
and the same input followed by a zero byte give the same result; and whatever follows
the first 256 bytes has no effect. -/
theorem randomx_light_hash_input_prefix (key a b : List Nat) (h : pad256 a = pad256 b) :
    randomx_light_hash true a key = randomx_light_hash true b key ∧
    (∀ input, input.length < 256 →
      randomx_light_hash true (input ++ [0]) key = randomx_light_hash true input key) ∧
    (∀ input extra, 256 ≤ input.length →
      randomx_light_hash true (input ++ extra) key = randomx_light_hash true input key) :=
  ⟨randomx_light_hash_congr_input key a b h,
   fun input hl => randomx_light_hash_congr_input key _ _ (take_pad_append_zero input 256 hl),
   fun input extra hl =>
     randomx_light_hash_congr_input key _ _ (take_pad_append_extra input extra 256 hl)⟩

/-- Witness of C25: the inputs `[1]` and `[1, 0]` with the key `[7]`. -/
theorem randomx_light_hash_input_prefix_witness :
    pad256 [1] = pad256 [1, 0] ∧
    (randomx_light_hash true [1] [7] = randomx_light_hash true [1, 0] [7] ∧
    (∀ input, input.length < 256 →
      randomx_light_hash true (input ++ [0]) [7] = randomx_light_hash true input [7]) ∧
    (∀ input extra, 256 ≤ input.length →
      randomx_light_hash true (input ++ extra) [7] = randomx_light_hash true input [7])) :=
  ⟨by rfl, randomx_light_hash_input_prefix [7] [1] [1, 0] (by rfl)⟩

set_option maxRecDepth 100000 in
/-- Counterexample to C25 as stated: when `malloc` returns no buffer the result is
`blake3_hash` of the whole input, so the empty input and the input `[0]`, which have
the same zero-padded 256-byte prefix, give different digests. -/
theorem randomx_light_hash_fallback_distinguishes_padding :
    pad256 [] = pad256 [0] ∧
    randomx_light_hash false [] [] ≠ randomx_light_hash false [0] [] := by
  decide!

/-- C26: `randomx_light_hash` depends on its key only through the first 16 bytes
zero-padded to 16 bytes, whether the scratch buffer is available or not: two keys with
the same `pad16` give the same result for every input; a key shorter than 16 bytes and
the same key followed by a zero byte give the same result; and whatever follows the
first 16 bytes of a key has no effect. -/
theorem randomx_light_hash_key_prefix (mallocOk : Bool) (input k1 k2 : List Nat)
    (h : pad16 k1 = pad16 k2) :
    randomx_light_hash mallocOk input k1 = randomx_light_hash mallocOk input k2 ∧
    (∀ key, key.length < 16 →
      randomx_light_hash mallocOk input (key ++ [0]) = randomx_light_hash mallocOk input key) ∧
    (∀ key extra, 16 ≤ key.length →
      randomx_light_hash mallocOk input (key ++ extra) =
        randomx_light_hash mallocOk input key) :=
  ⟨randomx_light_hash_congr_key mallocOk input k1 k2 h,
   fun key hl => randomx_light_hash_congr_key mallocOk input _ _ (take_pad_append_zero key 16 hl),
   fun key extra hl =>
     randomx_light_hash_congr_key mallocOk input _ _ (take_pad_append_extra key extra 16 hl)⟩

/-- Witness of C26: the keys `[9, 8]` and `[9, 8, 0]` with the input `[1, 2, 3]`. -/
theorem randomx_light_hash_key_prefix_witness :
    pad16 [9, 8] = pad16 [9, 8, 0] ∧
    (randomx_light_hash true [1, 2, 3] [9, 8] = randomx_light_hash true [1, 2, 3] [9, 8, 0] ∧
    (∀ key, key.length < 16 →
      randomx_light_hash true [1, 2, 3] (key ++ [0]) = randomx_light_hash true [1, 2, 3] key) ∧
    (∀ key extra, 16 ≤ key.length →
      randomx_light_hash true [1, 2, 3] (key ++ extra) =
        randomx_light_hash true [1, 2, 3] key)) :=
  ⟨by decide, randomx_light_hash_key_prefix true [1, 2, 3] [9, 8] [9, 8, 0] (by decide)⟩

/-- C27: a round of `execute_program` leaves the register bytes at the indices
`17 .. 23`, `42 .. 47` and `64 .. 255` (all indices outside `0 .. 16`, `24 .. 41` and
`48 .. 63`) as they were; so for every input, key and number `n` of rounds (2048 in
`execute_program`) the rounds run without a fault and such a register byte still is
the byte of the zero-padded input at that position, in the register file and in the
512 bytes that go into the final hash. -/
theorem execute_program_untouched_registers (input key : List Nat) (n k : Nat)
    (hk : untouched_register k) :
    (∀ size round sp rf sp1 rf1, execute_round size round sp rf = .ok (sp1, rf1) →
      rf1.getD k 0 = rf.getD k 0) ∧
    ∃ sp rf,
      execute_rounds SCRATCHPAD_SIZE n 0 (init_scratchpad SCRATCHPAD_SIZE key)
        (init_registers input) = .ok (sp, rf) ∧
      rf.getD k 0 = (pad256 input).getD k 0 ∧
      (k < 256 → (rf.take 256 ++ sp.take 256).getD k 0 = (pad256 input).getD k 0) := by
  refine ⟨fun size round sp rf sp1 rf1 h => execute_round_untouched size round sp rf sp1 rf1 k hk h,
    ?_⟩
  obtain ⟨sp, rf, e, _, m, u, _⟩ := execute_rounds_effect SCRATCHPAD_SIZE (by decide) n 0
    (init_scratchpad SCRATCHPAD_SIZE key) (init_registers input) (length_init_scratchpad key)
  have hrf : rf.length = 256 := by rw [m, init_registers_eq, length_pad256]
  have hu : rf.getD k 0 = (pad256 input).getD k 0 := by rw [u k hk, init_registers_eq]
  refine ⟨sp, rf, e, hu, fun hlt => ?_⟩
  rw [List.take_of_length_le (show rf.length ≤ 256 by omega),
    List.getD_append _ _ _ _ (by omega)]
  exact hu

/-- Witness of C27: register 64 after the 2048 rounds on the input `[5]` and the empty
key. -/
theorem execute_program_untouched_registers_witness :
    untouched_register 64 ∧
    ((∀ size round sp rf sp1 rf1, execute_round size round sp rf = .ok (sp1, rf1) →
      rf1.getD 64 0 = rf.getD 64 0) ∧
    ∃ sp rf,
      execute_rounds SCRATCHPAD_SIZE 2048 0 (init_scratchpad SCRATCHPAD_SIZE [])
        (init_registers [5]) = .ok (sp, rf) ∧
      rf.getD 64 0 = (pad256 [5]).getD 64 0 ∧
      (64 < 256 → (rf.take 256 ++ sp.take 256).getD 64 0 = (pad256 [5]).getD 64 0)) :=
  ⟨Or.inr (Or.inr (Nat.le_refl 64)),
    execute_program_untouched_registers [5] [] 2048 64 (Or.inr (Or.inr (Nat.le_refl 64)))⟩

/-! ### The simplified hash and reference BLAKE3 on a single chunk -/

theorem getD_set_self' (s : List Nat) (i v : Nat) (h : i < s.length) :
    (s.set i v).getD i 0 = v := by
  simp [List.getD_eq_getElem?_getD, List.getElem?_set_self h]

theorem g_eq_spec (v : List Nat) (a b c d x y : Nat) (hab : a ≠ b) (hac : a ≠ c)
    (had : a ≠ d) (hbc : b ≠ c) (hbd : b ≠ d) (hcd : c ≠ d) (ha : a < v.length)
    (hb : b < v.length) (hc : c < v.length) (hd : d < v.length) :
    g v a b c d x y = spec_blake3_G v a b c d x y := by
  unfold g spec_blake3_G
  simp only [List.length_set, ha, hb, hc, hd, getD_set_self', getD_set_ne' _ _ _ _ hab,
    getD_set_ne' _ _ _ _ hac, getD_set_ne' _ _ _ _ had, getD_set_ne' _ _ _ _ hbc,
    getD_set_ne' _ _ _ _ hbd, getD_set_ne' _ _ _ _ hcd, getD_set_ne' _ _ _ _ hab.symm,
    getD_set_ne' _ _ _ _ hac.symm, getD_set_ne' _ _ _ _ had.symm,
    getD_set_ne' _ _ _ _ hbc.symm, getD_set_ne' _ _ _ _ hbd.symm,
    getD_set_ne' _ _ _ _ hcd.symm]
  apply List.ext_getElem?
  intro k
  simp only [List.getElem?_set, List.length_set, ha, hb, hc, hd, if_true]
  split_ifs <;> first | rfl | omega

theorem length_spec_blake3_G (v : List Nat) (a b c d x y : Nat) :
    (spec_blake3_G v a b c d x y).length = v.length := by
  simp [spec_blake3_G]

theorem blake3_schedule_eq (m : List Nat) (r k : Nat) (hr : r < 7) (hk : k < 16) :
    m.getD ((MSG_SCHEDULE.getD r []).getD k 0) 0 =
      (Nat.iterate spec_blake3_permute r m).getD k 0 := by
  interval_cases r <;> interval_cases k <;> rfl

theorem g_eq_spec16 (v : List Nat) (a b c d x y : Nat) (hv : v.length = 16)
    (h : a ≠ b ∧ a ≠ c ∧ a ≠ d ∧ b ≠ c ∧ b ≠ d ∧ c ≠ d ∧ a < 16 ∧ b < 16 ∧ c < 16 ∧ d < 16) :
    g v a b c d x y = spec_blake3_G v a b c d x y ∧
      (spec_blake3_G v a b c d x y).length = 16 := by
  obtain ⟨hab, hac, had, hbc, hbd, hcd, ha, hb, hc, hd⟩ := h
  exact ⟨g_eq_spec v a b c d x y hab hac had hbc hbd hcd (by omega) (by omega) (by omega)
    (by omega), by rw [length_spec_blake3_G, hv]⟩

theorem blake3_round_eq_spec (m v : List Nat) (r : Nat) (hr : r < 7) (hv : v.length = 16) :
    blake3_round m v r = spec_blake3_round v (Nat.iterate spec_blake3_permute r m) ∧
      (spec_blake3_round v (Nat.iterate spec_blake3_permute r m)).length = 16 := by
  have hm := fun k hk => blake3_schedule_eq m r k hr hk
  unfold blake3_round spec_blake3_round
  simp only [hm 0 (by decide), hm 1 (by decide), hm 2 (by decide), hm 3 (by decide),
    hm 4 (by decide), hm 5 (by decide), hm 6 (by decide), hm 7 (by decide),
    hm 8 (by decide), hm 9 (by decide), hm 10 (by decide), hm 11 (by decide),
    hm 12 (by decide), hm 13 (by decide), hm 14 (by decide), hm 15 (by decide)]
  generalize Nat.iterate spec_blake3_permute r m = w
  obtain ⟨e1, l1⟩ := g_eq_spec16 v 0 4 8 12 (w.getD 0 0) (w.getD 1 0) hv (by decide)
  obtain ⟨e2, l2⟩ := g_eq_spec16 _ 1 5 9 13 (w.getD 2 0) (w.getD 3 0) l1 (by decide)
  obtain ⟨e3, l3⟩ := g_eq_spec16 _ 2 6 10 14 (w.getD 4 0) (w.getD 5 0) l2 (by decide)
  obtain ⟨e4, l4⟩ := g_eq_spec16 _ 3 7 11 15 (w.getD 6 0) (w.getD 7 0) l3 (by decide)
  obtain ⟨e5, l5⟩ := g_eq_spec16 _ 0 5 10 15 (w.getD 8 0) (w.getD 9 0) l4 (by decide)
  obtain ⟨e6, l6⟩ := g_eq_spec16 _ 1 6 11 12 (w.getD 10 0) (w.getD 11 0) l5 (by decide)
  obtain ⟨e7, l7⟩ := g_eq_spec16 _ 2 7 8 13 (w.getD 12 0) (w.getD 13 0) l6 (by decide)
  obtain ⟨e8, l8⟩ := g_eq_spec16 _ 3 4 9 14 (w.getD 14 0) (w.getD 15 0) l7 (by decide)
  rw [e1, e2, e3, e4, e5, e6, e7, e8]
  exact ⟨rfl, l8⟩

theorem blake3_rounds_eq_spec (m : List Nat) :
    ∀ (n r : Nat) (v : List Nat), r + n ≤ 7 → v.length = 16 →
      (List.range' r n).foldl (blake3_round m) v =
        spec_blake3_rounds n v (Nat.iterate spec_blake3_permute r m) ∧
      (spec_blake3_rounds n v (Nat.iterate spec_blake3_permute r m)).length = 16 := by
  intro n
  induction n with
  | zero => intro r v _ hv; exact ⟨rfl, hv⟩
  | succ n ih =>
    intro r v hr hv
    obtain ⟨e, l⟩ := blake3_round_eq_spec m v r (by omega) hv
    rw [List.range'_succ, List.foldl_cons, e]
    have := ih (r + 1) _ (by omega) l
    rw [Function.iterate_succ_apply'] at this
    exact this

theorem blake3_rounds_seven (m v : List Nat) (hv : v.length = 16) :
    (List.range 7).foldl (blake3_round m) v = spec_blake3_rounds 7 v m ∧
      (spec_blake3_rounds 7 v m).length = 16 := by
  have := blake3_rounds_eq_spec m 7 0 v (by decide) hv
  rw [← List.range_eq_range'] at this
  exact this

theorem blake3_finalize_eq_spec (h v : List Nat) (hv : v.length = 16) :
    blake3_finalize h v =
      (List.range 8).map (fun i => v.getD i 0 ^^^ v.getD (i + 8) 0) ++
        (List.range 8).map (fun i => v.getD (i + 8) 0 ^^^ h.getD i 0) := by
  obtain ⟨f, rfl⟩ : ∃ f : Nat → Nat, v = (List.range 16).map f :=
    ⟨fun i => v.getD i 0, by
      rw [map_getD_range_eq_take v 16 (by omega), List.take_of_length_le (by omega)]⟩
  have h8 : List.range 8 = [0, 1, 2, 3, 4, 5, 6, 7] := rfl
  have h16 : List.range 16 = [0, 1, 2, 3, 4, 5, 6, 7, 8, 9, 10, 11, 12, 13, 14, 15] := rfl
  simp [blake3_finalize, h8, h16]

theorem blake3_compress_eq_spec (h block : List Nat) (t b d : Nat) :
    blake3_compress h block t b d = spec_blake3_compress h block t b d := by
  unfold blake3_compress spec_blake3_compress
  have hv : ((List.range 8).map (fun i => h.getD i 0) ++ List.take 4 IV ++
      [u32 t, u32 (t >>> 32), b, d]).length = 16 := rfl
  have hst : (List.range 8).map (fun i => h.getD i 0) ++
      [IV.getD 0 0, IV.getD 1 0, IV.getD 2 0, IV.getD 3 0, u32 t, u32 (t >>> 32), b, d] =
      (List.range 8).map (fun i => h.getD i 0) ++ List.take 4 IV ++
        [u32 t, u32 (t >>> 32), b, d] := rfl
  obtain ⟨e, l⟩ := blake3_rounds_seven ((List.range 16).map (blake3_load block)) _ hv
  rw [hst]
  dsimp only
  rw [e]
  exact blake3_finalize_eq_spec h _ l

theorem spec_blake3_interior_eq (data : List Nat) :
    ∀ (j s : Nat), 1 ≤ s →
      spec_blake3_interior j (spec_blake3_chunk_cv data s) (data.drop (64 * s)) =
        spec_blake3_chunk_cv data (s + j) := by
  intro j
  induction j with
  | zero => intro s _; rfl
  | succ j ih =>
    intro s hs
    have h0 : ¬ s = 0 := by omega
    have := ih (s + 1) (by omega)
    simp only [spec_blake3_chunk_cv, h0, if_false] at this
    simp only [spec_blake3_interior, blake3_compress_eq_spec, List.drop_drop]
    rw [show 64 * s + 64 = 64 * (s + 1) by omega, this]
    congr 1
    omega

theorem spec_blake3_chain_eq (data : List Nat) (h : 64 < data.length) :
    spec_blake3_chain data = spec_blake3_single_chunk data := by
  have hk : ¬ (data.length + 63) / 64 = 1 := by omega
  have hk2 : ¬ data.length = 0 := by omega
  have hint := spec_blake3_interior_eq data ((data.length + 63) / 64 - 2) 1 (by omega)
  have h1 : 1 + ((data.length + 63) / 64 - 2) = (data.length + 63) / 64 - 1 := by omega
  rw [h1] at hint
  unfold spec_blake3_chain spec_blake3_single_chunk
  simp only [hk, hk2, if_false, blake3_compress_eq_spec, List.length_drop]
  rw [← hint]
  simp only [spec_blake3_chunk_cv, if_true, Nat.mul_zero, List.drop_zero, Nat.mul_one]
  rfl

/-- On every input `blake3_hash` computes what reference BLAKE3 computes on a single
chunk. -/
theorem blake3_hash_eq_single_chunk (data : List Nat) :
    blake3_hash data = spec_blake3_single_chunk data := by
  by_cases h0 : data.length = 0
  · have hd : data = [] := List.length_eq_zero.mp h0
    subst hd
    have e : blake3_hash [] = blake3_output (blake3_compress IV (List.replicate 64 0) 0 0 11) :=
      rfl
    have e2 : spec_blake3_single_chunk [] =
        blake3_output (spec_blake3_compress IV (List.replicate 64 0) 0 0 11) := rfl
    rw [e, e2, blake3_compress_eq_spec]
  · by_cases h64 : data.length ≤ 64
    · have hk : (data.length + 63) / 64 = 1 := by omega
      have hu : u32 data.length = data.length := by unfold u32; omega
      unfold blake3_hash blake3_final_out spec_blake3_single_chunk
      simp only [h0, h64, hk, hu, if_false, if_true, Nat.sub_self, Nat.mul_zero, List.drop_zero,
        spec_blake3_chunk_cv, List.drop_replicate, blake3_compress_eq_spec]
      rfl
    · rw [blake3_hash_chain_spec data (by omega), spec_blake3_chain_eq data (by omega)]

set_option maxRecDepth 100000 in
/-- C28: on every input `blake3_hash` computes what reference BLAKE3 computes on a
single chunk (`spec_blake3_single_chunk`), which is reference BLAKE3 for the inputs
that fit one chunk; `blake3_hash` of the empty input is the published BLAKE3 digest of
the empty input, `af1349b9f5f9a1a6a0404dea36dcc9499bcb25c9adc112b7cc9a93cae41f3262`;
it is the output of one compression of the all-zero block with `IV` as chaining value,
counter 0, block length 0 and the flags `CHUNK_START | CHUNK_END | ROOT = 11`; and the
call of `blake3_compress` in the branch `len == 0` has the same arguments as the one
in the branch `len <= 64` would have on the empty input. The single-block input
`"abc"` also gets its published BLAKE3 digest,
`6437b3ac38465133ffb63b75273a8db548c558465d79db03fd359c6cd5bd9d85`. -/
theorem blake3_hash_empty_input :
    (∀ data, blake3_hash data = spec_blake3_single_chunk data) ∧
    blake3_hash [] =
      [0xAF, 0x13, 0x49, 0xB9, 0xF5, 0xF9, 0xA1, 0xA6, 0xA0, 0x40, 0x4D, 0xEA, 0x36, 0xDC,
       0xC9, 0x49, 0x9B, 0xCB, 0x25, 0xC9, 0xAD, 0xC1, 0x12, 0xB7, 0xCC, 0x9A, 0x93, 0xCA,
       0xE4, 0x1F, 0x32, 0x62] ∧
    CHUNK_START ||| CHUNK_END ||| ROOT = 11 ∧
    blake3_hash [] = blake3_output (blake3_compress IV (List.replicate 64 0) 0 0 11) ∧
    blake3_compress IV (List.replicate 64 0) 0 0 (CHUNK_START ||| CHUNK_END ||| ROOT) =
      blake3_compress IV (([] : List Nat) ++ (List.replicate 64 0).drop ([] : List Nat).length)
        0 (u32 ([] : List Nat).length) (CHUNK_START ||| CHUNK_END ||| ROOT) ∧
    blake3_hash [0x61, 0x62, 0x63] =
      [0x64, 0x37, 0xB3, 0xAC, 0x38, 0x46, 0x51, 0x33, 0xFF, 0xB6, 0x3B, 0x75, 0x27, 0x3A,
       0x8D, 0xB5, 0x48, 0xC5, 0x58, 0x46, 0x5D, 0x79, 0xDB, 0x03, 0xFD, 0x35, 0x9C, 0x6C,
       0xD5, 0xBD, 0x9D, 0x85] :=
  ⟨blake3_hash_eq_single_chunk, by decide!, rfl, rfl, rfl, by decide!⟩

end Miner
